import Mathlib

set_option maxHeartbeats 1000000
set_option linter.unusedSectionVars false

namespace Gaemstone

/-!
Shallow embedding of the core voxel data structures of the repository:
the palette-compressed linear store (src/util/palette_store.rs), the
Z-order coordinate codec (src/util/z_order.rs, src/util/z_order_store.rs)
and the chunked octree (src/util/chunked_octree.rs).
-/

/-! ### Bit buffer codec

The Rust store keeps a BitVec with Lsb0 ordering; each virtual slot holds
bits_per_entry bits that encode a palette index, least significant bit
first.  We model the buffer as a List Bool. -/

/-- Decode a little-endian bit list into a natural number
(mirrors reading a usize out of a Lsb0 bit slice). -/
def bitsToNat : List Bool → Nat
  | [] => 0
  | b :: bs => (if b then 1 else 0) + 2 * bitsToNat bs

/-- Encode the low w bits of v, least significant first
(mirrors writing the low bits of a usize into a Lsb0 bit slice). -/
def natToBits : Nat → Nat → List Bool
  | 0, _ => []
  | w + 1, v => (v % 2 == 1) :: natToBits w (v / 2)

/-- The sub-slice of w bits starting at position a (bits[a..a+w]). -/
def bitSlice (l : List Bool) (a w : Nat) : List Bool :=
  (l.drop a).take w

/-! ### PaletteStore (src/util/palette_store.rs) -/

/-- Rust: struct PaletteEntry<T> { value: T, ref_count: usize }. -/
structure PaletteEntry (T : Type) where
  value : T
  ref_count : Nat
deriving DecidableEq, Repr

/-- The derived Default for PaletteEntry: default value, ref_count 0. -/
def PaletteEntry.dflt {T : Type} [Inhabited T] : PaletteEntry T :=
  { value := default, ref_count := 0 }

/-- Rust: struct PaletteStore<T> { size, bits, bits_per_entry, entries, used }. -/
structure PaletteStore (T : Type) where
  size : Nat
  bits : List Bool
  bits_per_entry : Nat
  entries : List (PaletteEntry T)
  used : Nat
deriving DecidableEq, Repr

namespace PaletteStore

variable {T : Type} [DecidableEq T] [Inhabited T]

/-- Rust: const DEFAULT_CAPACITY: usize = 32. -/
def DEFAULT_CAPACITY : Nat := 32

/-- util::integer_log2: bitsize-1 minus leading_zeros, the floor base-2
logarithm of a positive integer (the source asserts value > 0). -/
def integer_log2 (value : Nat) : Nat :=
  Nat.log2 value

/-- Rust usize::next_power_of_two: 1 for inputs up to 1, otherwise the
smallest power of two greater than or equal to the input. -/
def next_power_of_two (n : Nat) : Nat :=
  if n ≤ 1 then 1 else 2 ^ (Nat.log2 (n - 1) + 1)

/-- PaletteStore::new(size). -/
def new (T : Type) (size : Nat) : PaletteStore T :=
  { size := size, bits := [], bits_per_entry := 0, entries := [], used := 0 }

/-- fn get_palette_index(&self, index): decode bits_per_entry bits of the
slot starting at index * bits_per_entry. -/
def get_palette_index (s : PaletteStore T) (index : Nat) : Nat :=
  bitsToNat (bitSlice s.bits (index * s.bits_per_entry) s.bits_per_entry)

/-- fn set_palette_index(&mut self, index, value): overwrite the slot's
bit range with the low bits_per_entry bits of value. -/
def set_palette_index (s : PaletteStore T) (index value : Nat) : PaletteStore T :=
  { s with
    bits :=
      s.bits.take (index * s.bits_per_entry)
        ++ natToBits s.bits_per_entry value
        ++ s.bits.drop (index * s.bits_per_entry + s.bits_per_entry) }

/-- One step of the shrink compaction loop in set_bits_per_entry:
state is (entries, old_to_new_indices, counter). -/
def compactStep (st : List (PaletteEntry T) × List Nat × Nat) (i : Nat) :
    List (PaletteEntry T) × List Nat × Nat :=
  let (es, o2n, counter) := st
  if 0 < (es.getD i PaletteEntry.dflt).ref_count then
    ( if counter < i then es.set counter (es.getD i PaletteEntry.dflt) else es,
      o2n.set i counter,
      counter + 1 )
  else
    st

/-- fn set_bits_per_entry(&mut self, num_bits). -/
def set_bits_per_entry (s : PaletteStore T) (num_bits : Nat) : PaletteStore T :=
  -- If nothing changes, do not bother.
  if num_bits = s.bits_per_entry then
    s
  -- If bits_per_entry is being set to zero, reset the whole palette store.
  else if num_bits = 0 then
    { s with bits := [], entries := [], used := 0, bits_per_entry := 0 }
  -- If entries is empty, initialize everything to its default state.
  else if s.entries = [] then
    { s with
      bits := List.replicate (s.size * num_bits) false,
      entries :=
        (List.replicate (2 ^ num_bits) (PaletteEntry.dflt (T := T))).set 0
          { value := default, ref_count := s.size },
      used := 1,
      bits_per_entry := num_bits }
  -- If bits_per_entry grows, grow the underlying bits and palette vectors.
  else if s.bits_per_entry < num_bits then
    { s with
      bits :=
        ((List.range s.size).map (fun i =>
          bitSlice s.bits (i * s.bits_per_entry) s.bits_per_entry
            ++ List.replicate (num_bits - s.bits_per_entry) false)).flatten,
      entries :=
        s.entries ++ List.replicate (2 ^ num_bits - s.entries.length)
          (PaletteEntry.dflt (T := T)),
      bits_per_entry := num_bits }
  -- If bits_per_entry shrinks, reorganize palette entries and rebuild the
  -- bit vector.  The source first asserts used < 2^num_bits and panics
  -- otherwise; no public operation reaches this branch.
  else
    let st :=
      ((List.range s.entries.length).drop 1).foldl compactStep
        (s.entries, List.replicate s.entries.length 0, 1)
    let es := st.1.take (2 ^ num_bits)
    let o2n := st.2.1
    { s with
      bits :=
        ((List.range s.size).map (fun i =>
          natToBits num_bits (o2n.getD (get_palette_index s i) 0))).flatten,
      entries := es,
      bits_per_entry := num_bits }

/-- pub fn reserve(&mut self, additional): req_capacity is used + additional. -/
def reserve (s : PaletteStore T) (additional : Nat) : PaletteStore T :=
  if s.entries.length < s.used + additional then
    set_bits_per_entry s (integer_log2 (next_power_of_two (s.used + additional)))
  else
    s

/-- pub fn with_capacity(size, capacity). -/
def with_capacity (T : Type) [DecidableEq T] [Inhabited T] (size capacity : Nat) :
    PaletteStore T :=
  reserve (new T size) capacity

/-- pub unsafe fn get_unchecked(&self, index). -/
def get_unchecked (s : PaletteStore T) (index : Nat) : T :=
  if s.used = 0 then
    default
  else
    (s.entries.getD (get_palette_index s index) PaletteEntry.dflt).value

/-- fn get_free_palette_index(&mut self): returns the updated store and the
free palette index.  The source unwraps the position search; under the
store invariant a free entry always exists in the first branch. -/
def get_free_palette_index (s : PaletteStore T) : PaletteStore T × Nat :=
  if 0 < s.entries.length - s.used then
    (s, (s.entries.drop 1).findIdx (fun e => e.ref_count == 0) + 1)
  else if s.entries = [] then
    let s1 := reserve s DEFAULT_CAPACITY
    let e0 := s1.entries.getD 0 PaletteEntry.dflt
    ({ s1 with entries := s1.entries.set 0 { e0 with ref_count := e0.ref_count - 1 } }, 1)
  else
    let previous_capacity := s.entries.length
    (reserve s 1, previous_capacity)

/-- The tail of set_unchecked shared by the used == 0 path and the
fall-through path: acquire a free palette entry, fill it, point the slot
at it and bump used. -/
def setFresh (s : PaletteStore T) (index : Nat) (value : T) : PaletteStore T :=
  let p := get_free_palette_index s
  let s1 := { p.1 with entries := p.1.entries.set p.2 { value := value, ref_count := 1 } }
  let s2 := set_palette_index s1 index p.2
  { s2 with used := s2.used + 1 }

/-- pub unsafe fn set_unchecked(&mut self, index, value). -/
def set_unchecked (s : PaletteStore T) (index : Nat) (value : T) : PaletteStore T :=
  if s.used = 0 then
    if value = default then s else setFresh s index value
  else
    let palette_index := get_palette_index s index
    let current := s.entries.getD palette_index PaletteEntry.dflt
    -- If nothing changes, do not bother.
    if value = current.value then s
    else
      -- Reduce the ref_count in the current palette entry; if it hits 0
      -- and the entry is not entry 0, free the entry.
      let s1 :=
        if current.ref_count - 1 = 0 ∧ 0 < palette_index then
          { s with
            entries := s.entries.set palette_index
              { value := default, ref_count := 0 },
            used := s.used - 1 }
        else
          { s with
            entries := s.entries.set palette_index
              { value := current.value, ref_count := current.ref_count - 1 } }
      -- Find an existing palette entry for the new value being set.
      match s1.entries.findIdx? (fun e => e.value == value) with
      | some i =>
        let s2 := set_palette_index s1 index i
        let e := s2.entries.getD i PaletteEntry.dflt
        { s2 with entries := s2.entries.set i { e with ref_count := e.ref_count + 1 } }
      | none =>
        -- If we just freed the old palette entry, repurpose it.
        if 0 < palette_index ∧ (s1.entries.getD palette_index PaletteEntry.dflt).ref_count = 0 then
          { s1 with
            entries := s1.entries.set palette_index { value := value, ref_count := 1 },
            used := s1.used + 1 }
        else
          setFresh s1 index value

/-- pub fn get(&self, index). -/
def get (s : PaletteStore T) (index : Nat) : Except String T :=
  if s.size ≤ index then .error "Out of bounds" else .ok (get_unchecked s index)

/-- pub fn set(&mut self, index, value): returns the updated store. -/
def set (s : PaletteStore T) (index : Nat) (value : T) :
    Except String (PaletteStore T) :=
  if s.size ≤ index then .error "Out of bounds" else .ok (set_unchecked s index value)

end PaletteStore

/-! ### Lemmas about the bit codec -/

theorem natToBits_length (w v : Nat) : (natToBits w v).length = w := by
  induction w generalizing v with
  | zero => rfl
  | succ w ih => simp [natToBits, ih]

theorem bitsToNat_natToBits (w v : Nat) :
    bitsToNat (natToBits w v) = v % 2 ^ w := by
  induction w generalizing v with
  | zero => simp [natToBits, bitsToNat, Nat.mod_one]
  | succ w ih =>
    simp only [natToBits, bitsToNat, ih]
    have hps : 2 ^ (w + 1) = 2 * 2 ^ w := by ring
    rw [hps, Nat.mod_mul]
    rcases Nat.mod_two_eq_zero_or_one v with h2 | h2 <;> simp [h2]

theorem bitsToNat_natToBits_of_lt {w v : Nat} (h : v < 2 ^ w) :
    bitsToNat (natToBits w v) = v := by
  rw [bitsToNat_natToBits, Nat.mod_eq_of_lt h]

theorem bitsToNat_append (a b : List Bool) :
    bitsToNat (a ++ b) = bitsToNat a + 2 ^ a.length * bitsToNat b := by
  induction a with
  | nil => simp [bitsToNat]
  | cons x xs ih =>
    rw [List.cons_append]
    simp only [bitsToNat]
    rw [ih, List.length_cons, pow_succ]
    ring

theorem bitsToNat_replicate_false (n : Nat) :
    bitsToNat (List.replicate n false) = 0 := by
  induction n with
  | zero => rfl
  | succ n ih => simp [List.replicate_succ, bitsToNat, ih]

theorem bitsToNat_lt (l : List Bool) : bitsToNat l < 2 ^ l.length := by
  induction l with
  | nil => simp [bitsToNat]
  | cons x xs ih =>
    simp only [bitsToNat, List.length_cons, pow_succ]
    rcases x with _ | _ <;> simp <;> omega

/-! ### Lemmas about bit slices -/

theorem bitSlice_length {l : List Bool} {a w : Nat} (h : a + w ≤ l.length) :
    (bitSlice l a w).length = w := by
  simp only [bitSlice, List.length_take, List.length_drop]
  omega

theorem bitSlice_append_left {l1 l2 : List Bool} {a w : Nat}
    (h : a + w ≤ l1.length) : bitSlice (l1 ++ l2) a w = bitSlice l1 a w := by
  simp only [bitSlice, List.drop_append_eq_append_drop]
  rw [Nat.sub_eq_zero_of_le (by omega), List.drop_zero]
  rw [List.take_append_of_le_length (by simp [List.length_drop]; omega)]

theorem bitSlice_append_right (l1 l2 : List Bool) (a w : Nat) :
    bitSlice (l1 ++ l2) (l1.length + a) w = bitSlice l2 a w := by
  simp only [bitSlice, List.drop_append_eq_append_drop]
  have h1 : l1.length ≤ l1.length + a := by omega
  rw [List.drop_eq_nil_of_le h1]
  simp

theorem bitSlice_take {l : List Bool} {a w k : Nat} (h : a + w ≤ k) :
    bitSlice (l.take k) a w = bitSlice l a w := by
  simp only [bitSlice, List.drop_take]
  rw [List.take_take]
  congr 1
  omega

theorem bitSlice_drop (l : List Bool) (k a w : Nat) :
    bitSlice (l.drop k) a w = bitSlice l (k + a) w := by
  simp [bitSlice, List.drop_drop, Nat.add_comm]

theorem bitSlice_flatten {blocks : List (List Bool)} {nb : Nat}
    (hlen : ∀ b ∈ blocks, b.length = nb) :
    ∀ j < blocks.length, bitSlice blocks.flatten (j * nb) nb = blocks.getD j [] := by
  induction blocks with
  | nil => intro j hj; simp at hj
  | cons b bs ih =>
    intro j hj
    rcases j with _ | j
    · have hb : b.length = nb := hlen b (by simp)
      simp only [Nat.zero_mul, List.flatten_cons, List.getD, List.getElem?_cons_zero,
        Option.getD_some]
      rw [bitSlice_append_left (by omega)]
      simp [bitSlice, hb]
    · have hb : b.length = nb := hlen b (by simp)
      have : (j + 1) * nb = b.length + j * nb := by rw [hb]; ring
      rw [List.flatten_cons, this, bitSlice_append_right]
      have := ih (fun x hx => hlen x (by simp [hx])) j (by simpa using hj)
      simpa using this

theorem bitSlice_append_ge {l1 l2 : List Bool} {a : Nat} (w : Nat)
    (h : l1.length ≤ a) :
    bitSlice (l1 ++ l2) a w = bitSlice l2 (a - l1.length) w := by
  have ha : a = l1.length + (a - l1.length) := by omega
  conv_lhs => rw [ha]
  rw [bitSlice_append_right]

/-- Slot layout arithmetic: slot i of a buffer of size slots, b bits each. -/
theorem slot_bound {size b i : Nat} (hi : i < size) : i * b + b ≤ size * b := by
  have h2 : (i + 1) * b ≤ size * b := Nat.mul_le_mul_right _ hi
  rw [Nat.succ_mul] at h2
  exact h2

namespace PaletteStore

variable {T : Type} [DecidableEq T] [Inhabited T]

theorem gpi_lt_two_pow (s : PaletteStore T) (i : Nat) :
    get_palette_index s i < 2 ^ s.bits_per_entry := by
  have h1 : (bitSlice s.bits (i * s.bits_per_entry) s.bits_per_entry).length
      ≤ s.bits_per_entry := by
    simp only [bitSlice, List.length_take, List.length_drop]
    omega
  calc get_palette_index s i
      < 2 ^ (bitSlice s.bits (i * s.bits_per_entry) s.bits_per_entry).length :=
        bitsToNat_lt _
    _ ≤ 2 ^ s.bits_per_entry := Nat.pow_le_pow_right (by omega) h1

theorem spi_bits_length {s : PaletteStore T} {i v : Nat}
    (hb : s.bits.length = s.size * s.bits_per_entry) (hi : i < s.size) :
    (set_palette_index s i v).bits.length = s.bits.length := by
  have hle : i * s.bits_per_entry + s.bits_per_entry ≤ s.bits.length := by
    rw [hb]; exact slot_bound hi
  simp only [set_palette_index, List.length_append, List.length_take,
    List.length_drop, natToBits_length]
  omega

theorem gpi_spi_same {s : PaletteStore T} {i v : Nat}
    (hb : s.bits.length = s.size * s.bits_per_entry) (hi : i < s.size) :
    get_palette_index (set_palette_index s i v) i = v % 2 ^ s.bits_per_entry := by
  have hle : i * s.bits_per_entry + s.bits_per_entry ≤ s.bits.length := by
    rw [hb]; exact slot_bound hi
  have hP : (s.bits.take (i * s.bits_per_entry)).length = i * s.bits_per_entry := by
    simp only [List.length_take]
    omega
  simp only [get_palette_index, set_palette_index]
  rw [List.append_assoc, bitSlice_append_ge _ (by omega), hP,
    Nat.sub_self]
  simp only [bitSlice, List.drop_zero]
  rw [List.take_append_of_le_length (by simp [natToBits_length]),
    List.take_of_length_le (by simp [natToBits_length])]
  exact bitsToNat_natToBits _ _

theorem gpi_spi_other {s : PaletteStore T} {i j v : Nat}
    (hb : s.bits.length = s.size * s.bits_per_entry) (hi : i < s.size)
    (hj : j < s.size) (hne : j ≠ i) :
    get_palette_index (set_palette_index s i v) j = get_palette_index s j := by
  have hib : i * s.bits_per_entry + s.bits_per_entry ≤ s.bits.length := by
    rw [hb]; exact slot_bound hi
  simp only [get_palette_index, set_palette_index]
  rcases Nat.lt_or_ge j i with hlt | hge
  · -- the read slice lies entirely inside the preserved prefix
    have hjb : j * s.bits_per_entry + s.bits_per_entry ≤ i * s.bits_per_entry := by
      have := slot_bound (i := j) (b := s.bits_per_entry) (show j < i from hlt)
      omega
    have h1 : j * s.bits_per_entry + s.bits_per_entry
        ≤ (s.bits.take (i * s.bits_per_entry)).length := by
      simp only [List.length_take]
      omega
    rw [List.append_assoc, bitSlice_append_left h1, bitSlice_take hjb]
  · -- the read slice lies entirely inside the preserved suffix
    have hgt : i < j := by omega
    have hjb : i * s.bits_per_entry + s.bits_per_entry ≤ j * s.bits_per_entry := by
      have := slot_bound (i := i) (b := s.bits_per_entry) (show i < j from hgt)
      omega
    have h1 : ((s.bits.take (i * s.bits_per_entry)) ++ natToBits s.bits_per_entry v).length
        = i * s.bits_per_entry + s.bits_per_entry := by
      simp only [List.length_append, List.length_take, natToBits_length]
      omega
    have hlen : ((s.bits.take (i * s.bits_per_entry)) ++ natToBits s.bits_per_entry v).length
        ≤ j * s.bits_per_entry := by
      rw [h1]; omega
    rw [bitSlice_append_ge _ hlen, h1, bitSlice_drop]
    have harith : i * s.bits_per_entry + s.bits_per_entry
        + (j * s.bits_per_entry - (i * s.bits_per_entry + s.bits_per_entry))
        = j * s.bits_per_entry := by
      omega
    rw [harith]

theorem gpi_replicate_false {n a w : Nat} :
    bitsToNat (bitSlice (List.replicate n false) a w) = 0 := by
  simp only [bitSlice, List.drop_replicate, List.take_replicate]
  exact bitsToNat_replicate_false _

theorem gpi_grow {s : PaletteStore T} {nb : Nat}
    (hb : s.bits.length = s.size * s.bits_per_entry)
    (hbn : s.bits_per_entry ≤ nb) {j : Nat} (hj : j < s.size) :
    bitsToNat (bitSlice (((List.range s.size).map (fun i =>
      bitSlice s.bits (i * s.bits_per_entry) s.bits_per_entry
        ++ List.replicate (nb - s.bits_per_entry) false)).flatten) (j * nb) nb)
      = get_palette_index s j := by
  set b := s.bits_per_entry with hbdef
  have hblock : ∀ blk ∈ (List.range s.size).map (fun i =>
      bitSlice s.bits (i * b) b ++ List.replicate (nb - b) false), blk.length = nb := by
    intro blk hblk
    rcases List.mem_map.mp hblk with ⟨i, hmem, rfl⟩
    have hi : i < s.size := List.mem_range.mp hmem
    have hib : i * b + b ≤ s.bits.length := by
      rw [hb]; exact slot_bound hi
    rw [List.length_append, bitSlice_length hib, List.length_replicate]
    omega
  rw [bitSlice_flatten hblock j (by simpa using hj)]
  have hget : ((List.range s.size).map (fun i =>
      bitSlice s.bits (i * b) b ++ List.replicate (nb - b) false)).getD j []
      = bitSlice s.bits (j * b) b ++ List.replicate (nb - b) false := by
    simp [List.getD, List.getElem?_map, List.getElem?_range, hj]
  rw [hget, bitsToNat_append, bitsToNat_replicate_false]
  simp [get_palette_index]

end PaletteStore

/-! ### Generic list bookkeeping lemmas -/

theorem getD_set_self {α : Type _} {l : List α} {i : Nat} (b d : α)
    (h : i < l.length) : (l.set i b).getD i d = b := by
  rw [List.getD_eq_getElem?_getD, List.getElem?_set_self h]
  rfl

theorem getD_set_ne {α : Type _} {l : List α} {i j : Nat} (b d : α)
    (h : i ≠ j) : (l.set i b).getD j d = l.getD j d := by
  rw [List.getD_eq_getElem?_getD, List.getElem?_set_ne h,
    ← List.getD_eq_getElem?_getD]

theorem self_eq_set_getD {α : Type _} {l : List α} {i : Nat} (d : α)
    (h : i < l.length) : l = l.take i ++ l.getD i d :: l.drop (i + 1) := by
  have h1 := List.set_eq_take_cons_drop (l.getD i d) h
  have h2 : l.set i (l.getD i d) = l := by
    apply List.ext_getElem (by simp)
    intro n h3 h4
    rw [List.getElem_set]
    split
    · rename_i hin
      subst hin
      rw [List.getD_eq_getElem?_getD, List.getElem?_eq_getElem h4]
      rfl
    · rfl
  calc l = l.set i (l.getD i d) := h2.symm
    _ = l.take i ++ l.getD i d :: l.drop (i + 1) := h1

theorem countP_set {α : Type _} {p : α → Bool} {l : List α} {i : Nat} (b d : α)
    (h : i < l.length) :
    (l.set i b).countP p + (if p (l.getD i d) then 1 else 0)
      = l.countP p + (if p b then 1 else 0) := by
  rw [List.set_eq_take_cons_drop b h]
  conv_rhs => rw [self_eq_set_getD d h]
  simp only [List.countP_append, List.countP_cons]
  omega

theorem count_set_getD {α : Type _} [DecidableEq α] {l : List α} {i : Nat}
    (b d : α) (h : i < l.length) (a : α) :
    (l.set i b).count a + (if l.getD i d = a then 1 else 0)
      = l.count a + (if b = a then 1 else 0) := by
  rw [List.set_eq_take_cons_drop b h]
  conv_rhs => rw [self_eq_set_getD d h]
  simp only [List.count_append, List.count_cons]
  have hbeq : ∀ x y : α, ((x == y) = true) ↔ x = y := by
    intro x y; simp
  by_cases h1 : l.getD i d = a <;> by_cases h2 : b = a <;>
    simp [h1, h2] <;> omega

theorem sum_map_add {α : Type _} (f g : α → Nat) (l : List α) :
    (l.map (fun j => f j + g j)).sum = (l.map f).sum + (l.map g).sum := by
  induction l with
  | nil => simp
  | cons x xs ih => simp [ih]; omega

theorem sum_indicator_range (n x : Nat) :
    ((List.range n).map (fun j => if x = j then 1 else 0)).sum
      = if x < n then 1 else 0 := by
  induction n with
  | zero => simp
  | succ n ih =>
    rw [List.range_succ]
    rw [List.map_append, List.sum_append, ih]
    simp only [List.map_cons, List.map_nil, List.sum_cons, List.sum_nil]
    by_cases hx : x = n
    · subst hx
      rw [if_neg (lt_irrefl x), if_pos rfl, if_pos (by omega)]
      omega
    · rw [if_neg hx]
      by_cases hlt : x < n
      · rw [if_pos hlt, if_pos (by omega)]
        omega
      · rw [if_neg hlt, if_neg (by omega)]
        omega

theorem sum_count_range (l : List Nat) (n : Nat) (h : ∀ x ∈ l, x < n) :
    ((List.range n).map l.count).sum = l.length := by
  induction l with
  | nil => simp
  | cons x xs ih =>
    have hx : x < n := h x (by simp)
    have hxs : ∀ y ∈ xs, y < n := fun y hy => h y (by simp [hy])
    have hmap : (List.range n).map (x :: xs).count
        = (List.range n).map (fun j => xs.count j + if x = j then 1 else 0) := by
      apply List.map_congr_left
      intro j _
      rw [List.count_cons]
      congr 1
      by_cases hxj : x = j <;> simp [hxj]
    rw [hmap, sum_map_add, ih hxs, sum_indicator_range, if_pos hx]
    simp

namespace PaletteStore

variable {T : Type} [DecidableEq T] [Inhabited T]

/-- The list of palette indices currently encoded in the bit buffer,
one per virtual slot. -/
def slots (s : PaletteStore T) : List Nat :=
  (List.range s.size).map s.get_palette_index

/-- The internal consistency invariant of a palette store, maintained by
every public operation. -/
structure Inv (s : PaletteStore T) : Prop where
  bits_len : s.bits.length = s.size * s.bits_per_entry
  entries_pow : s.entries = [] ∨ s.entries.length = 2 ^ s.bits_per_entry
  empty_bpe : s.entries = [] → s.bits_per_entry = 0
  value0 : s.entries ≠ [] → (s.entries.getD 0 PaletteEntry.dflt).value = default
  used_eq : s.used = if s.entries = [] then 0
      else 1 + (s.entries.drop 1).countP (fun e => decide (0 < e.ref_count))
  rc_count : ∀ j < s.entries.length,
      (s.entries.getD j PaletteEntry.dflt).ref_count = (slots s).count j
  rc_zero : ∀ j < s.entries.length,
      (s.entries.getD j PaletteEntry.dflt).ref_count = 0 →
      (s.entries.getD j PaletteEntry.dflt).value = default

/-- Refinement relation: the store renders the same contents as a plain
list of values. -/
def Models (s : PaletteStore T) (l : List T) : Prop :=
  s.size = l.length ∧ ∀ i < s.size, get_unchecked s i = l.getD i default

theorem new_inv (n : Nat) : Inv (new T n) := by
  refine ⟨rfl, Or.inl rfl, fun _ => rfl, fun h => absurd rfl h, rfl, ?_, ?_⟩
  · intro j hj
    simp [new] at hj
  · intro j hj
    simp [new] at hj

theorem new_models (n : Nat) :
    Models (new T n) (List.replicate n (default : T)) := by
  constructor
  · simp [new]
  · intro i hi
    simp only [new] at hi
    simp [get_unchecked, new, List.getD_eq_getElem?_getD,
      List.getElem?_replicate, if_pos hi]

/-! ### The initialization branch of set_bits_per_entry -/

theorem sbpe_init_eq {s : PaletteStore T} (hne : s.entries = []) {nb : Nat}
    (h0 : nb ≠ 0) (hbpe : s.bits_per_entry = 0) :
    set_bits_per_entry s nb = { s with
      bits := List.replicate (s.size * nb) false,
      entries := (List.replicate (2 ^ nb) (PaletteEntry.dflt (T := T))).set 0
        { value := default, ref_count := s.size },
      used := 1,
      bits_per_entry := nb } := by
  unfold set_bits_per_entry
  rw [if_neg (by omega), if_neg h0, if_pos hne]

/-- Entries of the freshly initialized palette. -/
theorem init_entries_getD {size nb : Nat} (j : Nat) :
    (((List.replicate (2 ^ nb) (PaletteEntry.dflt (T := T))).set 0
      { value := default, ref_count := size }).getD j PaletteEntry.dflt)
    = if j = 0 ∧ 0 < 2 ^ nb then { value := default, ref_count := size }
      else PaletteEntry.dflt := by
  rcases Nat.eq_zero_or_pos j with rfl | hj
  · rw [getD_set_self _ _ (by simp [Nat.pos_pow_of_pos])]
    simp [Nat.pos_pow_of_pos]
  · rw [getD_set_ne _ _ (by omega)]
    rw [if_neg (by omega)]
    rcases Nat.lt_or_ge j (2 ^ nb) with h | h
    · simp [List.getD_eq_getElem?_getD, List.getElem?_replicate, if_pos h]
    · have hlen2 : (List.replicate (2 ^ nb) (PaletteEntry.dflt (T := T))).length ≤ j := by
        simpa using h
      rw [List.getD_eq_getElem?_getD, List.getElem?_eq_none hlen2]
      rfl

theorem init_inv {s : PaletteStore T} (hI : Inv s) (hne : s.entries = [])
    {nb : Nat} (h0 : nb ≠ 0) :
    Inv (set_bits_per_entry s nb) := by
  have hbpe := hI.empty_bpe hne
  rw [sbpe_init_eq hne h0 hbpe]
  have hpow : 0 < 2 ^ nb := Nat.pos_pow_of_pos _ (by omega)
  have hlen : (((List.replicate (2 ^ nb) (PaletteEntry.dflt (T := T))).set 0
      { value := default, ref_count := s.size })).length = 2 ^ nb := by
    simp
  have hnonempty : (((List.replicate (2 ^ nb) (PaletteEntry.dflt (T := T))).set 0
      { value := default, ref_count := s.size })) ≠ [] := by
    intro h
    rw [← List.length_eq_zero] at h
    omega
  have hsl : ∀ i < s.size,
      get_palette_index ({ s with
        bits := List.replicate (s.size * nb) false,
        entries := (List.replicate (2 ^ nb) (PaletteEntry.dflt (T := T))).set 0
          { value := default, ref_count := s.size },
        used := 1,
        bits_per_entry := nb } : PaletteStore T) i = 0 := by
    intro i hi
    simp only [get_palette_index]
    exact gpi_replicate_false
  refine ⟨?_, ?_, ?_, ?_, ?_, ?_, ?_⟩
  · simp
  · right
    simpa using hlen
  · intro h
    exact absurd h hnonempty
  · intro _
    rw [init_entries_getD]
    rw [if_pos ⟨rfl, hpow⟩]
  · rw [if_neg hnonempty]
    have : (((List.replicate (2 ^ nb) (PaletteEntry.dflt (T := T))).set 0
        { value := default, ref_count := s.size })).drop 1
        = List.replicate (2 ^ nb - 1) (PaletteEntry.dflt (T := T)) := by
      rw [List.drop_set, if_pos (by omega)]
      rcases Nat.exists_eq_add_of_lt hpow with ⟨k, hk⟩
      rw [show 2 ^ nb = k + 1 by omega]
      simp [List.replicate_succ]
    rw [this]
    have : (List.replicate (2 ^ nb - 1) (PaletteEntry.dflt (T := T))).countP
        (fun e => decide (0 < e.ref_count)) = 0 := by
      rw [List.countP_eq_zero]
      intro e he
      rw [List.eq_of_mem_replicate he]
      simp [PaletteEntry.dflt]
    rw [this]
  · intro j hj
    rw [init_entries_getD]
    have hslots : slots ({ s with
        bits := List.replicate (s.size * nb) false,
        entries := (List.replicate (2 ^ nb) (PaletteEntry.dflt (T := T))).set 0
          { value := default, ref_count := s.size },
        used := 1,
        bits_per_entry := nb } : PaletteStore T) = List.replicate s.size 0 := by
      simp only [slots]
      apply List.ext_getElem (by simp)
      intro n h1 h2
      simp only [List.getElem_map, List.getElem_range, List.getElem_replicate]
      exact hsl n (by simpa using h1)
    rw [hslots]
    rcases Nat.eq_zero_or_pos j with rfl | hjpos
    · rw [if_pos ⟨rfl, hpow⟩]
      have : (List.replicate s.size (0 : Nat)).count 0 = s.size := by
        simp [List.count_replicate]
      rw [this]
    · rw [if_neg (by omega)]
      have : (List.replicate s.size (0 : Nat)).count j = 0 := by
        rw [List.count_eq_zero]
        intro hmem
        have := List.eq_of_mem_replicate hmem
        omega
      rw [this]
      rfl
  · intro j hj h
    rw [init_entries_getD] at h ⊢
    by_cases hcond : j = 0 ∧ 0 < 2 ^ nb
    · rw [if_pos hcond]
    · rw [if_neg hcond]
      rfl

/-- After initialization every slot renders the default value. -/
theorem init_gets {s : PaletteStore T} (hne : s.entries = [])
    {nb : Nat} (h0 : nb ≠ 0) (hbpe : s.bits_per_entry = 0) :
    ∀ i < s.size, get_unchecked (set_bits_per_entry s nb) i = (default : T) := by
  intro i hi
  rw [sbpe_init_eq hne h0 hbpe]
  have hpow : 0 < 2 ^ nb := Nat.pos_pow_of_pos _ (by omega)
  simp only [get_unchecked]
  rw [if_neg (by simp)]
  have hgpi : get_palette_index ({ s with
      bits := List.replicate (s.size * nb) false,
      entries := (List.replicate (2 ^ nb) (PaletteEntry.dflt (T := T))).set 0
        { value := default, ref_count := s.size },
      used := 1,
      bits_per_entry := nb } : PaletteStore T) i = 0 := gpi_replicate_false
  rw [hgpi, init_entries_getD, if_pos ⟨rfl, hpow⟩]

/-! ### The growth branch of set_bits_per_entry -/

theorem getD_append_left {α : Type _} {l1 l2 : List α} {j : Nat} (d : α)
    (h : j < l1.length) : (l1 ++ l2).getD j d = l1.getD j d := by
  rw [List.getD_eq_getElem?_getD, List.getElem?_append, if_pos h,
    ← List.getD_eq_getElem?_getD]

theorem getD_append_right {α : Type _} {l1 l2 : List α} {j : Nat} (d : α)
    (h : l1.length ≤ j) : (l1 ++ l2).getD j d = l2.getD (j - l1.length) d := by
  rw [List.getD_eq_getElem?_getD, List.getElem?_append_right h,
    ← List.getD_eq_getElem?_getD]

theorem getD_replicate {α : Type _} {n j : Nat} (d a : α) :
    (List.replicate n a).getD j d = if j < n then a else d := by
  rcases Nat.lt_or_ge j n with h | h
  · simp [List.getD_eq_getElem?_getD, List.getElem?_replicate, if_pos h]
  · rw [List.getD_eq_getElem?_getD,
      List.getElem?_eq_none (by simpa using h), if_neg (by omega)]
    rfl

theorem getD_oob {α : Type _} {l : List α} {j : Nat} (d : α)
    (h : l.length ≤ j) : l.getD j d = d := by
  rw [List.getD_eq_getElem?_getD, List.getElem?_eq_none h]
  rfl

theorem sbpe_grow_eq {s : PaletteStore T} (hne : s.entries ≠ []) {nb : Nat}
    (hlt : s.bits_per_entry < nb) :
    set_bits_per_entry s nb = { s with
      bits := ((List.range s.size).map (fun i =>
        bitSlice s.bits (i * s.bits_per_entry) s.bits_per_entry
          ++ List.replicate (nb - s.bits_per_entry) false)).flatten,
      entries := s.entries ++ List.replicate (2 ^ nb - s.entries.length)
        (PaletteEntry.dflt (T := T)),
      bits_per_entry := nb } := by
  unfold set_bits_per_entry
  rw [if_neg (by omega), if_neg (by omega), if_neg hne, if_pos hlt]

theorem grow_bits_len {s : PaletteStore T}
    (hb : s.bits.length = s.size * s.bits_per_entry) (hne : s.entries ≠ [])
    {nb : Nat} (hlt : s.bits_per_entry < nb) :
    (set_bits_per_entry s nb).bits.length = s.size * nb := by
  rw [sbpe_grow_eq hne hlt]
  show (((List.range s.size).map _).flatten).length = _
  rw [List.length_flatten, List.map_map]
  have hmap : ((List.range s.size).map (List.length ∘ (fun i =>
      bitSlice s.bits (i * s.bits_per_entry) s.bits_per_entry
        ++ List.replicate (nb - s.bits_per_entry) false)))
      = List.replicate s.size nb := by
    apply List.ext_getElem (by simp)
    intro n h1 h2
    simp only [List.getElem_map, List.getElem_range, List.getElem_replicate,
      Function.comp]
    have hn : n < s.size := by simpa using h1
    have hb2 : n * s.bits_per_entry + s.bits_per_entry ≤ s.bits.length := by
      rw [hb]; exact slot_bound hn
    rw [List.length_append, bitSlice_length hb2, List.length_replicate]
    omega
  rw [hmap, List.sum_replicate, smul_eq_mul]

theorem grow_gpi {s : PaletteStore T}
    (hb : s.bits.length = s.size * s.bits_per_entry) (hne : s.entries ≠ [])
    {nb : Nat} (hlt : s.bits_per_entry < nb) :
    ∀ i < s.size,
      get_palette_index (set_bits_per_entry s nb) i = get_palette_index s i := by
  intro i hi
  rw [sbpe_grow_eq hne hlt]
  show bitsToNat (bitSlice _ (i * nb) nb) = _
  exact gpi_grow hb (by omega) hi

theorem grow_slots {s : PaletteStore T}
    (hb : s.bits.length = s.size * s.bits_per_entry) (hne : s.entries ≠ [])
    {nb : Nat} (hlt : s.bits_per_entry < nb) :
    slots (set_bits_per_entry s nb) = slots s := by
  have hsz : (set_bits_per_entry s nb).size = s.size := by
    rw [sbpe_grow_eq hne hlt]
  simp only [slots, hsz]
  apply List.map_congr_left
  intro i hi
  exact grow_gpi hb hne hlt i (List.mem_range.mp hi)

theorem grow_entries_getD {s : PaletteStore T} (hne : s.entries ≠ [])
    {nb : Nat} (hlt : s.bits_per_entry < nb) (j : Nat) :
    (set_bits_per_entry s nb).entries.getD j PaletteEntry.dflt
      = s.entries.getD j PaletteEntry.dflt := by
  rw [sbpe_grow_eq hne hlt]
  show (s.entries ++ _).getD j _ = _
  rcases Nat.lt_or_ge j s.entries.length with h | h
  · rw [getD_append_left _ h]
  · rw [getD_append_right _ h, getD_replicate, getD_oob _ h]
    split <;> rfl

theorem grow_inv {s : PaletteStore T} (hI : Inv s) (hne : s.entries ≠ [])
    {nb : Nat} (hlt : s.bits_per_entry < nb) :
    Inv (set_bits_per_entry s nb) := by
  have hlen : s.entries.length = 2 ^ s.bits_per_entry := hI.entries_pow.resolve_left hne
  have hle : s.entries.length ≤ 2 ^ nb := by
    rw [hlen]; exact Nat.pow_le_pow_right (by omega) (by omega)
  have hlen2 : (set_bits_per_entry s nb).entries.length = 2 ^ nb := by
    rw [sbpe_grow_eq hne hlt]
    show (s.entries ++ _).length = _
    rw [List.length_append, List.length_replicate]
    omega
  have hne2 : (set_bits_per_entry s nb).entries ≠ [] := by
    intro h
    have hcg := congrArg List.length h
    rw [hlen2, List.length_nil] at hcg
    have hpos : 0 < 2 ^ nb := Nat.pos_pow_of_pos _ (by omega)
    omega
  have hslots := grow_slots hI.bits_len hne hlt
  refine ⟨?_, Or.inr ?_, ?_, ?_, ?_, ?_, ?_⟩
  · have h1 := grow_bits_len hI.bits_len hne hlt
    have h2 : (set_bits_per_entry s nb).size = s.size := by rw [sbpe_grow_eq hne hlt]
    have h3 : (set_bits_per_entry s nb).bits_per_entry = nb := by rw [sbpe_grow_eq hne hlt]
    rw [h1, h2, h3]
  · have h3 : (set_bits_per_entry s nb).bits_per_entry = nb := by
      rw [sbpe_grow_eq hne hlt]
    rw [h3]
    exact hlen2
  · intro h
    exact absurd h hne2
  · intro _
    rw [grow_entries_getD hne hlt]
    exact hI.value0 hne
  · rw [if_neg hne2]
    have hused : (set_bits_per_entry s nb).used = s.used := by rw [sbpe_grow_eq hne hlt]
    have hdrop : (set_bits_per_entry s nb).entries.drop 1
        = s.entries.drop 1 ++ List.replicate (2 ^ nb - s.entries.length)
          (PaletteEntry.dflt (T := T)) := by
      rw [sbpe_grow_eq hne hlt]
      show (s.entries ++ _).drop 1 = _
      rw [List.drop_append_eq_append_drop,
        Nat.sub_eq_zero_of_le (by have := List.length_pos.mpr hne; omega),
        List.drop_zero]
    rw [hused, hdrop, List.countP_append]
    have hrep : (List.replicate (2 ^ nb - s.entries.length)
        (PaletteEntry.dflt (T := T))).countP (fun e => decide (0 < e.ref_count)) = 0 := by
      rw [List.countP_eq_zero]
      intro e he
      rw [List.eq_of_mem_replicate he]
      simp [PaletteEntry.dflt]
    rw [hrep, hI.used_eq, if_neg hne]
    omega
  · intro j hj
    rw [grow_entries_getD hne hlt, hslots]
    rcases Nat.lt_or_ge j s.entries.length with h | h
    · exact hI.rc_count j h
    · rw [getD_oob _ h]
      have : (slots s).count j = 0 := by
        rw [List.count_eq_zero]
        intro hmem
        rcases List.mem_map.mp hmem with ⟨i, _, rfl⟩
        have := gpi_lt_two_pow s i
        omega
      rw [this]
      rfl
  · intro j hj h
    rw [grow_entries_getD hne hlt] at h ⊢
    rcases Nat.lt_or_ge j s.entries.length with hlt2 | hge
    · exact hI.rc_zero j hlt2 h
    · rw [getD_oob _ hge]
      rfl

theorem grow_gets {s : PaletteStore T} (hI : Inv s) (hne : s.entries ≠ [])
    {nb : Nat} (hlt : s.bits_per_entry < nb) :
    ∀ i < s.size, get_unchecked (set_bits_per_entry s nb) i = get_unchecked s i := by
  intro i hi
  have hused : (set_bits_per_entry s nb).used = s.used := by rw [sbpe_grow_eq hne hlt]
  simp only [get_unchecked, hused]
  split
  · rfl
  · rw [grow_gpi hI.bits_len hne hlt i hi, grow_entries_getD hne hlt]

/-! ### reserve -/

theorem two_pow_log2_npow2 (n : Nat) :
    2 ^ Nat.log2 (next_power_of_two n) = next_power_of_two n := by
  unfold next_power_of_two
  split
  · show 2 ^ Nat.log2 (2 ^ 0) = 2 ^ 0
    rw [Nat.log2_two_pow]
  · rw [Nat.log2_two_pow]

theorem le_npow2 (n : Nat) : n ≤ next_power_of_two n := by
  unfold next_power_of_two
  split
  · omega
  · have h2 : n - 1 < 2 ^ (Nat.log2 (n - 1) + 1) := Nat.lt_log2_self
    omega

theorem reserve_grow_facts {s : PaletteStore T} (hI : Inv s) {add : Nat}
    (hne : s.entries ≠ []) (htrig : s.entries.length < s.used + add) :
    Inv (reserve s add)
    ∧ (reserve s add).size = s.size
    ∧ (reserve s add).used = s.used
    ∧ s.entries.length < (reserve s add).entries.length
    ∧ (reserve s add).entries.length = 2 ^ (reserve s add).bits_per_entry
    ∧ (∀ j, (reserve s add).entries.getD j PaletteEntry.dflt
        = s.entries.getD j PaletteEntry.dflt)
    ∧ (∀ i < s.size, get_palette_index (reserve s add) i = get_palette_index s i)
    ∧ slots (reserve s add) = slots s := by
  have hlen : s.entries.length = 2 ^ s.bits_per_entry := hI.entries_pow.resolve_left hne
  set nb := Nat.log2 (next_power_of_two (s.used + add)) with hnb
  have hk : 2 ^ nb = next_power_of_two (s.used + add) := two_pow_log2_npow2 _
  have hgt : s.bits_per_entry < nb := by
    have h2 : s.used + add ≤ next_power_of_two (s.used + add) := le_npow2 _
    have h3 : 2 ^ s.bits_per_entry < 2 ^ nb := by omega
    exact (Nat.pow_lt_pow_iff_right (by omega)).mp h3
  have hres : reserve s add = set_bits_per_entry s nb := by
    unfold reserve integer_log2
    rw [if_pos htrig]
  rw [hres]
  have hlen2 : (set_bits_per_entry s nb).entries.length = 2 ^ nb := by
    rw [sbpe_grow_eq hne hgt]
    show (s.entries ++ _).length = _
    rw [List.length_append, List.length_replicate]
    have : s.entries.length ≤ 2 ^ nb := by
      rw [hlen]; exact Nat.pow_le_pow_right (by omega) (by omega)
    omega
  refine ⟨grow_inv hI hne hgt, by rw [sbpe_grow_eq hne hgt], by rw [sbpe_grow_eq hne hgt],
    ?_, ?_, grow_entries_getD hne hgt, grow_gpi hI.bits_len hne hgt, grow_slots hI.bits_len hne hgt⟩
  · rw [hlen2, hlen]
    exact Nat.pow_lt_pow_right (by omega) hgt
  · rw [hlen2]
    have : (set_bits_per_entry s nb).bits_per_entry = nb := by rw [sbpe_grow_eq hne hgt]
    rw [this]

theorem reserve_inv {s : PaletteStore T} (hI : Inv s) (add : Nat) :
    Inv (reserve s add) := by
  by_cases htrig : s.entries.length < s.used + add
  · by_cases hne : s.entries = []
    · have hbpe := hI.empty_bpe hne
      by_cases h0 : Nat.log2 (next_power_of_two (s.used + add)) = 0
      · have : reserve s add = s := by
          unfold reserve integer_log2
          rw [if_pos htrig, h0]
          unfold set_bits_per_entry
          rw [if_pos (by omega)]
        rw [this]
        exact hI
      · have : reserve s add
            = set_bits_per_entry s (Nat.log2 (next_power_of_two (s.used + add))) := by
          unfold reserve integer_log2
          rw [if_pos htrig]
        rw [this]
        exact init_inv hI hne h0
    · exact (reserve_grow_facts hI hne htrig).1
  · have : reserve s add = s := by
      unfold reserve
      rw [if_neg htrig]
    rw [this]
    exact hI

theorem reserve_gets {s : PaletteStore T} (hI : Inv s) (add : Nat) :
    ∀ i < s.size, get_unchecked (reserve s add) i = get_unchecked s i := by
  intro i hi
  by_cases htrig : s.entries.length < s.used + add
  · by_cases hne : s.entries = []
    · have hbpe := hI.empty_bpe hne
      have hused : s.used = 0 := by
        have := hI.used_eq
        rw [if_pos hne] at this
        exact this
      by_cases h0 : Nat.log2 (next_power_of_two (s.used + add)) = 0
      · have : reserve s add = s := by
          unfold reserve integer_log2
          rw [if_pos htrig, h0]
          unfold set_bits_per_entry
          rw [if_pos (by omega)]
        rw [this]
      · have hres : reserve s add
            = set_bits_per_entry s (Nat.log2 (next_power_of_two (s.used + add))) := by
          unfold reserve integer_log2
          rw [if_pos htrig]
        have hget : get_unchecked s i = default := by
          unfold get_unchecked
          rw [if_pos hused]
        rw [hres, init_gets hne h0 hbpe i hi, hget]
    · have hlen : s.entries.length = 2 ^ s.bits_per_entry := hI.entries_pow.resolve_left hne
      set nb := Nat.log2 (next_power_of_two (s.used + add)) with hnb
      have hk : 2 ^ nb = next_power_of_two (s.used + add) := two_pow_log2_npow2 _
      have hgt : s.bits_per_entry < nb := by
        have h2 : s.used + add ≤ next_power_of_two (s.used + add) := le_npow2 _
        have h3 : 2 ^ s.bits_per_entry < 2 ^ nb := by omega
        exact (Nat.pow_lt_pow_iff_right (by omega)).mp h3
      have hres : reserve s add = set_bits_per_entry s nb := by
        unfold reserve integer_log2
        rw [if_pos htrig]
      rw [hres]
      exact grow_gets hI hne hgt i hi
  · have : reserve s add = s := by
      unfold reserve
      rw [if_neg htrig]
    rw [this]

theorem reserve_size (s : PaletteStore T) (add : Nat) :
    (reserve s add).size = s.size := by
  unfold reserve
  split
  · unfold set_bits_per_entry
    split
    · rfl
    · split
      · rfl
      · split
        · rfl
        · split <;> rfl
  · rfl

theorem reserve_models {s : PaletteStore T} {l : List T} (hI : Inv s)
    (hM : Models s l) (add : Nat) : Models (reserve s add) l := by
  refine ⟨?_, ?_⟩
  · rw [reserve_size]
    exact hM.1
  · intro i hi
    rw [reserve_size] at hi
    rw [reserve_gets hI add i hi]
    exact hM.2 i hi

/-! ### Helpers for the set_unchecked proof -/

theorem used_zero_iff_empty {s : PaletteStore T} (hI : Inv s) :
    s.used = 0 ↔ s.entries = [] := by
  constructor
  · intro h
    by_contra hne
    have := hI.used_eq
    rw [if_neg hne] at this
    omega
  · intro h
    have := hI.used_eq
    rw [if_pos h] at this
    exact this

theorem slots_length (s : PaletteStore T) : (slots s).length = s.size := by
  simp [slots]

theorem slots_getD {s : PaletteStore T} {i : Nat} (hi : i < s.size) :
    (slots s).getD i 0 = get_palette_index s i := by
  simp [slots, List.getD_eq_getElem?_getD, List.getElem?_map,
    List.getElem?_range, hi]

theorem slot_mem {s : PaletteStore T} {i : Nat} (hi : i < s.size) :
    get_palette_index s i ∈ slots s :=
  List.mem_map.mpr ⟨i, List.mem_range.mpr hi, rfl⟩

theorem count_slot_pos {s : PaletteStore T} {i : Nat} (hi : i < s.size) :
    0 < (slots s).count (get_palette_index s i) :=
  List.count_pos_iff.mpr (slot_mem hi)

theorem slots_entries_irrel {s : PaletteStore T} (es : List (PaletteEntry T))
    (u : Nat) : slots ({ s with entries := es, used := u }) = slots s := rfl

theorem slots_spi {s : PaletteStore T} {i v : Nat}
    (hb : s.bits.length = s.size * s.bits_per_entry) (hi : i < s.size) :
    slots (set_palette_index s i v) = (slots s).set i (v % 2 ^ s.bits_per_entry) := by
  apply List.ext_getElem
  · simp [slots, set_palette_index]
  · intro n h1 h2
    have hn : n < s.size := by
      simpa [slots, set_palette_index] using h1
    rw [List.getElem_set]
    simp only [slots, List.getElem_map, List.getElem_range]
    by_cases hni : i = n
    · subst hni
      rw [if_pos rfl]
      exact gpi_spi_same hb hi
    · rw [if_neg hni]
      exact gpi_spi_other hb hi hn (by omega)

theorem getD_drop1 {α : Type _} (l : List α) (m : Nat) (d : α) :
    (l.drop 1).getD m d = l.getD (1 + m) d := by
  rw [List.getD_eq_getElem?_getD, List.getElem?_drop, ← List.getD_eq_getElem?_getD]

theorem drop1_set {α : Type _} (l : List α) {j : Nat} (e : α) (hj : 1 ≤ j) :
    (l.set j e).drop 1 = (l.drop 1).set (j - 1) e := by
  rw [List.drop_set, if_neg (by omega)]

/-- Effect of an entries.set on the drop-1 countP used by the used field:
setting index j (with 1 ≤ j < length) replaces the contribution of the old
entry at j with that of the new entry. -/
theorem countP_drop1_set {l : List (PaletteEntry T)} {j : Nat} (e : PaletteEntry T)
    (hj1 : 1 ≤ j) (hj2 : j < l.length) :
    ((l.set j e).drop 1).countP (fun x => decide (0 < x.ref_count))
        + (if 0 < (l.getD j PaletteEntry.dflt).ref_count then 1 else 0)
      = (l.drop 1).countP (fun x => decide (0 < x.ref_count))
        + (if 0 < e.ref_count then 1 else 0) := by
  rw [drop1_set l e hj1]
  have h1 : j - 1 < (l.drop 1).length := by
    rw [List.length_drop]
    omega
  have h2 := countP_set (p := fun x => decide (0 < x.ref_count)) e
    (PaletteEntry.dflt (T := T)) h1
  rw [getD_drop1, show 1 + (j - 1) = j by omega] at h2
  simpa using h2

/-! ### set_unchecked, branch: store still empty, first real write -/

theorem setFresh_empty_good {s : PaletteStore T} {l : List T} (hI : Inv s)
    (hM : Models s l) {i : Nat} (hi : i < s.size) (v : T)
    (hempty : s.entries = []) :
    Inv (setFresh s i v) ∧ Models (setFresh s i v) (l.set i v) := by
  have hbpe : s.bits_per_entry = 0 := hI.empty_bpe hempty
  have hused0 : s.used = 0 := (used_zero_iff_empty hI).mpr hempty
  have hlog : Nat.log2 (next_power_of_two (s.used + DEFAULT_CAPACITY)) = 5 := by
    simp only [hused0, DEFAULT_CAPACITY, Nat.zero_add]
    have h31 : Nat.log2 31 = 4 := by
      have h1 : 4 ≤ Nat.log2 31 := (Nat.le_log2 (by norm_num)).mpr (by norm_num)
      have h2 : Nat.log2 31 < 5 := (Nat.log2_lt (by norm_num)).mpr (by norm_num)
      omega
    unfold next_power_of_two
    rw [if_neg (by norm_num), show (32 : Nat) - 1 = 31 from by norm_num, h31,
      Nat.log2_two_pow]
  have htrig : s.entries.length < s.used + DEFAULT_CAPACITY := by
    rw [hempty, hused0]
    simp [DEFAULT_CAPACITY]
  have hres : reserve s DEFAULT_CAPACITY = set_bits_per_entry s 5 := by
    unfold reserve integer_log2
    rw [if_pos htrig, hlog]
  have hinit := sbpe_init_eq (T := T) hempty (show (5 : Nat) ≠ 0 by norm_num) hbpe
  have hgfpi : get_free_palette_index s
      = ({ size := s.size,
           bits := List.replicate (s.size * 5) false,
           bits_per_entry := 5,
           entries := (((List.replicate (2 ^ 5) (PaletteEntry.dflt (T := T))).set 0
             { value := default, ref_count := s.size }).set 0
             { value := default, ref_count := s.size - 1 }),
           used := 1 }, 1) := by
    unfold get_free_palette_index
    rw [if_neg (by rw [hempty, hused0]; simp), if_pos hempty, hres, hinit]
    have hget0 : (((List.replicate (2 ^ 5) (PaletteEntry.dflt (T := T))).set 0
        { value := default, ref_count := s.size })).getD 0 PaletteEntry.dflt
        = { value := default, ref_count := s.size } :=
      getD_set_self _ _ (by simp)
    simp only [hget0]
  set EF : List (PaletteEntry T) :=
    ((((List.replicate (2 ^ 5) (PaletteEntry.dflt (T := T))).set 0
      { value := default, ref_count := s.size }).set 0
      { value := default, ref_count := s.size - 1 }).set 1
      { value := v, ref_count := 1 }) with hEF
  set SB : PaletteStore T := ({ size := s.size, bits := List.replicate (s.size * 5) false, bits_per_entry := 5, entries := EF, used := 1 } : PaletteStore T) with hSB
  have hsf : setFresh s i v = { set_palette_index SB i 1 with used := 2 } := by
    unfold setFresh
    rw [hgfpi]
    rfl
  have hSBbits : SB.bits.length = SB.size * SB.bits_per_entry := by
    rw [hSB]
    simp
  have hiSB : i < SB.size := hi
  have hEFlen : EF.length = 2 ^ 5 := by
    rw [hEF]
    simp
  have hEFne : EF ≠ [] := by
    intro h
    have := congrArg List.length h
    rw [hEFlen] at this
    simp at this
  have hEF0 : EF.getD 0 PaletteEntry.dflt
      = { value := default, ref_count := s.size - 1 } := by
    rw [hEF, getD_set_ne _ _ (by omega)]
    exact getD_set_self _ _ (by simp)
  have hEF1 : EF.getD 1 PaletteEntry.dflt = { value := v, ref_count := 1 } := by
    rw [hEF]
    exact getD_set_self _ _ (by simp)
  have hEFk : ∀ k, 2 ≤ k → EF.getD k PaletteEntry.dflt = PaletteEntry.dflt := by
    intro k hk
    rw [hEF, getD_set_ne _ _ (by omega), getD_set_ne _ _ (by omega),
      getD_set_ne _ _ (by omega), getD_replicate]
    split <;> rfl
  have hslotsSB : slots SB = List.replicate s.size 0 := by
    apply List.ext_getElem (by simp [slots, hSB])
    intro n h1 h2
    simp only [slots, List.getElem_map, List.getElem_range, List.getElem_replicate]
    exact gpi_replicate_false
  have hslotsH : slots ({ set_palette_index SB i 1 with used := 2 } : PaletteStore T)
      = (List.replicate s.size 0).set i 1 := by
    show slots (set_palette_index SB i 1) = _
    rw [slots_spi hSBbits hiSB, hslotsSB]
    show (List.replicate s.size 0).set i (1 % 2 ^ (5 : Nat)) = _
    norm_num
  have hcount : ∀ j : Nat, ((List.replicate s.size 0).set i 1).count j
      = if j = 0 then s.size - 1 else if j = 1 then 1 else 0 := by
    intro j
    have hilen : i < (List.replicate s.size (0 : Nat)).length := by
      simp [hi]
    have h1 := count_set_getD (l := List.replicate s.size (0 : Nat)) (i := i)
      1 0 hilen j
    rw [getD_replicate, if_pos hi, List.count_replicate] at h1
    by_cases hj0 : j = 0
    · subst hj0
      rw [if_pos rfl]
      rw [if_pos rfl, if_pos (by rfl), if_neg (by omega)] at h1
      omega
    · rw [if_neg hj0]
      by_cases hj1 : j = 1
      · subst hj1
        rw [if_pos rfl]
        rw [if_neg (by omega), if_neg (by decide), if_pos rfl] at h1
        omega
      · rw [if_neg hj1]
        have c1 : ¬ ((0 : Nat) = j) := by omega
        have c2 : ¬ ((1 : Nat) = j) := by omega
        have c3 : ¬ (((0 : Nat) == j) = true) := by simpa using c1
        rw [if_neg c1, if_neg c2, if_neg c3] at h1
        omega
  rw [hsf]
  constructor
  · refine ⟨?_, Or.inr ?_, ?_, ?_, ?_, ?_, ?_⟩
    · show (set_palette_index SB i 1).bits.length = SB.size * SB.bits_per_entry
      rw [spi_bits_length hSBbits hiSB]
      exact hSBbits
    · exact hEFlen
    · intro h
      exact absurd h hEFne
    · intro _
      show (EF.getD 0 PaletteEntry.dflt).value = default
      rw [hEF0]
    · show (2 : Nat) = if EF = [] then 0
        else 1 + (EF.drop 1).countP (fun e => decide (0 < e.ref_count))
      rw [if_neg hEFne]
      have hdrop : EF.drop 1 = (List.replicate (2 ^ 5 - 1)
          (PaletteEntry.dflt (T := T))).set 0 { value := v, ref_count := 1 } := by
        rw [hEF, drop1_set _ _ (by omega)]
        rw [List.drop_set, if_pos (by omega), List.drop_set, if_pos (by omega),
          List.drop_replicate]
      rw [hdrop]
      have hlist : (List.replicate (2 ^ 5 - 1) (PaletteEntry.dflt (T := T))).set 0
          { value := v, ref_count := 1 }
          = { value := v, ref_count := 1 } :: List.replicate (2 ^ 5 - 2)
            (PaletteEntry.dflt (T := T)) := by
        rw [show (2 ^ 5 - 1 : Nat) = (2 ^ 5 - 2) + 1 from by norm_num,
          List.replicate_succ]
        rfl
      rw [hlist, List.countP_cons]
      have h2 : (List.replicate (2 ^ 5 - 2) (PaletteEntry.dflt (T := T))).countP
          (fun e => decide (0 < e.ref_count)) = 0 := by
        rw [List.countP_eq_zero]
        intro e he
        rw [List.eq_of_mem_replicate he]
        simp [PaletteEntry.dflt]
      rw [h2]
      simp
    · intro j hj
      show (EF.getD j PaletteEntry.dflt).ref_count = _
      rw [hslotsH, hcount]
      by_cases hj0 : j = 0
      · subst hj0
        rw [hEF0, if_pos rfl]
      · by_cases hj1 : j = 1
        · subst hj1
          rw [hEF1, if_neg (by omega), if_pos rfl]
        · rw [hEFk j (by omega), if_neg hj0, if_neg hj1]
          rfl
    · intro j hj h
      show (EF.getD j PaletteEntry.dflt).value = default
      by_cases hj0 : j = 0
      · subst hj0
        rw [hEF0]
      · by_cases hj1 : j = 1
        · subst hj1
          have h2 : (EF.getD 1 PaletteEntry.dflt).ref_count = 0 := h
          rw [hEF1] at h2
          simp at h2
        · rw [hEFk j (by omega)]
          rfl
  · constructor
    · show SB.size = (l.set i v).length
      rw [List.length_set]
      exact hM.1
    · intro m hm
      have hmS : m < s.size := hm
      have hml : m < l.length := by
        rw [← hM.1]
        exact hmS
      show (if (2 : Nat) = 0 then default
        else (EF.getD (get_palette_index ({ set_palette_index SB i 1 with used := 2 }
          : PaletteStore T) m) PaletteEntry.dflt).value) = (l.set i v).getD m default
      rw [if_neg (by omega)]
      have hgm : get_palette_index ({ set_palette_index SB i 1 with used := 2 }
          : PaletteStore T) m
          = ((List.replicate s.size 0).set i 1).getD m 0 := by
        have := slots_getD (s := ({ set_palette_index SB i 1 with used := 2 }
          : PaletteStore T)) (i := m) hmS
        rw [hslotsH] at this
        exact this.symm
      rw [hgm]
      by_cases hmi : m = i
      · rw [hmi]
        have hil : i < l.length := by
          rw [← hM.1]
          exact hi
        have h1 : ((List.replicate s.size 0).set i 1).getD i 0 = 1 :=
          getD_set_self _ _ (by rw [List.length_replicate]; exact hi)
        have h2 : (l.set i v).getD i default = v := getD_set_self _ _ hil
        rw [h1, hEF1, h2]
      · have hne1 : i ≠ m := fun hh => hmi hh.symm
        have h1 : ((List.replicate s.size 0).set i 1).getD m 0 = 0 := by
          rw [getD_set_ne _ _ hne1, getD_replicate, if_pos hmS]
        have h2 : (l.set i v).getD m default = l.getD m default :=
          getD_set_ne _ _ hne1
        rw [h1, hEF0, h2]
        have h3 := hM.2 m hmS
        unfold get_unchecked at h3
        rw [if_pos hused0] at h3
        exact h3

/-! ### More helpers: canonical bit encoding and search facts -/

theorem natToBits_bitsToNat (l : List Bool) :
    natToBits l.length (bitsToNat l) = l := by
  induction l with
  | nil => rfl
  | cons b bs ih =>
    simp only [List.length_cons, natToBits, bitsToNat]
    congr 1
    · rcases b with _ | _
      · have h2 : ((if (false = true) then 1 else 0) + 2 * bitsToNat bs) % 2 = 0 := by
          rw [if_neg (by simp)]
          omega
        rw [h2]
        rfl
      · have h2 : ((if (true = true) then 1 else 0) + 2 * bitsToNat bs) % 2 = 1 := by
          rw [if_pos rfl]
          omega
        rw [h2]
        rfl
    · rcases b with _ | _
      · have h2 : ((if (false = true) then 1 else 0) + 2 * bitsToNat bs) / 2
            = bitsToNat bs := by
          rw [if_neg (by simp)]
          omega
        rw [h2, ih]
      · have h2 : ((if (true = true) then 1 else 0) + 2 * bitsToNat bs) / 2
            = bitsToNat bs := by
          rw [if_pos rfl]
          omega
        rw [h2, ih]

theorem spi_self {s : PaletteStore T} {i : Nat}
    (hb : s.bits.length = s.size * s.bits_per_entry) (hi : i < s.size) :
    set_palette_index s i (get_palette_index s i) = s := by
  have hle : i * s.bits_per_entry + s.bits_per_entry ≤ s.bits.length := by
    rw [hb]; exact slot_bound hi
  have hslice : (bitSlice s.bits (i * s.bits_per_entry) s.bits_per_entry).length
      = s.bits_per_entry := bitSlice_length hle
  have henc : natToBits s.bits_per_entry (get_palette_index s i)
      = bitSlice s.bits (i * s.bits_per_entry) s.bits_per_entry := by
    conv_lhs => rw [← hslice]
    exact natToBits_bitsToNat _
  have hbits : s.bits.take (i * s.bits_per_entry)
      ++ natToBits s.bits_per_entry (get_palette_index s i)
      ++ s.bits.drop (i * s.bits_per_entry + s.bits_per_entry) = s.bits := by
    rw [henc]
    simp only [bitSlice]
    rw [List.append_assoc]
    have h2 : (s.bits.drop (i * s.bits_per_entry)).take s.bits_per_entry
        ++ s.bits.drop (i * s.bits_per_entry + s.bits_per_entry)
        = s.bits.drop (i * s.bits_per_entry) := by
      have h3 : s.bits.drop (i * s.bits_per_entry + s.bits_per_entry)
          = (s.bits.drop (i * s.bits_per_entry)).drop s.bits_per_entry := by
        rw [List.drop_drop]
      rw [h3]
      exact List.take_append_drop _ _
    rw [h2]
    exact List.take_append_drop _ _
  unfold set_palette_index
  rw [hbits]

theorem findIdx?_facts {α : Type _} {p : α → Bool} {l : List α} {j : Nat} (d : α)
    (h : l.findIdx? p = some j) :
    j < l.length ∧ p (l.getD j d) = true ∧ ∀ k < j, p (l.getD k d) = false := by
  rcases List.findIdx?_eq_some_iff_findIdx_eq.mp h with ⟨hlt, hfi⟩
  refine ⟨hlt, ?_, ?_⟩
  · have h2 : p (l.getD (l.findIdx p) d) = true := by
      rw [List.getD_eq_getElem?_getD, List.getElem?_eq_getElem (by rw [hfi]; exact hlt)]
      exact List.findIdx_getElem
    rw [hfi] at h2
    exact h2
  · intro k hk
    have h3 : k < l.findIdx p := by rw [hfi]; exact hk
    have h2 := List.not_of_lt_findIdx h3
    rw [List.getD_eq_getElem?_getD, List.getElem?_eq_getElem (by omega)]
    exact h2

theorem findIdx_facts {α : Type _} {p : α → Bool} {l : List α} (d : α)
    (h : ∃ x ∈ l, p x = true) :
    l.findIdx p < l.length ∧ p (l.getD (l.findIdx p) d) = true
      ∧ ∀ k < l.findIdx p, p (l.getD k d) = false := by
  have hlt := List.findIdx_lt_length_of_exists h
  refine ⟨hlt, ?_, ?_⟩
  · rw [List.getD_eq_getElem?_getD, List.getElem?_eq_getElem hlt]
    exact List.findIdx_getElem
  · intro k hk
    have h2 := List.not_of_lt_findIdx hk
    rw [List.getD_eq_getElem?_getD, List.getElem?_eq_getElem (by omega)]
    exact h2

theorem exists_free_entry {s : PaletteStore T} (hI : Inv s)
    (hne : s.entries ≠ []) (hfree : s.used < s.entries.length) :
    ∃ e ∈ s.entries.drop 1, (e.ref_count == 0) = true := by
  have hused := hI.used_eq
  rw [if_neg hne] at hused
  have hdlen : (s.entries.drop 1).length = s.entries.length - 1 := by
    rw [List.length_drop]
  by_contra hcon
  push_neg at hcon
  have hall : ∀ e ∈ s.entries.drop 1, (fun x => decide (0 < x.ref_count)) e = true := by
    intro e he
    have := hcon e he
    simp at this ⊢
    omega
  have := List.countP_eq_length.mpr hall
  omega

theorem count_two {α : Type _} [DecidableEq α] {l : List α} {a d : α} {i m : Nat}
    (hne : i ≠ m) (hi : i < l.length) (hm : m < l.length)
    (h1 : l.getD i d = a) (h2 : l.getD m d = a) : 2 ≤ l.count a := by
  -- without loss of generality the two witnesses are ordered
  rcases Nat.lt_or_ge i m with hlt | hge
  · have hdec := self_eq_set_getD (l := l) (i := m) d hm
    have hmem : a ∈ l.take m := by
      have hitake : i < (l.take m).length := by
        rw [List.length_take]
        omega
      have : (l.take m).getD i d = a := by
        rw [List.getD_eq_getElem?_getD, List.getElem?_take, if_pos hlt,
          ← List.getD_eq_getElem?_getD, h1]
      rw [← this, List.getD_eq_getElem?_getD, List.getElem?_eq_getElem hitake]
      exact List.getElem_mem _
    have hc1 : 1 ≤ (l.take m).count a := List.count_pos_iff.mpr hmem
    conv_lhs => rw [show (2 : Nat) = 1 + 1 from rfl]
    conv_rhs => rw [hdec]
    rw [List.count_append, List.count_cons]
    rw [h2]
    simp
    omega
  · have hlt : m < i := by omega
    have hdec := self_eq_set_getD (l := l) (i := i) d hi
    have hmem : a ∈ l.take i := by
      have hmtake : m < (l.take i).length := by
        rw [List.length_take]
        omega
      have : (l.take i).getD m d = a := by
        rw [List.getD_eq_getElem?_getD, List.getElem?_take, if_pos hlt,
          ← List.getD_eq_getElem?_getD, h2]
      rw [← this, List.getD_eq_getElem?_getD, List.getElem?_eq_getElem hmtake]
      exact List.getElem_mem _
    have hc1 : 1 ≤ (l.take i).count a := List.count_pos_iff.mpr hmem
    conv_lhs => rw [show (2 : Nat) = 1 + 1 from rfl]
    conv_rhs => rw [hdec]
    rw [List.count_append, List.count_cons]
    rw [h1]
    simp
    omega

/-- set_unchecked, branch: an existing palette entry already holds the new
value; the slot is repointed at it and its ref_count bumped. -/
theorem find_branch_good {s : PaletteStore T} {l : List T} (hI : Inv s)
    (hM : Models s l) {i : Nat} (hi : i < s.size) {v : T} {pi : Nat}
    {cur X : PaletteEntry T} {u1 j : Nat}
    (hpidef : pi = get_palette_index s i)
    (hcurdef : cur = s.entries.getD pi PaletteEntry.dflt)
    (hu : ¬ s.used = 0)
    (hvne : ¬ v = cur.value)
    (hcase : (X = { value := default, ref_count := 0 } ∧ u1 = s.used - 1
        ∧ cur.ref_count - 1 = 0 ∧ 0 < pi)
      ∨ (X = { value := cur.value, ref_count := cur.ref_count - 1 } ∧ u1 = s.used
        ∧ ¬(cur.ref_count - 1 = 0 ∧ 0 < pi)))
    (hfind : (s.entries.set pi X).findIdx? (fun e => e.value == v) = some j) :
    Inv ({ set_palette_index ({ s with entries := s.entries.set pi X, used := u1 })
        i j with
      entries := (s.entries.set pi X).set j
        { value := ((s.entries.set pi X).getD j PaletteEntry.dflt).value,
          ref_count := ((s.entries.set pi X).getD j PaletteEntry.dflt).ref_count + 1 } })
    ∧ Models ({ set_palette_index ({ s with entries := s.entries.set pi X, used := u1 })
        i j with
      entries := (s.entries.set pi X).set j
        { value := ((s.entries.set pi X).getD j PaletteEntry.dflt).value,
          ref_count := ((s.entries.set pi X).getD j PaletteEntry.dflt).ref_count + 1 } })
      (l.set i v) := by
  have hne : s.entries ≠ [] := fun h => hu ((used_zero_iff_empty hI).mpr h)
  have hlenp : s.entries.length = 2 ^ s.bits_per_entry := hI.entries_pow.resolve_left hne
  have hpilt : pi < s.entries.length := by
    rw [hpidef, hlenp]
    exact gpi_lt_two_pow s i
  have hrc_eq : cur.ref_count = (slots s).count pi := by
    rw [hcurdef]
    exact hI.rc_count pi hpilt
  have hrcpos : 0 < cur.ref_count := by
    rw [hrc_eq, hpidef]
    exact count_slot_pos hi
  have hlen1 : (s.entries.set pi X).length = s.entries.length := List.length_set _ _ _
  obtain ⟨hjlt1, hjp, hjfirst1⟩ := findIdx?_facts (PaletteEntry.dflt (T := T)) hfind
  have hjlt : j < s.entries.length := by
    rw [← hlen1]
    exact hjlt1
  have hjval : ((s.entries.set pi X).getD j PaletteEntry.dflt).value = v := by
    simpa using hjp
  have hjfirst : ∀ k < j, ¬ ((s.entries.set pi X).getD k PaletteEntry.dflt).value = v := by
    intro k hk
    have := hjfirst1 k hk
    simpa using this
  have hcurval0 : pi = 0 → cur.value = default := by
    intro h0
    rw [hcurdef, h0]
    exact hI.value0 hne
  have hE1getD : ∀ k, k ≠ pi →
      (s.entries.set pi X).getD k PaletteEntry.dflt
        = s.entries.getD k PaletteEntry.dflt := by
    intro k hk
    exact getD_set_ne _ _ (fun hh => hk hh.symm)
  have hE1pi : (s.entries.set pi X).getD pi PaletteEntry.dflt = X :=
    getD_set_self _ _ hpilt
  have hjnepi : j ≠ pi := by
    intro hjp2
    rcases hcase with ⟨hXv, _, _, hpipos⟩ | ⟨hXv, _, hnf⟩
    · have hvd : v = default := by
        rw [← hjval, hjp2, hE1pi, hXv]
      have h0 := hjfirst 0 (by omega)
      have h0d : ((s.entries.set pi X).getD 0 PaletteEntry.dflt).value = default := by
        rw [hE1getD 0 (by omega)]
        exact hI.value0 hne
      exact h0 (by rw [h0d, hvd])
    · have hvx : v = X.value := by
        rw [← hjval, hjp2, hE1pi]
      rw [hXv] at hvx
      exact hvne hvx
  have hrcj : ((s.entries.set pi X).getD j PaletteEntry.dflt).ref_count
      = (slots s).count j := by
    rw [hE1getD j hjnepi]
    exact hI.rc_count j hjlt
  have hjpos_rc : 0 < j →
      0 < ((s.entries.set pi X).getD j PaletteEntry.dflt).ref_count := by
    intro hj0
    by_contra hc
    push_neg at hc
    have hrc0 : (s.entries.getD j PaletteEntry.dflt).ref_count = 0 := by
      rw [← hE1getD j hjnepi]
      omega
    have hvdflt : (s.entries.getD j PaletteEntry.dflt).value = default :=
      hI.rc_zero j hjlt hrc0
    have hveqd : v = default := by
      rw [← hjval, hE1getD j hjnepi, hvdflt]
    by_cases hpi0 : pi = 0
    · exact hvne (by rw [hveqd, ← hcurval0 hpi0])
    · have h0 := hjfirst 0 hj0
      have h0d : ((s.entries.set pi X).getD 0 PaletteEntry.dflt).value = default := by
        rw [hE1getD 0 (fun h => hpi0 h.symm)]
        exact hI.value0 hne
      exact h0 (by rw [h0d, hveqd])
  have hslen : (slots s).length = s.size := slots_length s
  have hslotgetD : (slots s).getD i 0 = pi := by
    rw [slots_getD hi, hpidef]
  have hcnt : ∀ k : Nat, ((slots s).set i j).count k + (if pi = k then 1 else 0)
      = (slots s).count k + (if j = k then 1 else 0) := by
    intro k
    have h1 := count_set_getD (l := slots s) (i := i) j 0
      (by rw [hslen]; exact hi) k
    rw [hslotgetD] at h1
    exact h1
  have hS1b : ({ s with entries := s.entries.set pi X, used := u1 }
      : PaletteStore T).bits.length
      = ({ s with entries := s.entries.set pi X, used := u1 }
        : PaletteStore T).size
        * ({ s with entries := s.entries.set pi X, used := u1 }
          : PaletteStore T).bits_per_entry := hI.bits_len
  have hslotsW : slots ({ set_palette_index
        ({ s with entries := s.entries.set pi X, used := u1 }) i j with
      entries := (s.entries.set pi X).set j
        { value := ((s.entries.set pi X).getD j PaletteEntry.dflt).value,
          ref_count := ((s.entries.set pi X).getD j PaletteEntry.dflt).ref_count + 1 } }
      : PaletteStore T) = (slots s).set i j := by
    show slots (set_palette_index
      ({ s with entries := s.entries.set pi X, used := u1 }) i j) = _
    rw [slots_spi hS1b (show i < s.size from hi)]
    show (slots s).set i (j % 2 ^ s.bits_per_entry) = _
    rw [Nat.mod_eq_of_lt (by rw [← hlenp]; exact hjlt)]
  have hE2len : ((s.entries.set pi X).set j
      { value := ((s.entries.set pi X).getD j PaletteEntry.dflt).value,
        ref_count := ((s.entries.set pi X).getD j PaletteEntry.dflt).ref_count + 1 }).length
      = s.entries.length := by
    rw [List.length_set, hlen1]
  have hE2ne : ((s.entries.set pi X).set j
      { value := ((s.entries.set pi X).getD j PaletteEntry.dflt).value,
        ref_count := ((s.entries.set pi X).getD j PaletteEntry.dflt).ref_count + 1 }) ≠ [] := by
    intro h
    have := congrArg List.length h
    rw [hE2len, List.length_nil] at this
    omega
  have hE2j : ((s.entries.set pi X).set j
      { value := ((s.entries.set pi X).getD j PaletteEntry.dflt).value,
        ref_count := ((s.entries.set pi X).getD j PaletteEntry.dflt).ref_count + 1 }).getD j
        PaletteEntry.dflt
      = { value := ((s.entries.set pi X).getD j PaletteEntry.dflt).value,
          ref_count := ((s.entries.set pi X).getD j PaletteEntry.dflt).ref_count + 1 } :=
    getD_set_self _ _ (by rw [hlen1]; exact hjlt)
  have hE2k : ∀ k, k ≠ j → ((s.entries.set pi X).set j
      { value := ((s.entries.set pi X).getD j PaletteEntry.dflt).value,
        ref_count := ((s.entries.set pi X).getD j PaletteEntry.dflt).ref_count + 1 }).getD k
        PaletteEntry.dflt
      = (s.entries.set pi X).getD k PaletteEntry.dflt := by
    intro k hk
    exact getD_set_ne _ _ (fun hh => hk hh.symm)
  have husedold : s.used = 1 + (s.entries.drop 1).countP
      (fun e => decide (0 < e.ref_count)) := by
    have := hI.used_eq
    rw [if_neg hne] at this
    exact this
  have hdropE1 : ((s.entries.set pi X).drop 1).countP (fun e => decide (0 < e.ref_count))
        + (if 0 < pi then (if 0 < cur.ref_count then 1 else 0) else 0)
      = (s.entries.drop 1).countP (fun e => decide (0 < e.ref_count))
        + (if 0 < pi then (if 0 < X.ref_count then 1 else 0) else 0) := by
    by_cases hpi0 : 0 < pi
    · rw [if_pos hpi0, if_pos hpi0]
      have h1 := countP_drop1_set (l := s.entries) (j := pi) X (by omega) hpilt
      rw [← hcurdef] at h1
      exact h1
    · rw [if_neg hpi0, if_neg hpi0]
      have h0 : pi = 0 := by omega
      rw [h0, List.drop_set, if_pos (by omega)]
  have hdropE2 : (((s.entries.set pi X).set j
        { value := ((s.entries.set pi X).getD j PaletteEntry.dflt).value,
          ref_count := ((s.entries.set pi X).getD j PaletteEntry.dflt).ref_count + 1 }).drop 1).countP
        (fun e => decide (0 < e.ref_count))
      = ((s.entries.set pi X).drop 1).countP (fun e => decide (0 < e.ref_count)) := by
    by_cases hj0 : 0 < j
    · have h1 := countP_drop1_set (l := s.entries.set pi X) (j := j)
        { value := ((s.entries.set pi X).getD j PaletteEntry.dflt).value,
          ref_count := ((s.entries.set pi X).getD j PaletteEntry.dflt).ref_count + 1 }
        (by omega) (by rw [hlen1]; exact hjlt)
      have h2 := hjpos_rc hj0
      rw [if_pos h2, if_pos (Nat.succ_pos _)] at h1
      omega
    · have h0 : j = 0 := by omega
      rw [h0, List.drop_set, if_pos (by omega)]
  have husednew : u1 = 1 + (((s.entries.set pi X).set j
      { value := ((s.entries.set pi X).getD j PaletteEntry.dflt).value,
        ref_count := ((s.entries.set pi X).getD j PaletteEntry.dflt).ref_count + 1 }).drop 1).countP
        (fun e => decide (0 < e.ref_count)) := by
    rw [hdropE2]
    rcases hcase with ⟨hXv, hu1, hfr, hpipos⟩ | ⟨hXv, hu1, hnf⟩
    · have hXrc : X.ref_count = 0 := by rw [hXv]
      rw [if_pos hpipos, if_pos hpipos, if_pos hrcpos,
        if_neg (show ¬ 0 < X.ref_count from by omega)] at hdropE1
      omega
    · by_cases hpi0 : 0 < pi
      · have hXrc : X.ref_count = cur.ref_count - 1 := by rw [hXv]
        have hnz : cur.ref_count - 1 ≠ 0 := fun h => hnf ⟨h, hpi0⟩
        rw [if_pos hpi0, if_pos hpi0, if_pos hrcpos,
          if_pos (show 0 < X.ref_count from by omega)] at hdropE1
        omega
      · rw [if_neg hpi0, if_neg hpi0] at hdropE1
        omega
  have hupos : u1 ≠ 0 := by
    rw [husednew]
    omega
  constructor
  · refine ⟨?_, Or.inr ?_, ?_, ?_, ?_, ?_, ?_⟩
    · show (set_palette_index ({ s with entries := s.entries.set pi X, used := u1 })
        i j).bits.length = s.size * s.bits_per_entry
      rw [spi_bits_length hS1b (show i < s.size from hi)]
      exact hI.bits_len
    · rw [hE2len]
      exact hlenp
    · intro h
      exact absurd h hE2ne
    · intro _
      show (((s.entries.set pi X).set j _).getD 0 PaletteEntry.dflt).value = default
      by_cases hj0 : j = 0
      · subst hj0
        rw [hE2j]
        show ((s.entries.set pi X).getD 0 PaletteEntry.dflt).value = default
        by_cases hpi0 : pi = 0
        · exact absurd hpi0.symm hjnepi
        · rw [hE1getD 0 (fun h => hpi0 h.symm)]
          exact hI.value0 hne
      · rw [hE2k 0 (fun h => hj0 h.symm)]
        by_cases hpi0 : pi = 0
        · rw [← hpi0, hE1pi]
          rcases hcase with ⟨hXv, _, _, hpipos⟩ | ⟨hXv, _, _⟩
          · omega
          · rw [hXv]
            exact hcurval0 hpi0
        · rw [hE1getD 0 (fun h => hpi0 h.symm)]
          exact hI.value0 hne
    · rw [if_neg hE2ne]
      exact husednew
    · intro k hk
      rw [hE2len] at hk
      rw [hslotsW]
      have hck := hcnt k
      by_cases hkj : k = j
      · subst hkj
        rw [hE2j]
        show ((s.entries.set pi X).getD k PaletteEntry.dflt).ref_count + 1 = _
        rw [hrcj]
        rw [if_neg (fun h => hjnepi h.symm), if_pos rfl] at hck
        omega
      · rw [hE2k k (fun h => hkj h)]
        by_cases hkpi : k = pi
        · subst hkpi
          rw [hE1pi]
          rw [if_pos rfl, if_neg (fun h => hkj h.symm)] at hck
          have hXrc : X.ref_count = cur.ref_count - 1 := by
            rcases hcase with ⟨hXv, _, hfr, _⟩ | ⟨hXv, _, _⟩
            · rw [hXv]
              show (0 : Nat) = cur.ref_count - 1
              omega
            · rw [hXv]
          rw [hXrc, hrc_eq]
          omega
        · rw [hE1getD k (fun h => hkpi h)]
          rw [if_neg (fun h => hkpi h.symm), if_neg (fun h => hkj h.symm)] at hck
          rw [hI.rc_count k hk]
          omega
    · intro k hk h
      rw [hE2len] at hk
      by_cases hkj : k = j
      · subst hkj
        rw [hE2j] at h
        simp at h
      · rw [hE2k k (fun hh => hkj hh)] at h ⊢
        by_cases hkpi : k = pi
        · rw [hkpi] at h ⊢
          rw [hE1pi] at h ⊢
          rcases hcase with ⟨hXv, _, _, _⟩ | ⟨hXv, _, hnf⟩
          · rw [hXv]
          · rw [hXv] at h ⊢
            simp only at h ⊢
            by_cases hpi0 : 0 < pi
            · omega
            · exact hcurval0 (by omega)
        · rw [hE1getD k (fun hh => hkpi hh)] at h ⊢
          exact hI.rc_zero k hk h
  · constructor
    · show s.size = (l.set i v).length
      rw [List.length_set]
      exact hM.1
    · intro m hm
      have hmS : m < s.size := hm
      have hml : m < l.length := by
        rw [← hM.1]
        exact hmS
      have hil : i < l.length := by
        rw [← hM.1]
        exact hi
      show (if u1 = 0 then default else _) = (l.set i v).getD m default
      rw [if_neg hupos]
      have hgm : get_palette_index ({ set_palette_index
          ({ s with entries := s.entries.set pi X, used := u1 }) i j with
        entries := (s.entries.set pi X).set j
          { value := ((s.entries.set pi X).getD j PaletteEntry.dflt).value,
            ref_count := ((s.entries.set pi X).getD j PaletteEntry.dflt).ref_count + 1 } }
          : PaletteStore T) m
          = ((slots s).set i j).getD m 0 := by
        have h2 := slots_getD (s := ({ set_palette_index
          ({ s with entries := s.entries.set pi X, used := u1 }) i j with
          entries := (s.entries.set pi X).set j
            { value := ((s.entries.set pi X).getD j PaletteEntry.dflt).value,
              ref_count := ((s.entries.set pi X).getD j PaletteEntry.dflt).ref_count + 1 } }
            : PaletteStore T)) (i := m) hmS
        rw [hslotsW] at h2
        exact h2.symm
      rw [hgm]
      by_cases hmi : m = i
      · rw [hmi]
        have h1 : ((slots s).set i j).getD i 0 = j :=
          getD_set_self _ _ (by rw [hslen]; exact hi)
        have h2 : (l.set i v).getD i default = v := getD_set_self _ _ hil
        rw [h1, hE2j]
        show ((s.entries.set pi X).getD j PaletteEntry.dflt).value = _
        rw [hjval, h2]
      · have hne1 : i ≠ m := fun hh => hmi hh.symm
        have h1 : ((slots s).set i j).getD m 0 = (slots s).getD m 0 :=
          getD_set_ne _ _ hne1
        have h2 : (l.set i v).getD m default = l.getD m default :=
          getD_set_ne _ _ hne1
        rw [h1, h2]
        have holdv : (s.entries.getD (get_palette_index s m) PaletteEntry.dflt).value
            = l.getD m default := by
          have h3 : get_unchecked s m = l.getD m default := hM.2 m hmS
          unfold get_unchecked at h3
          rw [if_neg hu] at h3
          exact h3
        have hgm2 : (slots s).getD m 0 = get_palette_index s m := slots_getD hmS
        rw [hgm2]
        by_cases hmj : get_palette_index s m = j
        · rw [hmj, hE2j]
          show ((s.entries.set pi X).getD j PaletteEntry.dflt).value = _
          rw [hjval, ← holdv, hmj, ← hE1getD j hjnepi, hjval]
        · rw [hE2k _ (fun hh => hmj hh)]
          by_cases hmpi : get_palette_index s m = pi
          · rcases hcase with ⟨hXv, _, hfr, hpipos⟩ | ⟨hXv, _, _⟩
            · exfalso
              have hc2 : 2 ≤ (slots s).count pi := by
                refine count_two (d := 0) (i := i) (m := m) hne1
                  (by rw [hslen]; exact hi) (by rw [hslen]; exact hmS)
                  hslotgetD (by rw [slots_getD hmS]; exact hmpi)
              omega
            · rw [hmpi, hE1pi, hXv]
              show cur.value = _
              rw [← holdv, hmpi, ← hcurdef]
          · rw [hE1getD _ (fun hh => hmpi hh)]
            rw [holdv]

/-- set_unchecked, branch: the old palette entry was just freed and no other
entry holds the new value, so the freed entry is repurposed in place. -/
theorem repurpose_branch_good {s : PaletteStore T} {l : List T} (hI : Inv s)
    (hM : Models s l) {i : Nat} (hi : i < s.size) {v : T} {pi : Nat}
    {cur : PaletteEntry T}
    (hpidef : pi = get_palette_index s i)
    (hcurdef : cur = s.entries.getD pi PaletteEntry.dflt)
    (hu : ¬ s.used = 0)
    (hvne : ¬ v = cur.value)
    (hfr : cur.ref_count - 1 = 0) (hpipos : 0 < pi)
    (hnone : (s.entries.set pi { value := (default : T), ref_count := 0 }).findIdx?
      (fun e => e.value == v) = none) :
    Inv ({ s with
      entries := (s.entries.set pi { value := (default : T), ref_count := 0 }).set pi
        { value := v, ref_count := 1 },
      used := s.used - 1 + 1 })
    ∧ Models ({ s with
      entries := (s.entries.set pi { value := (default : T), ref_count := 0 }).set pi
        { value := v, ref_count := 1 },
      used := s.used - 1 + 1 }) (l.set i v) := by
  have hne : s.entries ≠ [] := fun h => hu ((used_zero_iff_empty hI).mpr h)
  have hlenp : s.entries.length = 2 ^ s.bits_per_entry := hI.entries_pow.resolve_left hne
  have hpilt : pi < s.entries.length := by
    rw [hpidef, hlenp]
    exact gpi_lt_two_pow s i
  have hrc_eq : cur.ref_count = (slots s).count pi := by
    rw [hcurdef]
    exact hI.rc_count pi hpilt
  have hrcpos : 0 < cur.ref_count := by
    rw [hrc_eq, hpidef]
    exact count_slot_pos hi
  have hrc1 : cur.ref_count = 1 := by omega
  have hset2 : (s.entries.set pi { value := (default : T), ref_count := 0 }).set pi
      { value := v, ref_count := 1 }
      = s.entries.set pi { value := v, ref_count := 1 } := List.set_set _ _ _ _
  have hE3len : (s.entries.set pi { value := v, ref_count := (1 : Nat) }).length
      = s.entries.length := List.length_set _ _ _
  have hE3ne : s.entries.set pi { value := v, ref_count := (1 : Nat) } ≠ [] := by
    intro h
    have := congrArg List.length h
    rw [hE3len, List.length_nil] at this
    omega
  have hE3pi : (s.entries.set pi { value := v, ref_count := (1 : Nat) }).getD pi
      PaletteEntry.dflt = { value := v, ref_count := 1 } :=
    getD_set_self _ _ hpilt
  have hE3k : ∀ k, k ≠ pi →
      (s.entries.set pi { value := v, ref_count := (1 : Nat) }).getD k PaletteEntry.dflt
      = s.entries.getD k PaletteEntry.dflt := by
    intro k hk
    exact getD_set_ne _ _ (fun hh => hk hh.symm)
  have husedold : s.used = 1 + (s.entries.drop 1).countP
      (fun e => decide (0 < e.ref_count)) := by
    have := hI.used_eq
    rw [if_neg hne] at this
    exact this
  have hdrop : ((s.entries.set pi { value := v, ref_count := (1 : Nat) }).drop 1).countP
      (fun e => decide (0 < e.ref_count))
      = (s.entries.drop 1).countP (fun e => decide (0 < e.ref_count)) := by
    have h1 := countP_drop1_set (l := s.entries) (j := pi)
      { value := v, ref_count := (1 : Nat) } (by omega) hpilt
    rw [← hcurdef] at h1
    rw [if_pos hrcpos, if_pos (by norm_num)] at h1
    omega
  have hslotsW : slots ({ s with
      entries := (s.entries.set pi { value := (default : T), ref_count := 0 }).set pi
        { value := v, ref_count := 1 },
      used := s.used - 1 + 1 } : PaletteStore T) = slots s := rfl
  rw [hset2]
  constructor
  · refine ⟨hI.bits_len, Or.inr ?_, ?_, ?_, ?_, ?_, ?_⟩
    · rw [hE3len]
      exact hlenp
    · intro h
      exact absurd h hE3ne
    · intro _
      show ((s.entries.set pi { value := v, ref_count := (1 : Nat) }).getD 0
        PaletteEntry.dflt).value = default
      rw [hE3k 0 (by omega)]
      exact hI.value0 hne
    · rw [if_neg hE3ne]
      show s.used - 1 + 1 = _
      rw [hdrop]
      omega
    · intro k hk
      rw [hE3len] at hk
      show ((s.entries.set pi { value := v, ref_count := (1 : Nat) }).getD k
        PaletteEntry.dflt).ref_count = (slots s).count k
      by_cases hkpi : k = pi
      · rw [hkpi, hE3pi]
        show (1 : Nat) = _
        omega
      · rw [hE3k k hkpi]
        exact hI.rc_count k hk
    · intro k hk h
      rw [hE3len] at hk
      by_cases hkpi : k = pi
      · rw [hkpi] at h ⊢
        rw [hE3pi] at h ⊢
        simp at h
      · rw [hE3k k hkpi] at h ⊢
        exact hI.rc_zero k hk h
  · constructor
    · show s.size = (l.set i v).length
      rw [List.length_set]
      exact hM.1
    · intro m hm
      have hmS : m < s.size := hm
      have hil : i < l.length := by
        rw [← hM.1]
        exact hi
      show (if s.used - 1 + 1 = 0 then default else _) = (l.set i v).getD m default
      rw [if_neg (by omega)]
      show ((s.entries.set pi { value := v, ref_count := (1 : Nat) }).getD
        (get_palette_index s m) PaletteEntry.dflt).value = (l.set i v).getD m default
      have holdv : (s.entries.getD (get_palette_index s m) PaletteEntry.dflt).value
          = l.getD m default := by
        have h3 : get_unchecked s m = l.getD m default := hM.2 m hmS
        unfold get_unchecked at h3
        rw [if_neg hu] at h3
        exact h3
      by_cases hmi : m = i
      · rw [hmi, ← hpidef, hE3pi]
        show v = _
        rw [getD_set_self _ _ hil]
      · have hne1 : i ≠ m := fun hh => hmi hh.symm
        rw [getD_set_ne _ _ hne1]
        by_cases hmpi : get_palette_index s m = pi
        · exfalso
          have hc2 : 2 ≤ (slots s).count pi := by
            refine count_two (d := 0) (i := i) (m := m) hne1
              (by rw [slots_length]; exact hi) (by rw [slots_length]; exact hmS)
              (by rw [slots_getD hi, hpidef]) (by rw [slots_getD hmS]; exact hmpi)
          omega
        · rw [hE3k _ hmpi]
          exact holdv

/-- set_unchecked, shared tail: writing the value into a fresh palette slot
tgt of a base store B whose consistency has a single ref_count debt at the
palette entry pi that slot i still points to. -/
def freshWrite (B : PaletteStore T) (i tgt : Nat) (v : T) : PaletteStore T :=
  { set_palette_index ({ B with entries := B.entries.set tgt (PaletteEntry.mk v 1) }) i tgt with used := B.used + 1 }

theorem fresh_common_good {B : PaletteStore T} {l : List T} {i tgt : Nat} {v : T}
    (hb : B.bits.length = B.size * B.bits_per_entry)
    (hpow : B.entries.length = 2 ^ B.bits_per_entry)
    (hBne : B.entries ≠ [])
    (hi : i < B.size)
    (htgt : tgt < B.entries.length)
    (htgt1 : 1 ≤ tgt)
    (hrc0 : (B.entries.getD tgt PaletteEntry.dflt).ref_count = 0)
    (hcnt0 : (slots B).count tgt = 0)
    (H1 : ∀ k < B.entries.length, k ≠ get_palette_index B i →
      (B.entries.getD k PaletteEntry.dflt).ref_count = (slots B).count k)
    (H2 : (B.entries.getD (get_palette_index B i) PaletteEntry.dflt).ref_count + 1
      = (slots B).count (get_palette_index B i))
    (H3 : B.used = 1 + (B.entries.drop 1).countP (fun e => decide (0 < e.ref_count)))
    (H4 : (B.entries.getD 0 PaletteEntry.dflt).value = default)
    (H5 : ∀ k < B.entries.length,
      (B.entries.getD k PaletteEntry.dflt).ref_count = 0 →
      (B.entries.getD k PaletteEntry.dflt).value = default)
    (H8 : B.size = l.length)
    (H9 : ∀ m < B.size, m ≠ i →
      (B.entries.getD (get_palette_index B m) PaletteEntry.dflt).value
        = l.getD m default) :
    Inv (freshWrite B i tgt v) ∧ Models (freshWrite B i tgt v) (l.set i v) := by
  unfold freshWrite
  have hslen : (slots B).length = B.size := slots_length B
  have hpilt : get_palette_index B i < B.entries.length := by
    rw [hpow]
    exact gpi_lt_two_pow B i
  have hpine : get_palette_index B i ≠ tgt := by
    intro h
    have h1 : 0 < (slots B).count (get_palette_index B i) := count_slot_pos hi
    rw [h] at h1
    omega
  have hslotgetD : (slots B).getD i 0 = get_palette_index B i := slots_getD hi
  have hcnt : ∀ k : Nat, ((slots B).set i tgt).count k
      + (if get_palette_index B i = k then 1 else 0)
      = (slots B).count k + (if tgt = k then 1 else 0) := by
    intro k
    have h1 := count_set_getD (l := slots B) (i := i) tgt 0
      (by rw [hslen]; exact hi) k
    rw [hslotgetD] at h1
    exact h1
  have hB1b : ({ B with entries := B.entries.set tgt (PaletteEntry.mk v 1) } : PaletteStore T).bits.length = ({ B with entries := B.entries.set tgt (PaletteEntry.mk v 1) } : PaletteStore T).size * ({ B with entries := B.entries.set tgt (PaletteEntry.mk v 1) } : PaletteStore T).bits_per_entry := hb
  have hE4len : (B.entries.set tgt (PaletteEntry.mk v 1)).length
      = B.entries.length := List.length_set _ _ _
  have hE4ne : B.entries.set tgt (PaletteEntry.mk v 1) ≠ [] := by
    intro h
    have := congrArg List.length h
    rw [hE4len, List.length_nil] at this
    omega
  have hE4tgt : (B.entries.set tgt (PaletteEntry.mk v 1)).getD tgt
      PaletteEntry.dflt = (PaletteEntry.mk v 1) :=
    getD_set_self _ _ htgt
  have hE4k : ∀ k, k ≠ tgt →
      (B.entries.set tgt (PaletteEntry.mk v 1)).getD k PaletteEntry.dflt
      = B.entries.getD k PaletteEntry.dflt := by
    intro k hk
    exact getD_set_ne _ _ (fun hh => hk hh.symm)
  have hslotsW : slots ({ set_palette_index ({ B with entries := B.entries.set tgt (PaletteEntry.mk v 1) }) i tgt with used := B.used + 1 } : PaletteStore T) = (slots B).set i tgt := by
    show slots (set_palette_index ({ B with entries := B.entries.set tgt (PaletteEntry.mk v 1) }) i tgt) = _
    rw [slots_spi hB1b (show i < B.size from hi)]
    show (slots B).set i (tgt % 2 ^ B.bits_per_entry) = _
    rw [Nat.mod_eq_of_lt (by rw [← hpow]; exact htgt)]
  have hdrop : ((B.entries.set tgt (PaletteEntry.mk v 1)).drop 1).countP
      (fun e => decide (0 < e.ref_count))
      = (B.entries.drop 1).countP (fun e => decide (0 < e.ref_count)) + 1 := by
    have h1 := countP_drop1_set (l := B.entries) (j := tgt)
      (PaletteEntry.mk v 1) htgt1 htgt
    rw [if_neg (by omega), if_pos (by norm_num)] at h1
    omega
  constructor
  · refine ⟨?_, Or.inr ?_, ?_, ?_, ?_, ?_, ?_⟩
    · show (set_palette_index ({ B with entries := B.entries.set tgt (PaletteEntry.mk v 1) }) i tgt).bits.length = B.size * B.bits_per_entry
      rw [spi_bits_length hB1b (show i < B.size from hi)]
      exact hb
    · show (B.entries.set tgt (PaletteEntry.mk v 1)).length = 2 ^ B.bits_per_entry
      rw [hE4len]
      exact hpow
    · intro h
      exact absurd h hE4ne
    · intro _
      show ((B.entries.set tgt (PaletteEntry.mk v 1)).getD 0
        PaletteEntry.dflt).value = default
      rw [hE4k 0 (by omega)]
      exact H4
    · show B.used + 1 = if B.entries.set tgt (PaletteEntry.mk v 1) = [] then 0 else 1 + ((B.entries.set tgt (PaletteEntry.mk v 1)).drop 1).countP (fun e => decide (0 < e.ref_count))
      rw [if_neg hE4ne]
      show B.used + 1 = _
      rw [hdrop]
      omega
    · intro k hk
      have hk : k < B.entries.length := by rw [← hE4len]; exact hk
      rw [hslotsW]
      have hck := hcnt k
      show ((B.entries.set tgt (PaletteEntry.mk v 1)).getD k
        PaletteEntry.dflt).ref_count = _
      by_cases hkt : k = tgt
      · rw [hkt, hE4tgt]
        show (1 : Nat) = _
        rw [hkt] at hck
        rw [if_neg (fun h => hpine h), if_pos rfl] at hck
        omega
      · rw [hE4k k hkt]
        by_cases hkpi : k = get_palette_index B i
        · rw [if_pos hkpi.symm, if_neg (fun h => hpine (h.trans hkpi).symm)] at hck
          rw [hkpi] at hck ⊢
          omega
        · rw [if_neg (fun h => hkpi h.symm), if_neg (fun h => hkt h.symm)] at hck
          rw [H1 k hk (fun h => hkpi h)]
          omega
    · intro k hk h
      have hk : k < B.entries.length := by rw [← hE4len]; exact hk
      have h : ((B.entries.set tgt (PaletteEntry.mk v 1)).getD k PaletteEntry.dflt).ref_count = 0 := h
      show ((B.entries.set tgt (PaletteEntry.mk v 1)).getD k PaletteEntry.dflt).value = default
      by_cases hkt : k = tgt
      · rw [hkt, hE4tgt] at h
        simp at h
      · rw [hE4k k hkt] at h ⊢
        exact H5 k hk h
  · constructor
    · show B.size = (l.set i v).length
      rw [List.length_set]
      exact H8
    · intro m hm
      have hmS : m < B.size := hm
      have hil : i < l.length := by
        rw [← H8]
        exact hi
      show (if B.used + 1 = 0 then default else _) = (l.set i v).getD m default
      rw [if_neg (by omega)]
      have hgm : get_palette_index ({ set_palette_index ({ B with entries := B.entries.set tgt (PaletteEntry.mk v 1) }) i tgt with used := B.used + 1 } : PaletteStore T) m = ((slots B).set i tgt).getD m 0 := by
        have h2 := slots_getD (s := ({ set_palette_index ({ B with entries := B.entries.set tgt (PaletteEntry.mk v 1) }) i tgt with used := B.used + 1 } : PaletteStore T)) (i := m) hmS
        rw [hslotsW] at h2
        exact h2.symm
      rw [hgm]
      by_cases hmi : m = i
      · rw [hmi]
        have h1 : ((slots B).set i tgt).getD i 0 = tgt :=
          getD_set_self _ _ (by rw [hslen]; exact hi)
        have h2 : (l.set i v).getD i default = v := getD_set_self _ _ hil
        rw [h1]
        show ((B.entries.set tgt (PaletteEntry.mk v 1)).getD tgt PaletteEntry.dflt).value = (l.set i v).getD i default
        rw [hE4tgt, h2]
      · have hne1 : i ≠ m := fun hh => hmi hh.symm
        have h1 : ((slots B).set i tgt).getD m 0 = (slots B).getD m 0 :=
          getD_set_ne _ _ hne1
        have h2 : (l.set i v).getD m default = l.getD m default :=
          getD_set_ne _ _ hne1
        rw [h1, h2, slots_getD hmS]
        have hmt : get_palette_index B m ≠ tgt := by
          intro h
          have h3 : 0 < (slots B).count (get_palette_index B m) := count_slot_pos hmS
          rw [h] at h3
          omega
        show ((B.entries.set tgt (PaletteEntry.mk v 1)).getD (get_palette_index B m) PaletteEntry.dflt).value = l.getD m default
        rw [hE4k _ hmt]
        exact H9 m hmS hmi

/-- set_unchecked, fall-through: setFresh applied to a store A whose only
deviation from the invariant is one ref_count debt at the palette entry that
slot i still points to.  Covers both get_free_palette_index paths for a
nonempty palette: reusing a free entry and growing the palette. -/
theorem setFresh_debt_good {A : PaletteStore T} {l : List T} {i : Nat} {v : T}
    (hb : A.bits.length = A.size * A.bits_per_entry)
    (hpow : A.entries.length = 2 ^ A.bits_per_entry)
    (hAne : A.entries ≠ [])
    (hi : i < A.size)
    (hpi0 : get_palette_index A i = 0
      ∨ (A.entries.getD (get_palette_index A i) PaletteEntry.dflt).ref_count ≠ 0)
    (H1 : ∀ k < A.entries.length, k ≠ get_palette_index A i →
      (A.entries.getD k PaletteEntry.dflt).ref_count = (slots A).count k)
    (H2 : (A.entries.getD (get_palette_index A i) PaletteEntry.dflt).ref_count + 1
      = (slots A).count (get_palette_index A i))
    (H3 : A.used = 1 + (A.entries.drop 1).countP (fun e => decide (0 < e.ref_count)))
    (H4 : (A.entries.getD 0 PaletteEntry.dflt).value = default)
    (H5 : ∀ k < A.entries.length,
      (A.entries.getD k PaletteEntry.dflt).ref_count = 0 →
      (A.entries.getD k PaletteEntry.dflt).value = default)
    (H8 : A.size = l.length)
    (H9 : ∀ m < A.size, m ≠ i →
      (A.entries.getD (get_palette_index A m) PaletteEntry.dflt).value
        = l.getD m default) :
    Inv (setFresh A i v) ∧ Models (setFresh A i v) (l.set i v) := by
  have hlenpos : 0 < A.entries.length := List.length_pos.mpr hAne
  by_cases hfree : 0 < A.entries.length - A.used
  · -- a free palette entry exists; get_free_palette_index reuses it
    set tgt : Nat := (A.entries.drop 1).findIdx (fun e => e.ref_count == 0) + 1 with htgtdef
    have hgfpi : get_free_palette_index A = (A, tgt) := by
      unfold get_free_palette_index
      rw [if_pos hfree]
    have hsf : setFresh A i v = freshWrite A i tgt v := by
      unfold setFresh freshWrite
      rw [hgfpi]
      rfl
    have hdlen : (A.entries.drop 1).length = A.entries.length - 1 := by
      rw [List.length_drop]
    have hex : ∃ e ∈ A.entries.drop 1, (e.ref_count == 0) = true := by
      by_contra hcon
      push_neg at hcon
      have hall : ∀ e ∈ A.entries.drop 1,
          (fun x => decide (0 < x.ref_count)) e = true := by
        intro e he
        have := hcon e he
        simp at this ⊢
        omega
      have := List.countP_eq_length.mpr hall
      omega
    obtain ⟨hidx, hp, _⟩ := findIdx_facts (PaletteEntry.dflt (T := T)) hex
    have htgt : tgt < A.entries.length := by omega
    have htgt1 : 1 ≤ tgt := by omega
    have hrc0 : (A.entries.getD tgt PaletteEntry.dflt).ref_count = 0 := by
      have h2 := hp
      rw [getD_drop1] at h2
      have h3 : (1 + (A.entries.drop 1).findIdx (fun e => e.ref_count == 0)) = tgt := by
        omega
      rw [h3] at h2
      simpa using h2
    have htgtne : tgt ≠ get_palette_index A i := by
      rcases hpi0 with h0 | hrc
      · rw [h0]
        omega
      · intro h
        rw [h] at hrc0
        exact hrc hrc0
    have hcnt0 : (slots A).count tgt = 0 := by
      rw [← H1 tgt htgt htgtne]
      exact hrc0
    rw [hsf]
    exact fresh_common_good hb hpow hAne hi htgt htgt1 hrc0 hcnt0 H1 H2 H3 H4 H5 H8 H9
  · -- the palette is full; get_free_palette_index grows it via reserve
    have htrig : A.entries.length < A.used + 1 := by omega
    set nb : Nat := Nat.log2 (next_power_of_two (A.used + 1)) with hnb
    have hk : 2 ^ nb = next_power_of_two (A.used + 1) := two_pow_log2_npow2 _
    have hgt : A.bits_per_entry < nb := by
      have h2 : A.used + 1 ≤ next_power_of_two (A.used + 1) := le_npow2 _
      have h3 : 2 ^ A.bits_per_entry < 2 ^ nb := by omega
      exact (Nat.pow_lt_pow_iff_right (by omega)).mp h3
    have hres : reserve A 1 = set_bits_per_entry A nb := by
      unfold reserve integer_log2
      rw [if_pos htrig]
    have hgfpi : get_free_palette_index A = (reserve A 1, A.entries.length) := by
      unfold get_free_palette_index
      rw [if_neg hfree, if_neg hAne]
    have hsf : setFresh A i v = freshWrite (set_bits_per_entry A nb) i A.entries.length v := by
      unfold setFresh freshWrite
      rw [hgfpi, hres]
      rfl
    have hBsize : (set_bits_per_entry A nb).size = A.size := by
      rw [sbpe_grow_eq hAne hgt]
    have hBbpe : (set_bits_per_entry A nb).bits_per_entry = nb := by
      rw [sbpe_grow_eq hAne hgt]
    have hBused : (set_bits_per_entry A nb).used = A.used := by
      rw [sbpe_grow_eq hAne hgt]
    have hlt2 : 2 ^ A.bits_per_entry < 2 ^ nb :=
      Nat.pow_lt_pow_right (by omega) hgt
    have hle2 : A.entries.length ≤ 2 ^ nb := by omega
    have hBlen : (set_bits_per_entry A nb).entries.length = 2 ^ nb := by
      rw [sbpe_grow_eq hAne hgt]
      show (A.entries ++ _).length = _
      rw [List.length_append, List.length_replicate]
      omega
    have hBb : (set_bits_per_entry A nb).bits.length
        = (set_bits_per_entry A nb).size * (set_bits_per_entry A nb).bits_per_entry := by
      rw [grow_bits_len hb hAne hgt, hBsize, hBbpe]
    have hBpow : (set_bits_per_entry A nb).entries.length
        = 2 ^ (set_bits_per_entry A nb).bits_per_entry := by
      rw [hBlen, hBbpe]
    have hBne : (set_bits_per_entry A nb).entries ≠ [] := by
      intro h
      have := congrArg List.length h
      rw [hBlen, List.length_nil] at this
      have hpos : 0 < 2 ^ nb := Nat.pos_pow_of_pos _ (by omega)
      omega
    have hgpiB : ∀ m < A.size,
        get_palette_index (set_bits_per_entry A nb) m = get_palette_index A m :=
      grow_gpi hb hAne hgt
    have hslotsB : slots (set_bits_per_entry A nb) = slots A := grow_slots hb hAne hgt
    have hentB : ∀ j, (set_bits_per_entry A nb).entries.getD j PaletteEntry.dflt
        = A.entries.getD j PaletteEntry.dflt := grow_entries_getD hAne hgt
    have hiB : i < (set_bits_per_entry A nb).size := by
      rw [hBsize]
      exact hi
    have htgtB : A.entries.length < (set_bits_per_entry A nb).entries.length := by
      rw [hBlen]
      omega
    have htgt1 : 1 ≤ A.entries.length := hlenpos
    have hrc0B : ((set_bits_per_entry A nb).entries.getD A.entries.length PaletteEntry.dflt).ref_count
        = 0 := by
      rw [hentB, getD_oob _ (Nat.le_refl _)]
      rfl
    have hslot_lt : ∀ x ∈ slots A, x < A.entries.length := by
      intro x hx
      unfold slots at hx
      obtain ⟨m, _, hmx⟩ := List.mem_map.mp hx
      rw [← hmx, hpow]
      exact gpi_lt_two_pow A m
    have hcount_oob : ∀ k, A.entries.length ≤ k → (slots A).count k = 0 := by
      intro k hkk
      rw [List.count_eq_zero]
      intro hmem
      have := hslot_lt k hmem
      omega
    have hcnt0B : (slots (set_bits_per_entry A nb)).count A.entries.length = 0 := by
      rw [hslotsB]
      exact hcount_oob A.entries.length (Nat.le_refl _)
    have H1B : ∀ k < (set_bits_per_entry A nb).entries.length,
        k ≠ get_palette_index (set_bits_per_entry A nb) i →
        ((set_bits_per_entry A nb).entries.getD k PaletteEntry.dflt).ref_count
          = (slots (set_bits_per_entry A nb)).count k := by
      intro k _ hkne
      rw [hentB, hslotsB]
      rw [hgpiB i hi] at hkne
      rcases Nat.lt_or_ge k A.entries.length with hklt | hkge
      · exact H1 k hklt hkne
      · rw [getD_oob _ hkge, hcount_oob k hkge]
        rfl
    have H2B : ((set_bits_per_entry A nb).entries.getD
          (get_palette_index (set_bits_per_entry A nb) i) PaletteEntry.dflt).ref_count + 1
        = (slots (set_bits_per_entry A nb)).count
          (get_palette_index (set_bits_per_entry A nb) i) := by
      rw [hgpiB i hi, hentB, hslotsB]
      exact H2
    have H3B : (set_bits_per_entry A nb).used
        = 1 + ((set_bits_per_entry A nb).entries.drop 1).countP
          (fun e => decide (0 < e.ref_count)) := by
      rw [hBused]
      have hEB : (set_bits_per_entry A nb).entries
          = A.entries ++ List.replicate (2 ^ nb - A.entries.length)
            (PaletteEntry.dflt (T := T)) := by
        rw [sbpe_grow_eq hAne hgt]
      rw [hEB, List.drop_append_of_le_length (by omega), List.countP_append]
      have hrep : (List.replicate (2 ^ nb - A.entries.length)
          (PaletteEntry.dflt (T := T))).countP (fun e => decide (0 < e.ref_count)) = 0 := by
        rw [List.countP_eq_zero]
        intro a ha
        rw [List.eq_of_mem_replicate ha]
        simp [PaletteEntry.dflt]
      rw [hrep]
      omega
    have H4B : ((set_bits_per_entry A nb).entries.getD 0 PaletteEntry.dflt).value
        = default := by
      rw [hentB]
      exact H4
    have H5B : ∀ k < (set_bits_per_entry A nb).entries.length,
        ((set_bits_per_entry A nb).entries.getD k PaletteEntry.dflt).ref_count = 0 →
        ((set_bits_per_entry A nb).entries.getD k PaletteEntry.dflt).value = default := by
      intro k _ h
      rw [hentB] at h ⊢
      rcases Nat.lt_or_ge k A.entries.length with hklt | hkge
      · exact H5 k hklt h
      · rw [getD_oob _ hkge]
        rfl
    have H8B : (set_bits_per_entry A nb).size = l.length := by
      rw [hBsize]
      exact H8
    have H9B : ∀ m < (set_bits_per_entry A nb).size, m ≠ i →
        ((set_bits_per_entry A nb).entries.getD
          (get_palette_index (set_bits_per_entry A nb) m) PaletteEntry.dflt).value
        = l.getD m default := by
      intro m hm hmne
      rw [hBsize] at hm
      rw [hgpiB m hm, hentB]
      exact H9 m hm hmne
    rw [hsf]
    exact fresh_common_good hBb hBpow hBne hiB htgtB htgt1 hrc0B hcnt0B H1B H2B H3B H4B H5B H8B H9B

/-- set_unchecked, branch: no palette entry holds the new value and the old
entry was not freed (or is entry 0), so a fresh palette entry is acquired. -/
theorem setFresh_tail_good {s : PaletteStore T} {l : List T} (hI : Inv s)
    (hM : Models s l) {i : Nat} (hi : i < s.size) {v : T} {pi : Nat}
    {cur X : PaletteEntry T} {u1 : Nat}
    (hpidef : pi = get_palette_index s i)
    (hcurdef : cur = s.entries.getD pi PaletteEntry.dflt)
    (hu : ¬ s.used = 0)
    (hvne : ¬ v = cur.value)
    (hcase : (X = { value := default, ref_count := 0 } ∧ u1 = s.used - 1
        ∧ cur.ref_count - 1 = 0 ∧ 0 < pi)
      ∨ (X = { value := cur.value, ref_count := cur.ref_count - 1 } ∧ u1 = s.used
        ∧ ¬(cur.ref_count - 1 = 0 ∧ 0 < pi)))
    (hrep : ¬(0 < pi
      ∧ ((s.entries.set pi X).getD pi PaletteEntry.dflt).ref_count = 0)) :
    Inv (setFresh ({ s with entries := s.entries.set pi X, used := u1 }) i v)
    ∧ Models (setFresh ({ s with entries := s.entries.set pi X, used := u1 }) i v)
      (l.set i v) := by
  have hne : s.entries ≠ [] := fun h => hu ((used_zero_iff_empty hI).mpr h)
  have hlenp : s.entries.length = 2 ^ s.bits_per_entry := hI.entries_pow.resolve_left hne
  have hpilt : pi < s.entries.length := by
    rw [hpidef, hlenp]
    exact gpi_lt_two_pow s i
  have hrc_eq : cur.ref_count = (slots s).count pi := by
    rw [hcurdef]
    exact hI.rc_count pi hpilt
  have hrcpos : 0 < cur.ref_count := by
    rw [hrc_eq, hpidef]
    exact count_slot_pos hi
  have hcurval0 : pi = 0 → cur.value = default := by
    intro h0
    rw [hcurdef, h0]
    exact hI.value0 hne
  have hlen1 : (s.entries.set pi X).length = s.entries.length := List.length_set _ _ _
  have hE1getD : ∀ k, k ≠ pi →
      (s.entries.set pi X).getD k PaletteEntry.dflt
        = s.entries.getD k PaletteEntry.dflt := by
    intro k hk
    exact getD_set_ne _ _ (fun hh => hk hh.symm)
  have hE1pi : (s.entries.set pi X).getD pi PaletteEntry.dflt = X :=
    getD_set_self _ _ hpilt
  have hgpiA : ∀ m, get_palette_index
      ({ s with entries := s.entries.set pi X, used := u1 } : PaletteStore T) m
      = get_palette_index s m := fun m => rfl
  have hslotsA : slots ({ s with entries := s.entries.set pi X, used := u1 }
      : PaletteStore T) = slots s := rfl
  have hXrc : X.ref_count = cur.ref_count - 1 := by
    rcases hcase with ⟨hXv, _, hfr, _⟩ | ⟨hXv, _, _⟩
    · rw [hXv]
      show (0 : Nat) = cur.ref_count - 1
      omega
    · rw [hXv]
  have husedold : s.used = 1 + (s.entries.drop 1).countP
      (fun e => decide (0 < e.ref_count)) := by
    have := hI.used_eq
    rw [if_neg hne] at this
    exact this
  have hb_A : ({ s with entries := s.entries.set pi X, used := u1 }
      : PaletteStore T).bits.length
      = ({ s with entries := s.entries.set pi X, used := u1 } : PaletteStore T).size
        * ({ s with entries := s.entries.set pi X, used := u1 }
          : PaletteStore T).bits_per_entry := hI.bits_len
  have hpow_A : ({ s with entries := s.entries.set pi X, used := u1 }
      : PaletteStore T).entries.length
      = 2 ^ ({ s with entries := s.entries.set pi X, used := u1 }
        : PaletteStore T).bits_per_entry := by
    show (s.entries.set pi X).length = 2 ^ s.bits_per_entry
    rw [hlen1]
    exact hlenp
  have hAne : ({ s with entries := s.entries.set pi X, used := u1 }
      : PaletteStore T).entries ≠ [] := by
    show s.entries.set pi X ≠ []
    intro h
    have := congrArg List.length h
    rw [hlen1, List.length_nil] at this
    omega
  have hpi0_A : get_palette_index ({ s with entries := s.entries.set pi X, used := u1 }
      : PaletteStore T) i = 0
      ∨ (({ s with entries := s.entries.set pi X, used := u1 }
        : PaletteStore T).entries.getD (get_palette_index
          ({ s with entries := s.entries.set pi X, used := u1 } : PaletteStore T) i)
          PaletteEntry.dflt).ref_count ≠ 0 := by
    rw [hgpiA i, ← hpidef]
    by_cases h0 : pi = 0
    · exact Or.inl h0
    · refine Or.inr ?_
      show ¬ ((s.entries.set pi X).getD pi PaletteEntry.dflt).ref_count = 0
      intro hc
      exact hrep ⟨by omega, hc⟩
  have H1_A : ∀ k < ({ s with entries := s.entries.set pi X, used := u1 }
      : PaletteStore T).entries.length,
      k ≠ get_palette_index ({ s with entries := s.entries.set pi X, used := u1 }
        : PaletteStore T) i →
      (({ s with entries := s.entries.set pi X, used := u1 }
        : PaletteStore T).entries.getD k PaletteEntry.dflt).ref_count
      = (slots ({ s with entries := s.entries.set pi X, used := u1 }
        : PaletteStore T)).count k := by
    intro k hk hkne
    rw [hgpiA i, ← hpidef] at hkne
    have hk2 : k < s.entries.length := by
      rw [← hlen1]
      exact hk
    rw [hslotsA]
    show ((s.entries.set pi X).getD k PaletteEntry.dflt).ref_count = (slots s).count k
    rw [hE1getD k hkne]
    exact hI.rc_count k hk2
  have H2_A : (({ s with entries := s.entries.set pi X, used := u1 }
      : PaletteStore T).entries.getD (get_palette_index
        ({ s with entries := s.entries.set pi X, used := u1 } : PaletteStore T) i)
        PaletteEntry.dflt).ref_count + 1
      = (slots ({ s with entries := s.entries.set pi X, used := u1 }
        : PaletteStore T)).count (get_palette_index
        ({ s with entries := s.entries.set pi X, used := u1 } : PaletteStore T) i) := by
    rw [hgpiA i, ← hpidef, hslotsA]
    show ((s.entries.set pi X).getD pi PaletteEntry.dflt).ref_count + 1 = _
    rw [hE1pi, hXrc, hrc_eq]
    omega
  have H3_A : ({ s with entries := s.entries.set pi X, used := u1 }
      : PaletteStore T).used
      = 1 + (({ s with entries := s.entries.set pi X, used := u1 }
        : PaletteStore T).entries.drop 1).countP (fun e => decide (0 < e.ref_count)) := by
    show u1 = 1 + ((s.entries.set pi X).drop 1).countP (fun e => decide (0 < e.ref_count))
    rcases hcase with ⟨hXv, hu1, hfr, hpipos⟩ | ⟨hXv, hu1, hnf⟩
    · have h1 := countP_drop1_set (l := s.entries) (j := pi) X (by omega) hpilt
      rw [← hcurdef] at h1
      have hXrc0 : X.ref_count = 0 := by rw [hXv]
      rw [if_pos hrcpos, if_neg (show ¬ 0 < X.ref_count from by omega)] at h1
      omega
    · by_cases hpi0 : 0 < pi
      · have hnz : cur.ref_count - 1 ≠ 0 := fun h => hnf ⟨h, hpi0⟩
        have h1 := countP_drop1_set (l := s.entries) (j := pi) X (by omega) hpilt
        rw [← hcurdef] at h1
        rw [if_pos hrcpos, if_pos (show 0 < X.ref_count from by omega)] at h1
        omega
      · have h0 : pi = 0 := by omega
        rw [h0, List.drop_set, if_pos (by omega)]
        omega
  have H4_A : (({ s with entries := s.entries.set pi X, used := u1 }
      : PaletteStore T).entries.getD 0 PaletteEntry.dflt).value = default := by
    show ((s.entries.set pi X).getD 0 PaletteEntry.dflt).value = default
    by_cases hpi0 : pi = 0
    · rw [← hpi0, hE1pi]
      rcases hcase with ⟨hXv, _, _, hpipos⟩ | ⟨hXv, _, _⟩
      · omega
      · rw [hXv]
        exact hcurval0 hpi0
    · rw [hE1getD 0 (fun h => hpi0 h.symm)]
      exact hI.value0 hne
  have H5_A : ∀ k < ({ s with entries := s.entries.set pi X, used := u1 }
      : PaletteStore T).entries.length,
      (({ s with entries := s.entries.set pi X, used := u1 }
        : PaletteStore T).entries.getD k PaletteEntry.dflt).ref_count = 0 →
      (({ s with entries := s.entries.set pi X, used := u1 }
        : PaletteStore T).entries.getD k PaletteEntry.dflt).value = default := by
    intro k hk h
    have hk2 : k < s.entries.length := by
      rw [← hlen1]
      exact hk
    have h2 : ((s.entries.set pi X).getD k PaletteEntry.dflt).ref_count = 0 := h
    show ((s.entries.set pi X).getD k PaletteEntry.dflt).value = default
    by_cases hkpi : k = pi
    · rw [hkpi] at h2 ⊢
      rw [hE1pi] at h2 ⊢
      rcases hcase with ⟨hXv, _, _, _⟩ | ⟨hXv, _, hnf⟩
      · rw [hXv]
      · rw [hXv] at h2 ⊢
        simp only at h2 ⊢
        by_cases hpi0 : 0 < pi
        · omega
        · exact hcurval0 (by omega)
    · rw [hE1getD k hkpi] at h2 ⊢
      exact hI.rc_zero k hk2 h2
  have H8_A : ({ s with entries := s.entries.set pi X, used := u1 }
      : PaletteStore T).size = l.length := hM.1
  have H9_A : ∀ m < ({ s with entries := s.entries.set pi X, used := u1 }
      : PaletteStore T).size, m ≠ i →
      (({ s with entries := s.entries.set pi X, used := u1 }
        : PaletteStore T).entries.getD (get_palette_index
          ({ s with entries := s.entries.set pi X, used := u1 } : PaletteStore T) m)
          PaletteEntry.dflt).value = l.getD m default := by
    intro m hm hmne
    have hmS : m < s.size := hm
    rw [hgpiA m]
    have holdv : (s.entries.getD (get_palette_index s m) PaletteEntry.dflt).value
        = l.getD m default := by
      have h3 : get_unchecked s m = l.getD m default := hM.2 m hmS
      unfold get_unchecked at h3
      rw [if_neg hu] at h3
      exact h3
    show ((s.entries.set pi X).getD (get_palette_index s m) PaletteEntry.dflt).value
      = l.getD m default
    by_cases hmpi : get_palette_index s m = pi
    · rcases hcase with ⟨hXv, _, hfr, hpipos⟩ | ⟨hXv, _, _⟩
      · exfalso
        have hslen : (slots s).length = s.size := slots_length s
        have hc2 : 2 ≤ (slots s).count pi := by
          refine count_two (d := 0) (i := i) (m := m) (fun hh => hmne hh.symm)
            (by rw [hslen]; exact hi) (by rw [hslen]; exact hmS)
            (by rw [slots_getD hi, hpidef]) (by rw [slots_getD hmS]; exact hmpi)
        omega
      · rw [hmpi, hE1pi, hXv]
        show cur.value = _
        rw [← holdv, hmpi, ← hcurdef]
    · rw [hE1getD _ hmpi]
      exact holdv
  exact setFresh_debt_good hb_A hpow_A hAne (show i < s.size from hi) hpi0_A
    H1_A H2_A H3_A H4_A H5_A H8_A H9_A

/-- set_unchecked preserves the store invariant and updates the modelled
contents pointwise, for any in-range slot. -/
theorem set_unchecked_good {s : PaletteStore T} {l : List T} (hI : Inv s)
    (hM : Models s l) {i : Nat} (hi : i < s.size) (v : T) :
    Inv (set_unchecked s i v) ∧ Models (set_unchecked s i v) (l.set i v) := by
  have hil : i < l.length := by
    rw [← hM.1]
    exact hi
  by_cases hu : s.used = 0
  · by_cases hv : v = default
    · have hsu : set_unchecked s i v = s := by
        simp only [set_unchecked]
        rw [if_pos hu, if_pos hv]
      rw [hsu]
      refine ⟨hI, ?_, ?_⟩
      · rw [List.length_set]
        exact hM.1
      · intro m hm
        have hgm : get_unchecked s m = default := by
          unfold get_unchecked
          rw [if_pos hu]
        by_cases hmi : m = i
        · rw [hmi] at hgm
          rw [hmi, hgm, getD_set_self _ _ hil, hv]
        · rw [getD_set_ne _ _ (fun hh => hmi hh.symm)]
          rw [← hM.2 m hm]
    · have hsu : set_unchecked s i v = setFresh s i v := by
        simp only [set_unchecked]
        rw [if_pos hu, if_neg hv]
      rw [hsu]
      exact setFresh_empty_good hI hM hi v ((used_zero_iff_empty hI).mp hu)
  · have hne : s.entries ≠ [] := fun h => hu ((used_zero_iff_empty hI).mpr h)
    have hlenp : s.entries.length = 2 ^ s.bits_per_entry :=
      hI.entries_pow.resolve_left hne
    have hpilt : get_palette_index s i < s.entries.length := by
      rw [hlenp]
      exact gpi_lt_two_pow s i
    by_cases hveq : v = (s.entries.getD (get_palette_index s i) PaletteEntry.dflt).value
    · have hsu : set_unchecked s i v = s := by
        simp only [set_unchecked]
        rw [if_neg hu, if_pos hveq]
      rw [hsu]
      refine ⟨hI, ?_, ?_⟩
      · rw [List.length_set]
        exact hM.1
      · intro m hm
        by_cases hmi : m = i
        · rw [hmi, getD_set_self _ _ hil]
          show get_unchecked s i = v
          unfold get_unchecked
          rw [if_neg hu, ← hveq]
        · rw [getD_set_ne _ _ (fun hh => hmi hh.symm)]
          exact hM.2 m hm
    · by_cases hfr : (s.entries.getD (get_palette_index s i)
          PaletteEntry.dflt).ref_count - 1 = 0 ∧ 0 < get_palette_index s i
      · rcases hfind : (s.entries.set (get_palette_index s i)
            (PaletteEntry.mk (default : T) 0)).findIdx?
            (fun e => e.value == v) with _ | j
        · have hsu : set_unchecked s i v = { s with
              entries := (s.entries.set (get_palette_index s i)
                (PaletteEntry.mk (default : T) 0)).set (get_palette_index s i)
                (PaletteEntry.mk v 1),
              used := s.used - 1 + 1 } := by
            simp only [set_unchecked]
            rw [if_neg hu, if_neg hveq, if_pos hfr]
            have hsc : ({ s with entries := s.entries.set (get_palette_index s i) (PaletteEntry.mk (default : T) 0), used := s.used - 1 } : PaletteStore T).entries = s.entries.set (get_palette_index s i) (PaletteEntry.mk (default : T) 0) := rfl
            rw [hsc, hfind]
            rw [if_pos ⟨hfr.2, by rw [getD_set_self _ _ hpilt]⟩]
          rw [hsu]
          exact repurpose_branch_good hI hM hi rfl rfl hu hveq hfr.1 hfr.2 hfind
        · have hsu : set_unchecked s i v = { set_palette_index ({ s with
              entries := s.entries.set (get_palette_index s i)
                (PaletteEntry.mk (default : T) 0),
              used := s.used - 1 }) i j with
              entries := (s.entries.set (get_palette_index s i)
                  (PaletteEntry.mk (default : T) 0)).set j
                (PaletteEntry.mk ((s.entries.set (get_palette_index s i)
                    (PaletteEntry.mk (default : T) 0)).getD j PaletteEntry.dflt).value (((s.entries.set (get_palette_index s i)
                    (PaletteEntry.mk (default : T) 0)).getD j PaletteEntry.dflt).ref_count + 1)) } := by
            simp only [set_unchecked]
            rw [if_neg hu, if_neg hveq, if_pos hfr]
            have hsc : ({ s with entries := s.entries.set (get_palette_index s i) (PaletteEntry.mk (default : T) 0), used := s.used - 1 } : PaletteStore T).entries = s.entries.set (get_palette_index s i) (PaletteEntry.mk (default : T) 0) := rfl
            rw [hsc, hfind]
            rfl
          rw [hsu]
          exact find_branch_good hI hM hi rfl rfl hu hveq
            (Or.inl ⟨rfl, rfl, hfr.1, hfr.2⟩) hfind
      · rcases hfind : (s.entries.set (get_palette_index s i)
            (PaletteEntry.mk (s.entries.getD (get_palette_index s i) PaletteEntry.dflt).value ((s.entries.getD (get_palette_index s i) PaletteEntry.dflt).ref_count - 1))).findIdx?
            (fun e => e.value == v) with _ | j
        · have hrep : ¬(0 < get_palette_index s i
              ∧ ((s.entries.set (get_palette_index s i)
                (PaletteEntry.mk (s.entries.getD (get_palette_index s i) PaletteEntry.dflt).value ((s.entries.getD (get_palette_index s i) PaletteEntry.dflt).ref_count - 1))).getD (get_palette_index s i)
                  PaletteEntry.dflt).ref_count = 0) := by
            intro hc
            rcases hc with ⟨hp, hrc⟩
            rw [getD_set_self _ _ hpilt] at hrc
            exact hfr ⟨hrc, hp⟩
          have hsu : set_unchecked s i v = setFresh ({ s with
              entries := s.entries.set (get_palette_index s i)
                (PaletteEntry.mk (s.entries.getD (get_palette_index s i) PaletteEntry.dflt).value ((s.entries.getD (get_palette_index s i) PaletteEntry.dflt).ref_count - 1)),
              used := s.used }) i v := by
            simp only [set_unchecked]
            rw [if_neg hu, if_neg hveq, if_neg hfr]
            have hsc : ({ s with entries := s.entries.set (get_palette_index s i) (PaletteEntry.mk (s.entries.getD (get_palette_index s i) PaletteEntry.dflt).value ((s.entries.getD (get_palette_index s i) PaletteEntry.dflt).ref_count - 1)) } : PaletteStore T).entries = s.entries.set (get_palette_index s i) (PaletteEntry.mk (s.entries.getD (get_palette_index s i) PaletteEntry.dflt).value ((s.entries.getD (get_palette_index s i) PaletteEntry.dflt).ref_count - 1)) := rfl
            rw [hsc, hfind, if_neg hrep]
          rw [hsu]
          exact setFresh_tail_good hI hM hi rfl rfl hu hveq
            (Or.inr ⟨rfl, rfl, hfr⟩) hrep
        · have hsu : set_unchecked s i v = { set_palette_index ({ s with
              entries := s.entries.set (get_palette_index s i)
                (PaletteEntry.mk (s.entries.getD (get_palette_index s i) PaletteEntry.dflt).value ((s.entries.getD (get_palette_index s i) PaletteEntry.dflt).ref_count - 1)),
              used := s.used }) i j with
              entries := (s.entries.set (get_palette_index s i)
                  (PaletteEntry.mk (s.entries.getD (get_palette_index s i) PaletteEntry.dflt).value ((s.entries.getD (get_palette_index s i) PaletteEntry.dflt).ref_count - 1))).set j
                (PaletteEntry.mk ((s.entries.set (get_palette_index s i)
                    (PaletteEntry.mk (s.entries.getD (get_palette_index s i) PaletteEntry.dflt).value ((s.entries.getD (get_palette_index s i) PaletteEntry.dflt).ref_count - 1))).getD j PaletteEntry.dflt).value (((s.entries.set (get_palette_index s i)
                    (PaletteEntry.mk (s.entries.getD (get_palette_index s i) PaletteEntry.dflt).value ((s.entries.getD (get_palette_index s i) PaletteEntry.dflt).ref_count - 1))).getD j PaletteEntry.dflt).ref_count + 1)) } := by
            simp only [set_unchecked]
            rw [if_neg hu, if_neg hveq, if_neg hfr]
            have hsc : ({ s with entries := s.entries.set (get_palette_index s i) (PaletteEntry.mk (s.entries.getD (get_palette_index s i) PaletteEntry.dflt).value ((s.entries.getD (get_palette_index s i) PaletteEntry.dflt).ref_count - 1)) } : PaletteStore T).entries = s.entries.set (get_palette_index s i) (PaletteEntry.mk (s.entries.getD (get_palette_index s i) PaletteEntry.dflt).value ((s.entries.getD (get_palette_index s i) PaletteEntry.dflt).ref_count - 1)) := rfl
            rw [hsc, hfind]
            rfl
          rw [hsu]
          exact find_branch_good hI hM hi rfl rfl hu hveq
            (Or.inr ⟨rfl, rfl, hfr⟩) hfind

/-! ### Public-interface refinement: operation sequences -/

/-- Apply a list of (index, value) set operations through the public set;
an out-of-bounds call returns Err in the source and leaves the store as is. -/
def applyOps (s : PaletteStore T) : List (Nat × T) → PaletteStore T
  | [] => s
  | op :: ops =>
    applyOps (match set s op.1 op.2 with
      | Except.ok s2 => s2
      | Except.error _ => s) ops

/-- The specification-side model: a plain vector of values, updated in place
by in-bounds set operations and unchanged by out-of-bounds ones. -/
def applyOpsVec (sz : Nat) (l : List T) : List (Nat × T) → List T
  | [] => l
  | op :: ops => applyOpsVec sz (if sz ≤ op.1 then l else l.set op.1 op.2) ops

theorem applyOpsVec_length (sz : Nat) (ops : List (Nat × T)) :
    ∀ l : List T, (applyOpsVec sz l ops).length = l.length := by
  induction ops with
  | nil => intro l; rfl
  | cons op ops ih =>
    intro l
    simp only [applyOpsVec]
    rw [ih]
    split
    · rfl
    · rw [List.length_set]

theorem applyOps_good {s : PaletteStore T} {l : List T} (hI : Inv s) (hM : Models s l)
    (ops : List (Nat × T)) :
    Inv (applyOps s ops) ∧ Models (applyOps s ops) (applyOpsVec s.size l ops) := by
  induction ops generalizing s l with
  | nil => exact ⟨hI, hM⟩
  | cons op ops ih =>
    by_cases h : s.size ≤ op.1
    · have hset : set s op.1 op.2 = Except.error "Out of bounds" := by
        unfold set
        rw [if_pos h]
      have hmr : (match set s op.1 op.2 with
          | Except.ok s2 => s2
          | Except.error _ => s) = s := by
        rw [hset]
      simp only [applyOps, applyOpsVec]
      rw [hmr, if_pos h]
      exact ih hI hM
    · have hlt : op.1 < s.size := by omega
      have hset : set s op.1 op.2 = Except.ok (set_unchecked s op.1 op.2) := by
        unfold set
        rw [if_neg h]
      have hmr : (match set s op.1 op.2 with
          | Except.ok s2 => s2
          | Except.error _ => s) = set_unchecked s op.1 op.2 := by
        rw [hset]
      obtain ⟨hI2, hM2⟩ := set_unchecked_good hI hM hlt op.2
      have hsz : (set_unchecked s op.1 op.2).size = s.size := by
        rw [hM2.1, List.length_set, ← hM.1]
      have hrec := ih hI2 hM2
      rw [hsz] at hrec
      simp only [applyOps, applyOpsVec]
      rw [hmr, if_neg h]
      exact hrec

/-- The states a palette store can be driven into through its public
constructors and mutators. -/
inductive Reachable (T : Type) [DecidableEq T] [Inhabited T] : PaletteStore T → Prop where
  | new (size : Nat) : Reachable T (PaletteStore.new T size)
  | with_capacity (size capacity : Nat) :
      Reachable T (PaletteStore.with_capacity T size capacity)
  | reserve {s : PaletteStore T} (h : Reachable T s) (additional : Nat) :
      Reachable T (PaletteStore.reserve s additional)
  | set {s s2 : PaletteStore T} (h : Reachable T s) (i : Nat) (v : T)
      (hok : PaletteStore.set s i v = Except.ok s2) : Reachable T s2

theorem reachable_good {s : PaletteStore T} (hr : Reachable T s) :
    ∃ l, Inv s ∧ Models s l := by
  induction hr with
  | new size =>
    exact ⟨List.replicate size (default : T), new_inv size, new_models size⟩
  | with_capacity size capacity =>
    exact ⟨List.replicate size (default : T),
      reserve_inv (new_inv size) capacity,
      reserve_models (new_inv size) (new_models size) capacity⟩
  | reserve h additional ih =>
    obtain ⟨l, hI, hM⟩ := ih
    exact ⟨l, reserve_inv hI additional, reserve_models hI hM additional⟩
  | @set s s2 h i v hok ih =>
    obtain ⟨l, hI, hM⟩ := ih
    by_cases hb : s.size ≤ i
    · unfold set at hok
      rw [if_pos hb] at hok
      exact absurd hok (by simp)
    · unfold set at hok
      rw [if_neg hb] at hok
      have heq : set_unchecked s i v = s2 := by
        injection hok
      obtain ⟨hI2, hM2⟩ := set_unchecked_good hI hM (show i < s.size by omega) v
      rw [heq] at hI2 hM2
      exact ⟨l.set i v, hI2, hM2⟩

theorem sum_rc_eq_size {s : PaletteStore T} (hI : Inv s) (hne : s.entries ≠ []) :
    (s.entries.map (fun e => e.ref_count)).sum = s.size := by
  have hlenp : s.entries.length = 2 ^ s.bits_per_entry := hI.entries_pow.resolve_left hne
  have hmap : s.entries.map (fun e => e.ref_count)
      = (List.range s.entries.length).map (slots s).count := by
    apply List.ext_getElem (by simp)
    intro n h1 h2
    simp only [List.getElem_map, List.getElem_range]
    have hn : n < s.entries.length := by simpa using h1
    rw [← hI.rc_count n hn, List.getD_eq_getElem?_getD, List.getElem?_eq_getElem hn]
    rfl
  have hlt : ∀ x ∈ slots s, x < s.entries.length := by
    intro x hx
    unfold slots at hx
    obtain ⟨m, _, hmx⟩ := List.mem_map.mp hx
    rw [← hmx, hlenp]
    exact gpi_lt_two_pow s m
  rw [hmap, sum_count_range (slots s) s.entries.length hlt, slots_length]

/-- C1: a palette store freshly created with new(size), driven by any finite
sequence of public set calls, answers every public get exactly like a plain
vector of length size initialized to the default value and updated by the
same in-bounds set calls; out-of-bounds indices report an error and change
nothing. -/
theorem C1_palette_vector_refinement (size : Nat) (ops : List (Nat × T)) (i : Nat) :
    get (applyOps (new T size) ops) i
      = if size ≤ i then Except.error "Out of bounds"
        else Except.ok ((applyOpsVec size (List.replicate size (default : T)) ops).getD
          i default) := by
  obtain ⟨hIf, hMf⟩ := applyOps_good (new_inv size) (new_models size) ops
  have hns : (new T size : PaletteStore T).size = size := rfl
  rw [hns] at hMf
  have hsz : (applyOps (new T size) ops).size = size := by
    rw [hMf.1, applyOpsVec_length, List.length_replicate]
  unfold get
  by_cases h : size ≤ i
  · rw [if_pos (by rw [hsz]; exact h), if_pos h]
  · rw [if_neg (by rw [hsz]; omega), if_neg h]
    exact congrArg Except.ok (hMf.2 i (by rw [hsz]; omega))

/-- C6: in every reachable palette store, entry 0 holds the default value,
and a successful public set of a non-default value leaves entry 0 holding
the default and never points the written slot at palette index 0. -/
theorem C6_entry0_reserved {s : PaletteStore T} (hr : Reachable T s) :
    (s.entries.getD 0 PaletteEntry.dflt).value = default
    ∧ ∀ i v s2, v ≠ default → set s i v = Except.ok s2 →
      ((s2.entries.getD 0 PaletteEntry.dflt).value = default
        ∧ get_palette_index s2 i ≠ 0) := by
  obtain ⟨l, hI, hM⟩ := reachable_good hr
  constructor
  · by_cases hne : s.entries = []
    · rw [hne]
      rfl
    · exact hI.value0 hne
  · intro i v s2 hv hok
    by_cases hb : s.size ≤ i
    · unfold set at hok
      rw [if_pos hb] at hok
      exact absurd hok (by simp)
    · unfold set at hok
      rw [if_neg hb] at hok
      have heq : set_unchecked s i v = s2 := by
        injection hok
      obtain ⟨hI2, hM2⟩ := set_unchecked_good hI hM (show i < s.size by omega) v
      rw [heq] at hI2 hM2
      have hil : i < l.length := by
        rw [← hM.1]
        omega
      have hi2 : i < s2.size := by
        rw [hM2.1, List.length_set]
        omega
      have hgu : get_unchecked s2 i = v := by
        rw [hM2.2 i hi2, getD_set_self _ _ hil]
      unfold get_unchecked at hgu
      by_cases hu0 : s2.used = 0
      · rw [if_pos hu0] at hgu
        exact absurd hgu.symm hv
      · rw [if_neg hu0] at hgu
        have hne2 : s2.entries ≠ [] :=
          fun hh => hu0 ((used_zero_iff_empty hI2).mpr hh)
        constructor
        · exact hI2.value0 hne2
        · intro h0
          rw [h0] at hgu
          rw [hI2.value0 hne2] at hgu
          exact hv hgu.symm

/-- C7: every reachable palette store keeps used within the palette
capacity, accounts every virtual slot in the entry reference counts once
any entry is in use, keeps the palette size zero or exactly two to the
bits_per_entry, and sizes the bit buffer at size times bits_per_entry. -/
theorem C7_capacity_invariants {s : PaletteStore T} (hr : Reachable T s) :
    s.used ≤ s.entries.length
    ∧ (0 < s.used → (s.entries.map (fun e => e.ref_count)).sum = s.size)
    ∧ (s.entries.length = 0 ∨ s.entries.length = 2 ^ s.bits_per_entry)
    ∧ s.bits.length = s.size * s.bits_per_entry := by
  obtain ⟨l, hI, hM⟩ := reachable_good hr
  refine ⟨?_, ?_, ?_, hI.bits_len⟩
  · have hu := hI.used_eq
    by_cases hne : s.entries = []
    · rw [if_pos hne] at hu
      omega
    · rw [if_neg hne] at hu
      have hlen1 : 0 < s.entries.length := List.length_pos.mpr hne
      have hcle : (s.entries.drop 1).countP (fun e => decide (0 < e.ref_count))
          ≤ (s.entries.drop 1).length := List.countP_le_length _
      rw [List.length_drop] at hcle
      omega
  · intro hu0
    have hne : s.entries ≠ [] := by
      intro hh
      have := (used_zero_iff_empty hI).mpr hh
      omega
    exact sum_rc_eq_size hI hne
  · rcases hI.entries_pow with h | h
    · exact Or.inl (by rw [h]; rfl)
    · exact Or.inr h

theorem C6_entry0_reserved_witness :
    ((new Nat 4).entries.getD 0 PaletteEntry.dflt).value = default
    ∧ ∀ i v s2, v ≠ default → set (new Nat 4) i v = Except.ok s2 →
      ((s2.entries.getD 0 PaletteEntry.dflt).value = default
        ∧ get_palette_index s2 i ≠ 0) :=
  C6_entry0_reserved (Reachable.new 4)

theorem C7_capacity_invariants_witness :
    (new Nat 4).used ≤ (new Nat 4).entries.length
    ∧ (0 < (new Nat 4).used →
        ((new Nat 4).entries.map (fun e => e.ref_count)).sum = (new Nat 4).size)
    ∧ ((new Nat 4).entries.length = 0
        ∨ (new Nat 4).entries.length = 2 ^ (new Nat 4).bits_per_entry)
    ∧ (new Nat 4).bits.length = (new Nat 4).size * (new Nat 4).bits_per_entry :=
  C7_capacity_invariants (Reachable.new 4)

end PaletteStore

/-! ### Z-order curves (src/util/z_order.rs, z_order_store.rs)

Machine integers are modelled as Nat holding the unsigned bit pattern, with
explicit reduction mod 2^w where the Rust operation can overflow; signed
element values are Int.  The i32 store (element type i16, 10 bits per
element, 30 usable bits) and the i64 store (element type i32, 21 bits per
element, 63 usable bits) are embedded. -/

namespace ZI32

def MASKS_32BIT : List Nat := [0x3FF, 0x30000FF, 0x300F00F, 0x30C30C3, 0x9249249]

/-- fn split(x) for the i32 store: `let mut x = x as u32;` then the mask
cascade.  The source's first line `x = x & MASKS_32BIT[0];` is commented
out in the Rust. -/
def split (x : Int) : Nat :=
  let x0 : Nat := (x % (2 : Int) ^ 32).toNat
  let x1 := (x0 ||| (x0 <<< 16) % 2 ^ 32) &&& 0x30000FF
  let x2 := (x1 ||| (x1 <<< 8) % 2 ^ 32) &&& 0x300F00F
  let x3 := (x2 ||| (x2 <<< 4) % 2 ^ 32) &&& 0x30C30C3
  (x3 ||| (x3 <<< 2) % 2 ^ 32) &&& 0x9249249

/-- fn get(x) for the i32 store. -/
def get (x : Nat) : Nat :=
  let x0 := x &&& 0x9249249
  let x1 := (x0 ^^^ (x0 >>> 2)) &&& 0x30C30C3
  let x2 := (x1 ^^^ (x1 >>> 4)) &&& 0x300F00F
  let x3 := (x2 ^^^ (x2 >>> 8)) &&& 0x30000FF
  (x3 ^^^ (x3 >>> 16)) &&& 0x3FF

/-- ZOrder::new_unchecked: interleave the three split elements. -/
def new_unchecked (x y z : Int) : Nat :=
  split x ||| (split y <<< 1) ||| (split z <<< 2)

def ELEMENT_MIN : Int := -512
def ELEMENT_MAX : Int := 511

/-- ZOrder::new: range-check each axis, then new_unchecked. -/
def new (x y z : Int) : Option Nat :=
  if (ELEMENT_MIN ≤ x ∧ ELEMENT_MIN ≤ y ∧ ELEMENT_MIN ≤ z)
      ∧ (x ≤ ELEMENT_MAX ∧ y ≤ ELEMENT_MAX ∧ z ≤ ELEMENT_MAX) then
    some (new_unchecked x y z)
  else
    none

/-- ZOrder::decode for a signed store:
`(T::get(self.0 >> i) << T::SIGN_SHIFT) >> T::SIGN_SHIFT` with
SIGN_SHIFT = 16 - 10 = 6 on the element type i16.  get returns at most
10 set bits, so the left shift cannot wrap and the final arithmetic right
shift is an exact division by 2^6. -/
def decode (raw i : Nat) : Int :=
  let g := get (raw >>> i)
  let b : Nat := (g <<< 6) % 2 ^ 16
  (if b < 2 ^ 15 then (b : Int) else (b : Int) - 2 ^ 16) / 2 ^ 6

/-- ZOrder::into: (x(), y(), z()). -/
def into (raw : Nat) : Int × Int × Int :=
  (decode raw 0, decode raw 1, decode raw 2)

/-- The sign-propagation loop of Shr: result |= mask; mask <<= 3, rhs times. -/
def shrLoop : Nat → Nat → Nat → Nat
  | 0, r, _ => r
  | k + 1, r, m => shrLoop k (r ||| m) ((m <<< 3) % 2 ^ 32)

/-- impl Shr for ZOrder<i32> (requires rhs < 10): shift the raw index down by
3·rhs and propagate each axis sign bit.  `self.0 >> (MAX_USABLE_BITS - 3)` is
an arithmetic shift on i32, but bit 31..30 of the raw index are always 0, so
it coincides with the Nat shift. -/
def shr (raw rhs : Nat) : Nat :=
  shrLoop rhs (raw >>> (rhs * 3)) (((raw >>> (30 - 3)) <<< (30 - rhs * 3)) % 2 ^ 32)

end ZI32

namespace ZI64

def MASKS_64BIT : List Nat :=
  [0x1FFFFF, 0x1F00000000FFFF, 0x1F0000FF0000FF, 0x100F00F00F00F00F,
   0x10C30C30C30C30C3, 0x1249249249249249]

/-- fn split(x) for the i64 store: `let mut x = x as u64;` then the mask
cascade; the input mask `x = x & MASKS_64BIT[0];` is commented out. -/
def split (x : Int) : Nat :=
  let x0 : Nat := (x % (2 : Int) ^ 64).toNat
  let x1 := (x0 ||| (x0 <<< 32) % 2 ^ 64) &&& 0x1F00000000FFFF
  let x2 := (x1 ||| (x1 <<< 16) % 2 ^ 64) &&& 0x1F0000FF0000FF
  let x3 := (x2 ||| (x2 <<< 8) % 2 ^ 64) &&& 0x100F00F00F00F00F
  let x4 := (x3 ||| (x3 <<< 4) % 2 ^ 64) &&& 0x10C30C30C30C30C3
  (x4 ||| (x4 <<< 2) % 2 ^ 64) &&& 0x1249249249249249

/-- fn get(x) for the i64 store. -/
def get (x : Nat) : Nat :=
  let x0 := x &&& 0x1249249249249249
  let x1 := (x0 ^^^ (x0 >>> 2)) &&& 0x10C30C30C30C30C3
  let x2 := (x1 ^^^ (x1 >>> 4)) &&& 0x100F00F00F00F00F
  let x3 := (x2 ^^^ (x2 >>> 8)) &&& 0x1F0000FF0000FF
  let x4 := (x3 ^^^ (x3 >>> 16)) &&& 0x1F00000000FFFF
  (x4 ^^^ (x4 >>> 32)) &&& 0x1FFFFF

def new_unchecked (x y z : Int) : Nat :=
  split x ||| (split y <<< 1) ||| (split z <<< 2)

def ELEMENT_MIN : Int := -1048576
def ELEMENT_MAX : Int := 1048575

def new (x y z : Int) : Option Nat :=
  if (ELEMENT_MIN ≤ x ∧ ELEMENT_MIN ≤ y ∧ ELEMENT_MIN ≤ z)
      ∧ (x ≤ ELEMENT_MAX ∧ y ≤ ELEMENT_MAX ∧ z ≤ ELEMENT_MAX) then
    some (new_unchecked x y z)
  else
    none

/-- ZOrder::decode, SIGN_SHIFT = 32 - 21 = 11 on the element type i32; get
yields at most 21 set bits, so the shifts are exact as with ZI32.decode. -/
def decode (raw i : Nat) : Int :=
  let g := get (raw >>> i)
  let b : Nat := (g <<< 11) % 2 ^ 32
  (if b < 2 ^ 31 then (b : Int) else (b : Int) - 2 ^ 32) / 2 ^ 11

def into (raw : Nat) : Int × Int × Int :=
  (decode raw 0, decode raw 1, decode raw 2)

def MAX_USABLE_BITS : Nat := 63

/-- ZOrder::from_raw: clear every bit outside the usable range. -/
def from_raw (order : Nat) : Nat :=
  order &&& (2 ^ 63 - 1)

def X_MASK : Nat := 0x1249249249249249
def Y_MASK : Nat := X_MASK <<< 1
def Z_MASK : Nat := X_MASK <<< 2
def XY_MASK : Nat := X_MASK ||| Y_MASK
def XZ_MASK : Nat := X_MASK ||| Z_MASK
def YZ_MASK : Nat := Y_MASK ||| Z_MASK

/-- impl Add for ZOrder<i64>: per-axis carry-isolated addition. -/
def add (a b : Nat) : Nat :=
  let x_sum := ((a ||| YZ_MASK) + (b &&& X_MASK)) % 2 ^ 64
  let y_sum := ((a ||| XZ_MASK) + (b &&& Y_MASK)) % 2 ^ 64
  let z_sum := ((a ||| XY_MASK) + (b &&& Z_MASK)) % 2 ^ 64
  let sum := (x_sum &&& X_MASK) ||| (y_sum &&& Y_MASK) ||| (z_sum &&& Z_MASK)
  sum &&& (2 ^ 63 - 1)

/-- impl Shl for ZOrder<i64> (requires rhs < 21). -/
def shl (raw rhs : Nat) : Nat :=
  ((raw <<< (rhs * 3)) % 2 ^ 64) &&& (2 ^ 63 - 1)

def shrLoop : Nat → Nat → Nat → Nat
  | 0, r, _ => r
  | k + 1, r, m => shrLoop k (r ||| m) ((m <<< 3) % 2 ^ 64)

/-- impl Shr for ZOrder<i64> (requires rhs < 21). -/
def shr (raw rhs : Nat) : Nat :=
  shrLoop rhs (raw >>> (rhs * 3)) (((raw >>> (63 - 3)) <<< (63 - rhs * 3)) % 2 ^ 64)

end ZI64

/-- C3: the Z-order encode/decode round trip fails on signed 32-bit stores:
ZOrder::<i32>::new(-512, 0, 0) succeeds (the axes are inside the element
range) but decodes to (-256, 0, 0), because split omits the input mask
`x = x & MASKS_32BIT[0]` and the sign-extension bits of the cast corrupt
the interleaving cascade. -/
theorem C3_roundtrip_divergence_i32 :
    ZI32.new (-512) 0 0 = some (ZI32.new_unchecked (-512) 0 0)
    ∧ ZI32.into (ZI32.new_unchecked (-512) 0 0) = (-256, 0, 0)
    ∧ ((-256 : Int), (0 : Int), (0 : Int)) ≠ ((-512 : Int), (0 : Int), (0 : Int)) := by
  refine ⟨?_, ?_, ?_⟩
  · rw [ZI32.new, if_pos (by decide)]
  · decide
  · decide

/-- C5: the axis-wise shift identity fails on the signed 32-bit store:
for (x, y, z) = (-512, 0, 0) and k = 1 the claim expects
(ZOrder::new(-512,0,0).unwrap() >> 1).into() = (-512 >> 1, 0, 0)
= (-256, 0, 0), but the code yields (-128, 0, 0): the encoding produced by
new is already corrupted by the missing input mask in split. -/
theorem C5_shift_divergence_i32 :
    ZI32.new (-512) 0 0 = some (ZI32.new_unchecked (-512) 0 0)
    ∧ ZI32.into (ZI32.shr (ZI32.new_unchecked (-512) 0 0) 1) = (-128, 0, 0)
    ∧ ((-128 : Int), (0 : Int), (0 : Int)) ≠ ((-256 : Int), (0 : Int), (0 : Int)) := by
  refine ⟨?_, ?_, ?_⟩
  · rw [ZI32.new, if_pos (by decide)]
  · decide
  · decide

/-! ### ChunkedOctree (src/util/chunked_octree.rs)

The HashMap of regions is modelled as an association list keyed by the raw
63-bit Z-order index of the region; a Region<T> is a plain List T.  Vec
indexing (which panics out of bounds in the source) is modelled with getD;
bubble_fn, which mutates the parent aggregate through &mut and returns
whether to keep propagating, returns the new parent value and that flag. -/

def START_INDEX_LOOKUP : List Nat :=
  [0, 1, 9, 73, 585, 4681, 37449, 299593, 2396745, 19173961, 153391689]

structure ChunkedOctree (T : Type) where
  depth : Nat
  chunks : List (Nat × List T)
deriving DecidableEq, Repr

def chunksGet {T : Type} (cs : List (Nat × List T)) (k : Nat) : Option (List T) :=
  (cs.find? (fun e => e.1 == k)).map Prod.snd

def chunksSet {T : Type} : List (Nat × List T) → Nat → List T → List (Nat × List T)
  | [], k, r => [(k, r)]
  | e :: rest, k, r => if e.1 = k then (k, r) :: rest else e :: chunksSet rest k r

namespace ChunkedOctree

/-- ChunkedOctree::new(depth): the assert (which aborts when violated) is
modelled by returning none. -/
def new (T : Type) (depth : Nat) : Option (ChunkedOctree T) :=
  if depth < START_INDEX_LOOKUP.length - 1 then
    some { depth := depth, chunks := [] }
  else
    none

/-- ChunkedOctree::get(level, node_pos). -/
def get {T : Type} [Inhabited T] (t : ChunkedOctree T) (level : Nat)
    (node_pos : Nat) : T :=
  match chunksGet t.chunks (ZI64.shr node_pos t.depth) with
  | none => default
  | some region =>
    let base_index := START_INDEX_LOOKUP.getD (t.depth - level) 0
    let local_index := node_pos &&& (2 ^ (t.depth * 3) - 1)
    region.getD (base_index + local_index) default

/-- The `for level in 1..=depth` loop of update; fuel counts the remaining
levels.  `local_pos.raw() & !0b111` clears the low three bits. -/
def bubbleLoop {T : Type} [Inhabited T] (bubble_fn : Nat → List T → T → T × Bool)
    (depth : Nat) : Nat → Nat → Nat → List T → List T
  | 0, _, _, region => region
  | fuel + 1, level, local_pos, region =>
    let children_start := START_INDEX_LOOKUP.getD (depth - (level - 1)) 0
    let children_index := children_start + (local_pos &&& (2 ^ 64 - 8))
    let local_pos2 := ZI64.shr local_pos 1
    let parent_start := START_INDEX_LOOKUP.getD (depth - level) 0
    let parent_index := parent_start + local_pos2
    let children := (region.drop children_index).take 8
    let pb := bubble_fn level children (region.getD parent_index default)
    let region2 := region.set parent_index pb.1
    if pb.2 then bubbleLoop bubble_fn depth fuel (level + 1) local_pos2 region2
    else region2

/-- ChunkedOctree::update(node_pos, update_fn, bubble_fn). -/
def update {T : Type} [Inhabited T] (t : ChunkedOctree T) (node_pos : Nat)
    (update_fn : T → T) (bubble_fn : Nat → List T → T → T × Bool) :
    ChunkedOctree T :=
  let region_pos := ZI64.shr node_pos t.depth
  let local_pos := ZI64.from_raw (node_pos &&& (2 ^ (t.depth * 3) - 1))
  let region :=
    match chunksGet t.chunks region_pos with
    | some r => r
    | none => List.replicate (START_INDEX_LOOKUP.getD (t.depth + 1) 0 + 1) (default : T)
  let region2 := region.set (START_INDEX_LOOKUP.getD t.depth 0 + local_pos)
    (update_fn (region.getD (START_INDEX_LOOKUP.getD t.depth 0 + local_pos) default))
  let region3 := bubbleLoop bubble_fn t.depth t.depth 1 local_pos region2
  { t with chunks := chunksSet t.chunks region_pos region3 }

end ChunkedOctree

theorem chunksGet_set_self {T : Type} (cs : List (Nat × List T)) (k : Nat)
    (r : List T) : chunksGet (chunksSet cs k r) k = some r := by
  induction cs with
  | nil => simp [chunksSet, chunksGet, List.find?]
  | cons e rest ih =>
    simp only [chunksSet]
    by_cases h : e.1 = k
    · rw [if_pos h]
      simp [chunksGet, List.find?]
    · rw [if_neg h]
      simp only [chunksGet, List.find?]
      rw [show (e.1 == k) = false from beq_eq_false_iff_ne.mpr h]
      exact ih

theorem chunksGet_set_ne {T : Type} (cs : List (Nat × List T)) {j k : Nat}
    (r : List T) (h : k ≠ j) : chunksGet (chunksSet cs j r) k = chunksGet cs k := by
  induction cs with
  | nil =>
    simp only [chunksSet, chunksGet, List.find?]
    rw [show (j == k) = false from beq_eq_false_iff_ne.mpr (fun hh => h hh.symm)]
  | cons e rest ih =>
    simp only [chunksSet]
    by_cases he : e.1 = j
    · rw [if_pos he]
      simp only [chunksGet, List.find?]
      rw [show (j == k) = false from beq_eq_false_iff_ne.mpr (fun hh => h hh.symm),
        show (e.1 == k) = false from beq_eq_false_iff_ne.mpr (fun hh => h (he ▸ hh).symm)]
    · rw [if_neg he]
      simp only [chunksGet, List.find?] at ih ⊢
      cases hek : (e.1 == k) with
      | true => rfl
      | false => exact ih

theorem bubbleLoop_length {T : Type} [Inhabited T]
    (b : Nat → List T → T → T × Bool) (d : Nat) :
    ∀ fuel level lp (reg : List T),
      (ChunkedOctree.bubbleLoop b d fuel level lp reg).length = reg.length := by
  intro fuel
  induction fuel with
  | zero =>
    intro _ _ _
    rfl
  | succ n ih =>
    intro level lp reg
    simp only [ChunkedOctree.bubbleLoop]
    split
    · rw [ih, List.length_set]
    · rw [List.length_set]

/-- C8 counterexample: ChunkedOctree::new(0) succeeds, although the claim
says every depth outside [1, 9] fails the assertion. -/
theorem C8_new_accepts_depth_zero :
    ChunkedOctree.new Nat 0 = some { depth := 0, chunks := [] } := rfl

/-- C8 amended: new(depth) succeeds exactly for depth ≤ 9 (the assert is
depth < 10, so depth 0 is accepted too), and on success the octree has the
given depth and no regions. -/
theorem C8_depth_range_amended (d : Nat) :
    ((ChunkedOctree.new Nat d).isSome = true ↔ d ≤ 9)
    ∧ ∀ t, ChunkedOctree.new Nat d = some t → t.depth = d ∧ t.chunks = [] := by
  have hL : START_INDEX_LOOKUP.length - 1 = 10 := rfl
  constructor
  · unfold ChunkedOctree.new
    rw [hL]
    by_cases h : d < 10
    · rw [if_pos h]
      simp
      omega
    · rw [if_neg h]
      simp
      omega
  · intro t ht
    unfold ChunkedOctree.new at ht
    rw [hL] at ht
    by_cases h : d < 10
    · rw [if_pos h] at ht
      have := Option.some.inj ht
      rw [← this]
      exact ⟨rfl, rfl⟩
    · rw [if_neg h] at ht
      exact absurd ht (by simp)

/-- C9 counterexample: at depth 1 the region allocated by update holds
10 = START_INDEX_LOOKUP[2] + 1 aggregates, not (8^2 - 1)/7 = 9 as claimed:
the source allocates one extra slot. -/
theorem C9_region_size_counterexample :
    chunksGet (ChunkedOctree.update (⟨1, []⟩ : ChunkedOctree Nat) 8
        (fun _ => 7) (fun _ _ _ => (7, true))).chunks 1
      = some [7, 7, 0, 0, 0, 0, 0, 0, 0, 0]
    ∧ (10 : Nat) ≠ (8 ^ (1 + 1) - 1) / 7 := by
  refine ⟨by decide, by decide⟩

/-- C9 amended: when update targets an absent region, it creates that
region as a dense vector of exactly START_INDEX_LOOKUP[depth + 1] + 1
aggregate values (one more than 1 + 8 + ... + 8^depth), all initialized to
T::default(); the region then stored under the key is exactly that fresh
vector after update's own leaf write and bubble loop, and it keeps that
length. -/
theorem C9_region_allocation {T : Type} [Inhabited T] (t : ChunkedOctree T)
    (p : Nat) (f : T → T) (b : Nat → List T → T → T × Bool)
    (habs : chunksGet t.chunks (ZI64.shr p t.depth) = none) :
    ∃ r0 r : List T,
      r0 = List.replicate (START_INDEX_LOOKUP.getD (t.depth + 1) 0 + 1) (default : T)
      ∧ r0.length = START_INDEX_LOOKUP.getD (t.depth + 1) 0 + 1
      ∧ (∀ j, r0.getD j default = default)
      ∧ chunksGet (ChunkedOctree.update t p f b).chunks (ZI64.shr p t.depth) = some r
      ∧ r = ChunkedOctree.bubbleLoop b t.depth t.depth 1
          (ZI64.from_raw (p &&& (2 ^ (t.depth * 3) - 1)))
          (r0.set
            (START_INDEX_LOOKUP.getD t.depth 0
              + ZI64.from_raw (p &&& (2 ^ (t.depth * 3) - 1)))
            (f (r0.getD
              (START_INDEX_LOOKUP.getD t.depth 0
                + ZI64.from_raw (p &&& (2 ^ (t.depth * 3) - 1))) default)))
      ∧ r.length = START_INDEX_LOOKUP.getD (t.depth + 1) 0 + 1 := by
  simp only [ChunkedOctree.update]
  rw [habs]
  refine ⟨_, _, rfl, ?_, ?_, chunksGet_set_self _ _ _, rfl, ?_⟩
  · rw [List.length_replicate]
  · intro j
    rw [PaletteStore.getD_replicate]
    split <;> rfl
  · rw [bubbleLoop_length, List.length_set]
    show (List.replicate (START_INDEX_LOOKUP.getD (t.depth + 1) 0 + 1)
      (default : T)).length = _
    rw [List.length_replicate]

theorem C9_region_allocation_witness :
    ∃ r0 r : List Nat,
      r0 = List.replicate (START_INDEX_LOOKUP.getD 2 0 + 1) (default : Nat)
      ∧ r0.length = START_INDEX_LOOKUP.getD 2 0 + 1
      ∧ (∀ j, r0.getD j default = default)
      ∧ chunksGet (ChunkedOctree.update (⟨1, []⟩ : ChunkedOctree Nat) 8
          (fun _ => 7) (fun _ _ _ => (7, true))).chunks (ZI64.shr 8 1) = some r
      ∧ r = ChunkedOctree.bubbleLoop (fun _ _ _ => (7, true)) 1 1 1
          (ZI64.from_raw (8 &&& (2 ^ (1 * 3) - 1)))
          (r0.set (START_INDEX_LOOKUP.getD 1 0 + ZI64.from_raw (8 &&& (2 ^ (1 * 3) - 1)))
            ((fun _ => 7) (r0.getD (START_INDEX_LOOKUP.getD 1 0
              + ZI64.from_raw (8 &&& (2 ^ (1 * 3) - 1))) default)))
      ∧ r.length = START_INDEX_LOOKUP.getD 2 0 + 1 :=
  C9_region_allocation (⟨1, []⟩ : ChunkedOctree Nat) 8
    (fun _ => 7) (fun _ _ _ => (7, true)) (by decide)

/-- C10: update touches only the region keyed by node_pos >> depth: every
other key maps to exactly the same stored region afterwards, and no region
present before the call is removed by it. -/
theorem C10_update_frame {T : Type} [Inhabited T] (t : ChunkedOctree T)
    (p : Nat) (f : T → T) (b : Nat → List T → T → T × Bool) :
    (∀ k, k ≠ ZI64.shr p t.depth →
      chunksGet (ChunkedOctree.update t p f b).chunks k = chunksGet t.chunks k)
    ∧ ∀ k r, chunksGet t.chunks k = some r →
      ∃ r2, chunksGet (ChunkedOctree.update t p f b).chunks k = some r2 := by
  obtain ⟨reg, hreg⟩ : ∃ reg, (ChunkedOctree.update t p f b).chunks
      = chunksSet t.chunks (ZI64.shr p t.depth) reg := ⟨_, rfl⟩
  rw [hreg]
  constructor
  · intro k hk
    exact chunksGet_set_ne _ _ hk
  · intro k r hr
    by_cases hk : k = ZI64.shr p t.depth
    · rw [hk]
      exact ⟨reg, chunksGet_set_self _ _ _⟩
    · rw [chunksGet_set_ne _ _ hk]
      exact ⟨r, hr⟩

/-- C2: the claim fails outside the zero region: with depth 1 and leaf
position raw 8 (region raw 1), update writes the level-1 ancestor aggregate
(value 7) into the region keyed 8 >> 1 = raw 1, but get(1, p >> 1) looks the
region up under (p >> 1) >> 1 = raw 0, finds none and returns the default 0
instead of the written aggregate. -/
theorem C2_get_after_update_divergence :
    ChunkedOctree.get (ChunkedOctree.update (⟨1, []⟩ : ChunkedOctree Nat) 8
        (fun _ => 7) (fun _ _ _ => (7, true))) 1 (ZI64.shr 8 1) = 0
    ∧ chunksGet (ChunkedOctree.update (⟨1, []⟩ : ChunkedOctree Nat) 8
        (fun _ => 7) (fun _ _ _ => (7, true))).chunks (ZI64.shr 8 1)
      = some [7, 7, 0, 0, 0, 0, 0, 0, 0, 0]
    ∧ (0 : Nat) ≠ 7 := by
  refine ⟨by decide, by decide, by decide⟩

/-! ### ChunkedOctreeIterator (find / search / next)

The BinaryHeap of ProcessingNode with the inverted Ord (a min-heap on
weight) is modelled as a list from which pop extracts a node of minimal
weight; f32 weights, which the iterator only ever compares (the source
notes NaN is not a valid weight), are modelled by an arbitrary linear
order W.  weight_fn returning Option W models the Option<f32> closure;
filter_fn is a boolean predicate on aggregates. -/

structure PNode (W : Type) where
  weight : W
  level : Nat
  node_pos : Nat

structure IterState (T W : Type) where
  octree : ChunkedOctree T
  checked_regions : List Nat
  processing : List (PNode W)

namespace ChunkedOctreeIterator

/-- ChunkedOctreeIterator::push_node. -/
def push_node {T W : Type} [Inhabited T] (weight_fn : Nat → Nat → Option W)
    (filter_fn : T → Bool) (s : IterState T W) (level node_pos : Nat) :
    IterState T W :=
  match weight_fn level node_pos with
  | some weight =>
    if filter_fn (ChunkedOctree.get s.octree level node_pos) then
      { s with processing := ⟨weight, level, node_pos⟩ :: s.processing }
    else s
  | none => s

/-- ChunkedOctreeIterator::search_region. -/
def search_region {T W : Type} [Inhabited T] (weight_fn : Nat → Nat → Option W)
    (filter_fn : T → Bool) (s : IterState T W) (region_pos : Nat) :
    IterState T W :=
  if s.checked_regions.contains region_pos then s
  else
    push_node weight_fn filter_fn
      { s with checked_regions := region_pos :: s.checked_regions }
      s.octree.depth region_pos

/-- The 27 neighbour offsets ZOrder::new(x, y, z).unwrap() of search, in
loop order (x outermost, z innermost). -/
def searchOffsets : List Nat :=
  ([-1, 0, 1] : List Int).flatMap (fun x =>
    ([-1, 0, 1] : List Int).flatMap (fun y =>
      ([-1, 0, 1] : List Int).map (fun z => (ZI64.new x y z).getD 0)))

/-- ChunkedOctreeIterator::search. -/
def search {T W : Type} [Inhabited T] (weight_fn : Nat → Nat → Option W)
    (filter_fn : T → Bool) (s : IterState T W) (node_pos : Nat) :
    IterState T W :=
  let region_pos := ZI64.shr node_pos s.octree.depth
  searchOffsets.foldl
    (fun s2 offset => search_region weight_fn filter_fn s2 (ZI64.add region_pos offset))
    s

/-- BinaryHeap::pop under the inverted ProcessingNode order: remove and
return a node of minimal weight (the leftmost such node). -/
def popMin {W : Type} [LinearOrder W] : List (PNode W) → Option (PNode W × List (PNode W))
  | [] => none
  | n :: rest =>
    match popMin rest with
    | none => some (n, [])
    | some (m, rest2) =>
      if n.weight ≤ m.weight then some (n, rest) else some (m, n :: rest2)

def heapMeasure {W : Type} (h : List (PNode W)) : Nat :=
  (h.map (fun n => 9 ^ n.level)).sum

theorem heapMeasure_nil {W : Type} : heapMeasure ([] : List (PNode W)) = 0 := rfl

theorem heapMeasure_cons {W : Type} (x : PNode W) (l : List (PNode W)) :
    heapMeasure (x :: l) = 9 ^ x.level + heapMeasure l := by
  simp only [heapMeasure, List.map_cons, List.sum_cons]

theorem popMin_none {W : Type} [LinearOrder W] {h : List (PNode W)}
    (hp : popMin h = none) : h = [] := by
  cases h with
  | nil => rfl
  | cons n rest =>
    rcases h2 : popMin (W := W) rest with _ | ⟨m0, rest2⟩
    · simp only [popMin, h2] at hp
      exact absurd hp (by simp)
    · simp only [popMin, h2] at hp
      by_cases hc : n.weight ≤ m0.weight
      · rw [if_pos hc] at hp
        exact absurd hp (by simp)
      · rw [if_neg hc] at hp
        exact absurd hp (by simp)

theorem popMin_mem {W : Type} [LinearOrder W] {h rest : List (PNode W)} {n : PNode W}
    (hp : popMin h = some (n, rest)) : n ∈ h := by
  induction h generalizing n rest with
  | nil => exact absurd hp (by simp [popMin])
  | cons x t ih =>
    rcases h2 : popMin (W := W) t with _ | ⟨m0, rest2⟩
    · simp only [popMin, h2] at hp
      injection hp with hpair
      injection hpair with hn hr
      rw [← hn]
      exact List.mem_cons_self _ _
    · simp only [popMin, h2] at hp
      by_cases hc : x.weight ≤ m0.weight
      · rw [if_pos hc] at hp
        injection hp with hpair
        injection hpair with hn hr
        rw [← hn]
        exact List.mem_cons_self _ _
      · rw [if_neg hc] at hp
        injection hp with hpair
        injection hpair with hn hr
        rw [← hn]
        exact List.mem_cons_of_mem _ (ih h2)

theorem popMin_min {W : Type} [LinearOrder W] {h rest : List (PNode W)} {n : PNode W}
    (hp : popMin h = some (n, rest)) : ∀ m ∈ h, n.weight ≤ m.weight := by
  induction h generalizing n rest with
  | nil => exact absurd hp (by simp [popMin])
  | cons x t ih =>
    rcases h2 : popMin (W := W) t with _ | ⟨m0, rest2⟩
    · have ht : t = [] := popMin_none h2
      simp only [popMin, h2] at hp
      injection hp with hpair
      injection hpair with hn hr
      intro m hm
      rw [ht] at hm
      rcases List.mem_cons.mp hm with hmx | hmt
      · rw [← hn, hmx]
      · exact absurd hmt (by simp)
    · simp only [popMin, h2] at hp
      by_cases hc : x.weight ≤ m0.weight
      · rw [if_pos hc] at hp
        injection hp with hpair
        injection hpair with hn hr
        intro m hm
        rcases List.mem_cons.mp hm with hmx | hmt
        · rw [← hn, hmx]
        · have h3 := ih h2 m hmt
          rw [← hn]
          exact le_trans hc h3
      · rw [if_neg hc] at hp
        injection hp with hpair
        injection hpair with hn hr
        intro m hm
        rcases List.mem_cons.mp hm with hmx | hmt
        · rw [← hn, hmx]
          exact le_of_not_le hc
        · rw [← hn]
          exact ih h2 m hmt

theorem popMin_rest_mem {W : Type} [LinearOrder W] {h rest : List (PNode W)}
    {n : PNode W} (hp : popMin h = some (n, rest)) : ∀ m ∈ rest, m ∈ h := by
  induction h generalizing n rest with
  | nil => exact absurd hp (by simp [popMin])
  | cons x t ih =>
    rcases h2 : popMin (W := W) t with _ | ⟨m0, rest2⟩
    · simp only [popMin, h2] at hp
      injection hp with hpair
      injection hpair with hn hr
      intro m hm
      rw [← hr] at hm
      exact absurd hm (by simp)
    · simp only [popMin, h2] at hp
      by_cases hc : x.weight ≤ m0.weight
      · rw [if_pos hc] at hp
        injection hp with hpair
        injection hpair with hn hr
        intro m hm
        rw [← hr] at hm
        exact List.mem_cons_of_mem _ hm
      · rw [if_neg hc] at hp
        injection hp with hpair
        injection hpair with hn hr
        intro m hm
        rw [← hr] at hm
        rcases List.mem_cons.mp hm with hmx | hmt
        · rw [hmx]
          exact List.mem_cons_self _ _
        · exact List.mem_cons_of_mem _ (ih h2 m hmt)

theorem popMin_measure {W : Type} [LinearOrder W] {h rest : List (PNode W)}
    {n : PNode W} (hp : popMin h = some (n, rest)) :
    heapMeasure h = 9 ^ n.level + heapMeasure rest := by
  induction h generalizing n rest with
  | nil => exact absurd hp (by simp [popMin])
  | cons x t ih =>
    rcases h2 : popMin (W := W) t with _ | ⟨m0, rest2⟩
    · have ht : t = [] := popMin_none h2
      simp only [popMin, h2] at hp
      injection hp with hpair
      injection hpair with hn hr
      rw [← hn, ← hr, ht, heapMeasure_cons]
    · simp only [popMin, h2] at hp
      by_cases hc : x.weight ≤ m0.weight
      · rw [if_pos hc] at hp
        injection hp with hpair
        injection hpair with hn hr
        rw [← hn, ← hr, heapMeasure_cons]
      · rw [if_neg hc] at hp
        injection hp with hpair
        injection hpair with hn hr
        have h3 := ih h2
        rw [← hn, ← hr, heapMeasure_cons, heapMeasure_cons, h3]
        omega

end ChunkedOctreeIterator

namespace ChunkedOctreeIterator

theorem push_node_octree {T W : Type} [Inhabited T] (wf : Nat → Nat → Option W)
    (ff : T → Bool) (s : IterState T W) (lvl pos : Nat) :
    (push_node wf ff s lvl pos).octree = s.octree := by
  rcases hw : wf lvl pos with _ | w
  · simp only [push_node, hw]
  · simp only [push_node, hw]
    split <;> rfl

theorem push_node_measure {T W : Type} [Inhabited T] (wf : Nat → Nat → Option W)
    (ff : T → Bool) (s : IterState T W) (lvl pos : Nat) :
    heapMeasure (push_node wf ff s lvl pos).processing
      ≤ heapMeasure s.processing + 9 ^ lvl := by
  rcases hw : wf lvl pos with _ | w
  · simp only [push_node, hw]
    exact Nat.le_add_right _ _
  · simp only [push_node, hw]
    split
    · have h3 : ({ s with processing := (⟨w, lvl, pos⟩ : PNode W) :: s.processing }
          : IterState T W).processing = ⟨w, lvl, pos⟩ :: s.processing := rfl
      have h6 : (⟨w, lvl, pos⟩ : PNode W).level = lvl := rfl
      rw [h3, heapMeasure_cons, h6]
      exact Nat.le_of_eq (Nat.add_comm _ _)
    · exact Nat.le_add_right _ _

theorem push_node_mem {T W : Type} [Inhabited T] (wf : Nat → Nat → Option W)
    (ff : T → Bool) (s : IterState T W) (lvl pos : Nat) {m : PNode W}
    (hm : m ∈ (push_node wf ff s lvl pos).processing) :
    m ∈ s.processing
    ∨ (m.level = lvl ∧ m.node_pos = pos ∧ wf lvl pos = some m.weight
        ∧ ff (ChunkedOctree.get s.octree lvl pos) = true) := by
  rcases hw : wf lvl pos with _ | w
  · simp only [push_node, hw] at hm
    exact Or.inl hm
  · simp only [push_node, hw] at hm
    by_cases hf : ff (ChunkedOctree.get s.octree lvl pos) = true
    · rw [if_pos hf] at hm
      have h3 : ({ s with processing := (⟨w, lvl, pos⟩ : PNode W) :: s.processing }
          : IterState T W).processing = ⟨w, lvl, pos⟩ :: s.processing := rfl
      rw [h3] at hm
      rcases List.mem_cons.mp hm with h4 | h4
      · refine Or.inr ⟨?_, ?_, ?_, hf⟩
        · rw [h4]
        · rw [h4]
        · rw [h4]
      · exact Or.inl h4
    · rw [if_neg hf] at hm
      exact Or.inl hm

/-- The heap nodes the iterator pushes are exactly what push_node admits:
filtered at their own level, with the weight the weight function gave. -/
def heapInv {T W : Type} [Inhabited T] (wf : Nat → Nat → Option W) (ff : T → Bool)
    (t : ChunkedOctree T) (h : List (PNode W)) : Prop :=
  ∀ n ∈ h, (n.level = 0 → ff (ChunkedOctree.get t 0 n.node_pos) = true)
    ∧ wf n.level n.node_pos = some n.weight

theorem push_node_inv {T W : Type} [Inhabited T] (wf : Nat → Nat → Option W)
    (ff : T → Bool) {s : IterState T W} (lvl pos : Nat)
    (hI : heapInv wf ff s.octree s.processing) :
    heapInv wf ff s.octree (push_node wf ff s lvl pos).processing := by
  intro m hm
  rcases push_node_mem wf ff s lvl pos hm with h | ⟨hl, hp2, hw, hf⟩
  · exact hI m h
  · constructor
    · intro h0
      have hlv : lvl = 0 := by omega
      rw [hp2, ← hlv]
      exact hf
    · rw [hl, hp2]
      exact hw

theorem foldl_push_measure {T W : Type} [Inhabited T] (wf : Nat → Nat → Option W)
    (ff : T → Bool) (lvl : Nat) (cf : Nat → Nat) (L : List Nat) :
    ∀ s : IterState T W,
      heapMeasure ((L.foldl (fun s2 i => push_node wf ff s2 lvl (cf i)) s).processing)
        ≤ heapMeasure s.processing + L.length * 9 ^ lvl := by
  induction L with
  | nil =>
    intro s
    simp
  | cons a L ih =>
    intro s
    simp only [List.foldl_cons, List.length_cons]
    have h1 := ih (push_node wf ff s lvl (cf a))
    have h2 := push_node_measure wf ff s lvl (cf a)
    rw [Nat.succ_mul]
    omega

theorem foldl_push_facts {T W : Type} [Inhabited T] (wf : Nat → Nat → Option W)
    (ff : T → Bool) (lvl : Nat) (cf : Nat → Nat) (L : List Nat) :
    ∀ s : IterState T W,
      ((L.foldl (fun s2 i => push_node wf ff s2 lvl (cf i)) s).octree = s.octree)
      ∧ (heapInv wf ff s.octree s.processing →
          heapInv wf ff s.octree
            ((L.foldl (fun s2 i => push_node wf ff s2 lvl (cf i)) s).processing))
      ∧ (∀ m ∈ (L.foldl (fun s2 i => push_node wf ff s2 lvl (cf i)) s).processing,
          m ∈ s.processing ∨ ∃ i ∈ L, m.level = lvl ∧ m.node_pos = cf i
            ∧ wf lvl (cf i) = some m.weight) := by
  induction L with
  | nil =>
    intro s
    exact ⟨rfl, fun h => h, fun m hm => Or.inl hm⟩
  | cons a L ih =>
    intro s
    simp only [List.foldl_cons]
    obtain ⟨ihO, ihI, ihM⟩ := ih (push_node wf ff s lvl (cf a))
    have hO := push_node_octree wf ff s lvl (cf a)
    refine ⟨by rw [ihO, hO], ?_, ?_⟩
    · intro hI
      have h1 : heapInv wf ff (push_node wf ff s lvl (cf a)).octree
          (push_node wf ff s lvl (cf a)).processing := by
        rw [hO]
        exact push_node_inv wf ff lvl (cf a) hI
      have h2 := ihI h1
      rw [hO] at h2
      exact h2
    · intro m hm
      rcases ihM m hm with h | ⟨i, hi, hrest⟩
      · rcases push_node_mem wf ff s lvl (cf a) h with h2 | ⟨hl, hp2, hw, _⟩
        · exact Or.inl h2
        · exact Or.inr ⟨a, List.mem_cons_self _ _, hl, hp2, hw⟩
      · exact Or.inr ⟨i, List.mem_cons_of_mem _ hi, hrest⟩

/-- The `for i in 0..8` child push of Iterator::next. -/
def pushChildren {T W : Type} [Inhabited T] (wf : Nat → Nat → Option W)
    (ff : T → Bool) (s : IterState T W) (lvl pos : Nat) : IterState T W :=
  (List.range 8).foldl
    (fun s2 i => push_node wf ff s2 lvl (ZI64.shl pos 1 ||| ZI64.from_raw i)) s

theorem pushChildren_measure {T W : Type} [Inhabited T] (wf : Nat → Nat → Option W)
    (ff : T → Bool) (s : IterState T W) (lvl pos : Nat) :
    heapMeasure (pushChildren wf ff s lvl pos).processing
      ≤ heapMeasure s.processing + 8 * 9 ^ lvl := by
  have h := foldl_push_measure wf ff lvl
    (fun i => ZI64.shl pos 1 ||| ZI64.from_raw i) (List.range 8) s
  simp only [List.length_range] at h
  exact h

/-- Iterator::next, drained to the full emitted list: pop nodes best-first,
emit leaves, expand inner nodes into their eight children. -/
def runIter {T W : Type} [Inhabited T] [LinearOrder W] (weight_fn : Nat → Nat → Option W)
    (filter_fn : T → Bool) (s : IterState T W) : List (Nat × W) :=
  match hpop : popMin s.processing with
  | none => []
  | some (n, rest) =>
    if n.level = 0 then
      (n.node_pos, n.weight) ::
        runIter weight_fn filter_fn { s with processing := rest }
    else
      runIter weight_fn filter_fn
        (pushChildren weight_fn filter_fn { s with processing := rest }
          (n.level - 1) n.node_pos)
termination_by heapMeasure s.processing
decreasing_by
  · have h1 := popMin_measure hpop
    have h2 : 0 < 9 ^ n.level := Nat.pos_pow_of_pos _ (by omega)
    show heapMeasure rest < heapMeasure s.processing
    omega
  · have h1 := popMin_measure hpop
    have h2 := pushChildren_measure weight_fn filter_fn
      ({ s with processing := rest }) (n.level - 1) n.node_pos
    have h3 : ({ s with processing := rest } : IterState T W).processing = rest := rfl
    rw [h3] at h2
    have h4 : 9 ^ n.level = 9 ^ (n.level - 1) * 9 := by
      have h5 : n.level = (n.level - 1) + 1 := by omega
      conv_lhs => rw [h5]
      rw [Nat.pow_succ]
    have h6 : 0 < 9 ^ (n.level - 1) := Nat.pos_pow_of_pos _ (by omega)
    omega

theorem runIter_pop_none {T W : Type} [Inhabited T] [LinearOrder W]
    (wf : Nat → Nat → Option W) (ff : T → Bool) {s : IterState T W}
    (hp : popMin s.processing = none) : runIter wf ff s = [] := by
  unfold runIter
  split
  · rfl
  · next n rest heq =>
    rw [hp] at heq
    exact absurd heq (by simp)

theorem runIter_pop_leaf {T W : Type} [Inhabited T] [LinearOrder W]
    (wf : Nat → Nat → Option W) (ff : T → Bool) {s : IterState T W}
    {n : PNode W} {rest : List (PNode W)}
    (hp : popMin s.processing = some (n, rest)) (h0 : n.level = 0) :
    runIter wf ff s
      = (n.node_pos, n.weight) :: runIter wf ff { s with processing := rest } := by
  conv_lhs => unfold runIter
  split
  · next heq =>
    rw [hp] at heq
    exact absurd heq (by simp)
  · next n2 rest2 heq =>
    rw [hp] at heq
    injection heq with hpair
    injection hpair with h1 h2
    rw [← h1, ← h2, if_pos h0]

theorem runIter_pop_node {T W : Type} [Inhabited T] [LinearOrder W]
    (wf : Nat → Nat → Option W) (ff : T → Bool) {s : IterState T W}
    {n : PNode W} {rest : List (PNode W)}
    (hp : popMin s.processing = some (n, rest)) (h0 : ¬ n.level = 0) :
    runIter wf ff s
      = runIter wf ff (pushChildren wf ff { s with processing := rest }
          (n.level - 1) n.node_pos) := by
  conv_lhs => unfold runIter
  split
  · next heq =>
    rw [hp] at heq
    exact absurd heq (by simp)
  · next n2 rest2 heq =>
    rw [hp] at heq
    injection heq with hpair
    injection hpair with h1 h2
    rw [← h1, ← h2, if_neg h0]

/-- The drained iterator emits weights in non-decreasing order, every
emitted leaf passed the filter on its own aggregate, and each emitted
weight is bounded below by some weight already on the heap. -/
theorem runIter_spec {T W : Type} [Inhabited T] [LinearOrder W]
    (wf : Nat → Nat → Option W) (ff : T → Bool)
    (hlb : ∀ level pos w, wf (level + 1) pos = some w → ∀ i, i < 8 →
      ∀ w2, wf level (ZI64.shl pos 1 ||| ZI64.from_raw i) = some w2 → w ≤ w2) :
    ∀ N : Nat, ∀ s : IterState T W, heapMeasure s.processing ≤ N →
      heapInv wf ff s.octree s.processing →
      List.Chain' (fun a b : Nat × W => a.2 ≤ b.2) (runIter wf ff s)
      ∧ (∀ x ∈ runIter wf ff s, ∃ m ∈ s.processing, m.weight ≤ x.2)
      ∧ (∀ x ∈ runIter wf ff s, ff (ChunkedOctree.get s.octree 0 x.1) = true
          ∧ wf 0 x.1 = some x.2) := by
  intro N
  induction N with
  | zero =>
    intro s hN hI
    rcases hp : popMin s.processing with _ | ⟨n, rest⟩
    · rw [runIter_pop_none wf ff hp]
      exact ⟨List.chain'_nil, fun x hx => absurd hx (by simp),
        fun x hx => absurd hx (by simp)⟩
    · exfalso
      have h1 := popMin_measure hp
      have h2 : 0 < 9 ^ n.level := Nat.pos_pow_of_pos _ (by omega)
      omega
  | succ N ih =>
    intro s hN hI
    rcases hp : popMin s.processing with _ | ⟨n, rest⟩
    · rw [runIter_pop_none wf ff hp]
      exact ⟨List.chain'_nil, fun x hx => absurd hx (by simp),
        fun x hx => absurd hx (by simp)⟩
    · have hmem := popMin_mem hp
      have hmin := popMin_min hp
      have hrsub := popMin_rest_mem hp
      have hmeas := popMin_measure hp
      have h9 : 0 < 9 ^ n.level := Nat.pos_pow_of_pos _ (by omega)
      by_cases h0 : n.level = 0
      · rw [runIter_pop_leaf wf ff hp h0]
        have hI1 : heapInv wf ff ({ s with processing := rest }
            : IterState T W).octree ({ s with processing := rest }
            : IterState T W).processing := by
          intro m hm
          exact hI m (hrsub m hm)
        have hN1 : heapMeasure ({ s with processing := rest }
            : IterState T W).processing ≤ N := by
          show heapMeasure rest ≤ N
          omega
        obtain ⟨ihChain, ihBound, ihFilter⟩ := ih { s with processing := rest } hN1 hI1
        obtain ⟨hIf, hIw⟩ := hI n hmem
        refine ⟨?_, ?_, ?_⟩
        · rw [List.chain'_cons']
          refine ⟨?_, ihChain⟩
          intro b hb
          have hbmem : b ∈ runIter wf ff { s with processing := rest } :=
            List.mem_of_mem_head? hb
          obtain ⟨m, hm1, hm2⟩ := ihBound b hbmem
          have h3 : n.weight ≤ m.weight := hmin m (hrsub m hm1)
          exact le_trans h3 hm2
        · intro x hx
          rcases List.mem_cons.mp hx with h4 | h4
          · refine ⟨n, hmem, ?_⟩
            rw [h4]
          · obtain ⟨m, hm1, hm2⟩ := ihBound x h4
            exact ⟨m, hrsub m hm1, hm2⟩
        · intro x hx
          rcases List.mem_cons.mp hx with h4 | h4
          · rw [h4]
            refine ⟨hIf h0, ?_⟩
            rw [← h0]
            exact hIw
          · exact ihFilter x h4
      · rw [runIter_pop_node wf ff hp h0]
        obtain ⟨hfO, hfI, hfM⟩ := foldl_push_facts wf ff (n.level - 1)
          (fun i => ZI64.shl n.node_pos 1 ||| ZI64.from_raw i) (List.range 8)
          { s with processing := rest }
        have hI1 : heapInv wf ff ({ s with processing := rest }
            : IterState T W).octree ({ s with processing := rest }
            : IterState T W).processing := by
          intro m hm
          exact hI m (hrsub m hm)
        have hI2 : heapInv wf ff (pushChildren wf ff { s with processing := rest }
              (n.level - 1) n.node_pos).octree
            (pushChildren wf ff { s with processing := rest }
              (n.level - 1) n.node_pos).processing := by
          have h5 := hfI hI1
          have h6 : (pushChildren wf ff { s with processing := rest }
              (n.level - 1) n.node_pos).octree
              = ({ s with processing := rest } : IterState T W).octree := hfO
          rw [h6]
          exact h5
        have hN2 : heapMeasure (pushChildren wf ff { s with processing := rest }
            (n.level - 1) n.node_pos).processing ≤ N := by
          have h5 := pushChildren_measure wf ff ({ s with processing := rest })
            (n.level - 1) n.node_pos
          have h6 : ({ s with processing := rest } : IterState T W).processing
              = rest := rfl
          rw [h6] at h5
          have h7 : 9 ^ n.level = 9 ^ (n.level - 1) * 9 := by
            have h8 : n.level = (n.level - 1) + 1 := by omega
            conv_lhs => rw [h8]
            rw [Nat.pow_succ]
          have h9b : 0 < 9 ^ (n.level - 1) := Nat.pos_pow_of_pos _ (by omega)
          omega
        obtain ⟨ihChain, ihBound, ihFilter⟩ := ih (pushChildren wf ff
          { s with processing := rest } (n.level - 1) n.node_pos) hN2 hI2
        have hoct : (pushChildren wf ff { s with processing := rest }
            (n.level - 1) n.node_pos).octree = s.octree := hfO
        refine ⟨ihChain, ?_, ?_⟩
        · intro x hx
          obtain ⟨m, hm1, hm2⟩ := ihBound x hx
          rcases hfM m hm1 with h4 | ⟨i, hiL, hml, hmp, hmw⟩
          · exact ⟨m, hrsub m h4, hm2⟩
          · refine ⟨n, hmem, ?_⟩
            obtain ⟨_, hIw⟩ := hI n hmem
            have hi8 : i < 8 := List.mem_range.mp hiL
            have hlev : (n.level - 1) + 1 = n.level := by omega
            have hww : n.weight ≤ m.weight := by
              refine hlb (n.level - 1) n.node_pos n.weight ?_ i hi8 m.weight ?_
              · rw [hlev]
                exact hIw
              · exact hmw
            exact le_trans hww hm2
        · intro x hx
          have h4 := ihFilter x hx
          rw [hoct] at h4
          exact h4

theorem search_region_octree {T W : Type} [Inhabited T] (wf : Nat → Nat → Option W)
    (ff : T → Bool) (s : IterState T W) (rp : Nat) :
    (search_region wf ff s rp).octree = s.octree := by
  unfold search_region
  split
  · rfl
  · exact push_node_octree wf ff ({ s with checked_regions := rp :: s.checked_regions })
      s.octree.depth rp

theorem search_region_inv {T W : Type} [Inhabited T] (wf : Nat → Nat → Option W)
    (ff : T → Bool) {s : IterState T W} (rp : Nat)
    (hI : heapInv wf ff s.octree s.processing) :
    heapInv wf ff s.octree (search_region wf ff s rp).processing := by
  unfold search_region
  split
  · exact hI
  · exact push_node_inv wf ff s.octree.depth rp hI

theorem foldl_sr_facts {T W : Type} [Inhabited T] (wf : Nat → Nat → Option W)
    (ff : T → Bool) (base : Nat) (L : List Nat) :
    ∀ s : IterState T W,
      ((L.foldl (fun s2 o => search_region wf ff s2 (ZI64.add base o)) s).octree
        = s.octree)
      ∧ (heapInv wf ff s.octree s.processing →
          heapInv wf ff s.octree
            ((L.foldl (fun s2 o => search_region wf ff s2 (ZI64.add base o)) s).processing)) := by
  induction L with
  | nil =>
    intro s
    exact ⟨rfl, fun h => h⟩
  | cons a L ih =>
    intro s
    simp only [List.foldl_cons]
    obtain ⟨ihO, ihI⟩ := ih (search_region wf ff s (ZI64.add base a))
    have hO := search_region_octree wf ff s (ZI64.add base a)
    refine ⟨by rw [ihO, hO], ?_⟩
    intro hI
    have h1 : heapInv wf ff (search_region wf ff s (ZI64.add base a)).octree
        (search_region wf ff s (ZI64.add base a)).processing := by
      rw [hO]
      exact search_region_inv wf ff (ZI64.add base a) hI
    have h2 := ihI h1
    rw [hO] at h2
    exact h2

theorem search_octree {T W : Type} [Inhabited T] (wf : Nat → Nat → Option W)
    (ff : T → Bool) (s : IterState T W) (np : Nat) :
    (search wf ff s np).octree = s.octree :=
  (foldl_sr_facts wf ff (ZI64.shr np s.octree.depth) searchOffsets s).1

theorem search_inv {T W : Type} [Inhabited T] (wf : Nat → Nat → Option W)
    (ff : T → Bool) {s : IterState T W} (np : Nat)
    (hI : heapInv wf ff s.octree s.processing) :
    heapInv wf ff s.octree (search wf ff s np).processing :=
  (foldl_sr_facts wf ff (ZI64.shr np s.octree.depth) searchOffsets s).2 hI

/-- ChunkedOctree::find: the fresh iterator state over an octree. -/
def find {T W : Type} (t : ChunkedOctree T) : IterState T W :=
  { octree := t, checked_regions := [], processing := [] }

/-- C4: for every octree, origin, filter and weight function whose value on
a node is a lower bound on its value on each of the node's eight children,
draining find(weight_fn, filter_fn).search(origin) emits (leaf, weight)
pairs in non-decreasing weight order, and every emitted leaf was admitted
by the filter on its own aggregate, with the weight the weight function
assigned it. -/
theorem C4_find_ordering {T W : Type} [Inhabited T] [LinearOrder W]
    (t : ChunkedOctree T) (weight_fn : Nat → Nat → Option W) (filter_fn : T → Bool)
    (origin : Nat)
    (hlb : ∀ level pos w, weight_fn (level + 1) pos = some w → ∀ i, i < 8 →
      ∀ w2, weight_fn level (ZI64.shl pos 1 ||| ZI64.from_raw i) = some w2 → w ≤ w2) :
    List.Chain' (fun a b : Nat × W => a.2 ≤ b.2)
      (runIter weight_fn filter_fn (search weight_fn filter_fn (find t) origin))
    ∧ ∀ x ∈ runIter weight_fn filter_fn (search weight_fn filter_fn (find t) origin),
        filter_fn (ChunkedOctree.get t 0 x.1) = true
        ∧ weight_fn 0 x.1 = some x.2 := by
  have hIempty : heapInv weight_fn filter_fn (find t (W := W)).octree
      (find t (W := W)).processing := by
    intro n hn
    exact absurd hn (by simp [find])
  have hO := search_octree weight_fn filter_fn (find t) origin
  have hI := search_inv weight_fn filter_fn origin hIempty
  obtain ⟨hc, hb, hf⟩ := runIter_spec weight_fn filter_fn hlb
    (heapMeasure (search weight_fn filter_fn (find t) origin).processing)
    (search weight_fn filter_fn (find t) origin) (Nat.le_refl _)
    (by rw [hO]; exact hI)
  refine ⟨hc, ?_⟩
  intro x hx
  have h2 := hf x hx
  rw [hO] at h2
  exact h2

theorem C4_find_ordering_witness :
    List.Chain' (fun a b : Nat × Nat => a.2 ≤ b.2)
      (runIter (fun _ _ => some 0) (fun _ => true)
        (search (fun _ _ => some 0) (fun _ => true)
          (find (⟨1, []⟩ : ChunkedOctree Nat)) 0))
    ∧ ∀ x ∈ runIter (fun _ _ => some 0) (fun _ => true)
        (search (fun _ _ => some 0) (fun _ => true)
          (find (⟨1, []⟩ : ChunkedOctree Nat)) 0),
        (fun _ => true) (ChunkedOctree.get (⟨1, []⟩ : ChunkedOctree Nat) 0 x.1) = true
        ∧ (fun _ _ => (some 0 : Option Nat)) 0 x.1 = some x.2 :=
  C4_find_ordering (⟨1, []⟩ : ChunkedOctree Nat) (fun _ _ => some 0) (fun _ => true) 0
    (fun _ _ w hw i _ w2 hw2 => by
      injection hw with h1
      injection hw2 with h2
      omega)

end ChunkedOctreeIterator

end Gaemstone
